import Mathlib

/-!
# jiebago: TextRank keyword extraction (`analyse`) and summarisation (`summary`)

Shallow embedding of `analyse/textrank.go`, `summary/textrank.go`,
`summary/sentence.go` and `summary/set.go`.

Modelling conventions

* `float64` values are modelled by exact rationals (`ℚ`): every finite float is a
  rational, and the arithmetic on them is taken without rounding.  A quotient whose
  divisor is zero follows Lean's convention (`x / 0 = 0`); Go would produce an
  infinity or a NaN there.  The type `float64` below adds the NaN and the two
  infinities, and the namespace `ieee` holds `rank` on such scores; the two models
  compute the same raw scores whenever no out-weight used as a divisor is zero
  (`rawScores_embed`).
* A Go `map[K]V` is an association list holding each key at most once (`GoMap`).
  Reading a missing key yields the zero value, as in Go.
* Go leaves the order of `range` over a map unspecified.  Every `range` over a map
  whose order can matter takes an explicit enumeration `σ`, a function that
  rearranges the entries of the map; `IsEnum σ` says that `σ` only permutes.
* `sort.Sort` is modelled by insertion sort.  On scores without a NaN every use in
  the code sorts with respect to a total order on elements that are pairwise
  distinguishable, so the sorted result is the same for every sorting algorithm.
  With a NaN the result depends on the algorithm; `ieee.insertionSort` follows the
  insertion sort of Go's package `sort`, which `sort.Sort` runs on short slices.
* Strings are sequences of Unicode code points (Lean `String`); `<` on them is the
  lexicographic order, which coincides with Go's bytewise order on valid UTF-8.
-/

namespace Jiebago

/-! ## Go maps -/

/-- A Go map: association list with each key stored at most once. -/
abbrev GoMap (κ ν : Type) := List (κ × ν)

namespace GoMap

variable {κ ν : Type} [DecidableEq κ]

/-- The comma-ok lookup `v, ok := m[k]`. -/
def get? : GoMap κ ν → κ → Option ν
  | [], _ => none
  | (k', v) :: rest, k => if k' = k then some v else get? rest k

/-- The plain lookup `m[k]`, giving the zero value `z` for a missing key. -/
def getD (m : GoMap κ ν) (k : κ) (z : ν) : ν := (get? m k).getD z

/-- The assignment `m[k] = v`. -/
def set : GoMap κ ν → κ → ν → GoMap κ ν
  | [], k, v => [(k, v)]
  | (k', v') :: rest, k, v => if k' = k then (k, v) :: rest else (k', v') :: set rest k v

/-- The keys held by the map. -/
def keys (m : GoMap κ ν) : List κ := m.map Prod.fst

end GoMap

/-- An enumeration order for `range` over a map: a rearrangement of its entries. -/
def IsEnum {α : Type} (σ : List α → List α) : Prop := ∀ l, (σ l).Perm l

/-! ## The weighted graph (identical in `analyse` and `summary`) -/

/-- The Go struct `edge`. -/
structure edge where
  start : String
  «end» : String
  weight : ℚ
  deriving DecidableEq, Repr

/-- The Go type `edges []edge`. -/
abbrev edges := List edge

/-- The Go struct `undirectWeightedGraph`. -/
structure undirectWeightedGraph where
  graph : GoMap String edges
  keys : List String
  deriving DecidableEq, Repr

/-- Go `newUndirectWeightedGraph`. -/
def newUndirectWeightedGraph : undirectWeightedGraph := { graph := [], keys := [] }

/-- One half of `addEdge`: register `e` under the label `n`. -/
def undirectWeightedGraph.addHalf (u : undirectWeightedGraph) (n : String) (e : edge) :
    undirectWeightedGraph :=
  match u.graph.get? n with
  | none => { graph := u.graph.set n [e], keys := u.keys ++ [n] }
  | some es => { graph := u.graph.set n (es ++ [e]), keys := u.keys }

/-- Go `(*undirectWeightedGraph).addEdge`. -/
def undirectWeightedGraph.addEdge (u : undirectWeightedGraph) (start «end» : String)
    (weight : ℚ) : undirectWeightedGraph :=
  (u.addHalf start ⟨start, «end», weight⟩).addHalf «end» ⟨«end», start, weight⟩

/-- A call of `addEdge`, as data: start, end, weight. -/
abbrev EdgeCall := String × String × ℚ

/-- The graph obtained from the empty graph by a sequence of `addEdge` calls. -/
def buildGraph (calls : List EdgeCall) : undirectWeightedGraph :=
  calls.foldl (fun u c => u.addEdge c.1 c.2.1 c.2.2) newUndirectWeightedGraph

/-- Go constant `dampingFactor = 0.85`. -/
def dampingFactor : ℚ := 85 / 100

/-- Go `math.MaxFloat64`, the value `2^1024 - 2^971`. -/
def MaxFloat64 : ℚ := 2 ^ 1024 - 2 ^ 971

/-- Go `math.SmallestNonzeroFloat64`, the value `2^-1074`. -/
def SmallestNonzeroFloat64 : ℚ := 1 / 2 ^ 1074

/-- The `sort.IsSorted` / `sort.Sort` step on `u.keys` at the head of `rank`. -/
def sortKeys (keys : List String) : List String :=
  if keys.Sorted (· ≤ ·) then keys else keys.insertionSort (· ≤ ·)

/-- The first loop of `rank`: initial score table `ws` and the table `outSum`.
Each key receives a value that does not depend on the other keys, so the order
in which the graph is enumerated is immaterial; entries are visited as stored. -/
def rankInit (graph : GoMap String edges) : GoMap String ℚ × GoMap String ℚ :=
  let wsdef : ℚ := if graph.length > 0 then 1 / (graph.length : ℚ) else 1
  graph.foldl
    (fun acc entry =>
      (acc.1.set entry.1 wsdef,
       acc.2.set entry.1 (entry.2.foldl (fun sum e => sum + e.weight) 0)))
    ([], [])

/-- The body of the inner loop of `rank` for the node `n`. -/
def rankNode (graph : GoMap String edges) (outSum ws : GoMap String ℚ) (n : String) :
    GoMap String ℚ :=
  let inedges := graph.getD n []
  let s := inedges.foldl
    (fun s e => s + e.weight / outSum.getD e.«end» 0 * ws.getD e.«end» 0) 0
  ws.set n ((1 - dampingFactor) + dampingFactor * s)

/-- One pass `for _, n := range u.keys` of `rank`, updating the table in place. -/
def rankPass (graph : GoMap String edges) (outSum : GoMap String ℚ) (keys : List String)
    (ws : GoMap String ℚ) : GoMap String ℚ :=
  keys.foldl (fun ws n => rankNode graph outSum ws n) ws

/-- The score table after the ten passes of `rank` (the raw scores). -/
def rawScores (u : undirectWeightedGraph) : GoMap String ℚ :=
  let keys := sortKeys u.keys
  let init := rankInit u.graph
  (rankPass u.graph init.2 keys)^[10] init.1

/-- The loop of `rank` computing `(minRank, maxRank)` over the visited scores. -/
def minMaxRank (visited : List ℚ) : ℚ × ℚ :=
  visited.foldl
    (fun acc w =>
      if w < acc.1 then (w, acc.2)
      else if w > acc.2 then (acc.1, w)
      else acc)
    (MaxFloat64, SmallestNonzeroFloat64)

/-- The normalisation formula of `rank`. -/
def normalize (minRank maxRank w : ℚ) : ℚ :=
  (w - minRank / 10) / (maxRank - minRank / 10)

/-- The part of `rank` shared by both copies, up to but excluding the final sort:
the label and normalised score of every entry of `ws`, in the order `σ₂` in which
the last loop visits `ws`; `σ₁` is the order of the min/max loop. -/
def rankScores (u : undirectWeightedGraph)
    (σ₁ σ₂ : GoMap String ℚ → GoMap String ℚ) : List (String × ℚ) :=
  let ws := rawScores u
  let mm := minMaxRank ((σ₁ ws).map Prod.snd)
  (σ₂ ws).map (fun nw => (nw.1, normalize mm.1 mm.2 nw.2))

/-- The call `sort.Sort(sort.Reverse(result))` for a slice with method `Less`. -/
def sortReverse {ρ : Type} (less : ρ → ρ → Prop) [DecidableRel less] (l : List ρ) :
    List ρ :=
  l.insertionSort (fun a b => ¬ less a b)

/-! ## Package `summary`: sets, sentences -/

namespace summary

/-- The Go type `set` (`map[string]struct{}`): a finite set of strings. -/
abbrev set := Finset String

/-- Go `newSet`. -/
def newSet : set := ∅

/-- Go `set.has`. -/
def set.has (s : set) (text : String) : Bool := decide (text ∈ s)

/-- Go `set.add`. -/
def set.add (s : set) (text : String) : set := if s.has text then s else insert text s

/-- Go `set.intersect`: the keys of `s` that `o` has. -/
def set.intersect (s o : set) : set := s.filter (fun k => o.has k)

/-- Go `set.len`. -/
def set.len (s : set) : ℕ := s.card

/-- The Go struct `Sentence`. -/
structure Sentence where
  pos : ℕ
  text : String
  words : set
  weight : ℚ
  deriving DecidableEq

/-- The Go type `Sentences []Sentence`. -/
abbrev Sentences := List Sentence

/-- Go `Sentence.Text`. -/
def Sentence.Text (s : Sentence) : String := s.text

/-- Go `Sentence.Weight`. -/
def Sentence.Weight (s : Sentence) : ℚ := s.weight

/-- Go `math.Log(float64(n))` for a set size `n`: minus infinity (`⊥`) at `0`, and
the float returned by the library, a rational `ln n`, otherwise. -/
def Log (ln : ℕ → ℚ) (n : ℕ) : WithBot ℚ := if n = 0 then ⊥ else (ln n : ℚ)

/-- Float division of a finite `x` by a divisor that may be minus infinity. -/
def divBot (x : ℚ) : WithBot ℚ → ℚ
  | none => 0
  | some q => x / q

/-- Go `Sentence.Similarity`; `ln` is the library logarithm. -/
def Sentence.Similarity (ln : ℕ → ℚ) (s t : Sentence) : ℚ :=
  let i := s.words.intersect t.words
  let ww : ℚ := i.len
  let ss1 := Log ln s.words.len
  let ss2 := Log ln t.words.len
  let ss := ss1 + ss2
  if ss = 0 then -1 else divBot ww (ss1 + ss2)

/-- Go `Sentences.Less`, on the two elements compared. -/
def Sentences.Less (a b : Sentence) : Prop :=
  if a.weight = b.weight then a.text < b.text else a.weight < b.weight

instance (a b : Sentence) : Decidable (Sentences.Less a b) := by
  unfold Sentences.Less; infer_instance

/-- Go `(*undirectWeightedGraph).rank` of package `summary`. -/
def rank (u : undirectWeightedGraph) (σ₁ σ₂ : GoMap String ℚ → GoMap String ℚ) :
    Sentences :=
  sortReverse Sentences.Less
    ((rankScores u σ₁ σ₂).map
      (fun nw => { pos := 0, text := nw.1, words := ∅, weight := nw.2 }))

/-- The segmenter's output record (`posseg.Segment`): token text and tag. -/
structure PosSegment where
  text : String
  pos : String
  deriving DecidableEq, Repr

/-- The Go struct `TextRanker`: the external segmenter, by its `Cut(s, true)`. -/
structure TextRanker where
  cut : String → List PosSegment

/-- Go variable `defaultAllowPOS` of package `summary`. -/
def defaultAllowPOS : List String := ["ns", "n", "vn", "v"]

/-- Go variable `posFilter`, as filled by `init`. -/
def posFilter : set := defaultAllowPOS.foldl (fun s p => s.add p) newSet

/-- Go `isFiltered`. -/
def isFiltered (text : String) : Bool := posFilter.has text

/-- Go `isSetenctStop`. -/
def isSetenctStop (r : Char) : Bool :=
  r == '。' || r == '！' || r == '？' || r == '\n' || r == '\r'

/-- The scan of Go `strings.FieldsFunc`: `cur` is the field being read, reversed. -/
def fieldsAux (f : Char → Bool) : List Char → List Char → List String
  | [], cur => if cur = [] then [] else [String.mk cur.reverse]
  | c :: cs, cur =>
    if f c then
      (if cur = [] then fieldsAux f cs [] else String.mk cur.reverse :: fieldsAux f cs [])
    else fieldsAux f cs (c :: cur)

/-- Go `strings.FieldsFunc`: the maximal non-empty runs of code points not
satisfying `f`. -/
def FieldsFunc (s : String) (f : Char → Bool) : List String := fieldsAux f s.data []

/-- State of the first loop of `TextRank`: `sentences`, `sm` and the counter `i`. -/
structure SplitState where
  sentences : Sentences
  sm : GoMap String ℕ
  i : ℕ

/-- The word set of a sentence text: the loop over `t.seg.Cut(s, true)`. -/
def wordsOf (t : TextRanker) (s : String) : set :=
  (t.cut s).foldl (fun words seg => if !isFiltered seg.pos then words.add seg.text else words)
    newSet

/-- Body of the first loop of `TextRank` for the field `s`. -/
def splitStep (t : TextRanker) (st : SplitState) (s : String) : SplitState :=
  match st.sm.get? s with
  | some _ => st
  | none =>
    { sentences := st.sentences ++ [{ pos := st.i, text := s, words := wordsOf t s, weight := 0 }],
      sm := st.sm.set s st.i,
      i := st.i + 1 }

/-- The first loop of `TextRank`. -/
def splitSentences (t : TextRanker) (text : String) : SplitState :=
  (FieldsFunc text isSetenctStop).foldl (splitStep t) { sentences := [], sm := [], i := 0 }

/-- The pair accumulator `cm` of `TextRank`. -/
def similarityMap (ln : ℕ → ℚ) (sentences : Sentences) : GoMap (String × String) ℚ :=
  sentences.enum.foldl
    (fun cm is1 =>
      if is1.1 < sentences.length + 1 then
        sentences.foldl
          (fun cm s2 =>
            let sim := is1.2.Similarity ln s2
            if sim > 0 then cm.set (is1.2.Text, s2.Text) sim else cm)
          cm
      else cm)
    []

/-- The loop `for startEnd, weight := range cm` adding the edges, `cm` being
enumerated as `entries`. -/
def graphOf (entries : List ((String × String) × ℚ)) : undirectWeightedGraph :=
  buildGraph (entries.map (fun kv => (kv.1.1, kv.1.2, kv.2)))

/-- The selection loop of `TextRank` over the ranked `tags`. -/
def selectPoses (limit : ℤ) (sm : GoMap String ℕ) : Sentences → ℤ → List ℕ
  | [], _ => []
  | t :: rest, totalLength =>
    let c : ℤ := t.Text.length
    if c > limit then selectPoses limit sm rest totalLength
    else
      let pos := sm.getD t.Text 0
      let totalLength := totalLength + (c + 1)
      if totalLength > limit then []
      else pos :: selectPoses limit sm rest totalLength

/-- Go `(*TextRanker).TextRank` of package `summary`.  `σc` enumerates `cm`, `σ₁` and
`σ₂` enumerate the score table inside `rank`.  The result is `none` when an index
`sentences[v]` is out of range (a run-time panic in Go). -/
def TextRanker.TextRank (t : TextRanker) (ln : ℕ → ℚ)
    (σc : GoMap (String × String) ℚ → GoMap (String × String) ℚ)
    (σ₁ σ₂ : GoMap String ℚ → GoMap String ℚ) (text : String) (limit : ℤ) :
    Option Sentences :=
  let st := splitSentences t text
  let cm := similarityMap ln st.sentences
  let g := graphOf (σc cm)
  let tags := rank g σ₁ σ₂
  let poses := selectPoses limit st.sm tags 0
  let poses := poses.insertionSort (· ≤ ·)
  poses.mapM (fun v => st.sentences[v]?)

/-- Go `(*TextRanker).Summary`. -/
def TextRanker.Summary (t : TextRanker) (ln : ℕ → ℚ)
    (σc : GoMap (String × String) ℚ → GoMap (String × String) ℚ)
    (σ₁ σ₂ : GoMap String ℚ → GoMap String ℚ) (text : String) (limit : ℤ) :
    Option String :=
  (t.TextRank ln σc σ₁ σ₂ text limit).map
    (fun ss => String.join (ss.map (fun s => s.text ++ "。")))

end summary

/-! ## Package `analyse` -/

namespace analyse

/-- Modelled from the spec: the record `Segment` of package `analyse` (declared in a
file that is not part of the sources at hand); a label with its score. -/
structure Segment where
  text : String
  weight : ℚ
  deriving DecidableEq, Repr

/-- The Go type `Segments []Segment`. -/
abbrev Segments := List Segment

/-- Modelled from the spec: `Segments.Less`, missing from the sources at hand; ranked
results are ordered by score, ties broken lexicographically on the label. -/
def Segments.Less (a b : Segment) : Prop :=
  if a.weight = b.weight then a.text < b.text else a.weight < b.weight

instance (a b : Segment) : Decidable (Segments.Less a b) := by
  unfold Segments.Less; infer_instance

/-- Go `(*undirectWeightedGraph).rank` of package `analyse`. -/
def rank (u : undirectWeightedGraph) (σ₁ σ₂ : GoMap String ℚ → GoMap String ℚ) :
    Segments :=
  sortReverse Segments.Less
    ((rankScores u σ₁ σ₂).map (fun nw => { text := nw.1, weight := nw.2 }))

/-- Go variable `defaultAllowPOS` of package `analyse`. -/
def defaultAllowPOS : List String :=
  ["nr", "nrf", "nrfg", "ns", "nsf", "nt", "nz", "nl", "ng", "n", "vn"]

/-- Go variable `defaultMinWordLength`. -/
def defaultMinWordLength : ℤ := 2

/-- The Go struct `TextRanker`: the external segmenter, by its `Cut(s, true)`. -/
structure TextRanker where
  cut : String → List summary.PosSegment

/-- The map `posFilt` built from `allowPOS` at the head of `TextRankWithPOS`. -/
def posFilt (allowPOS : List String) : GoMap String ℤ :=
  allowPOS.foldl (fun m pos => m.set pos 1) []

/-- The update of `cm` for the key `k`: set to `1.0` or increase by `1.0`. -/
def bump (cm : GoMap (String × String) ℚ) (k : String × String) :
    GoMap (String × String) ℚ :=
  match cm.get? k with
  | none => cm.set k 1
  | some w => cm.set k (w + 1)

/-- The co-occurrence accumulator `cm` of `TextRankWithPOS`. -/
def cooccurrence (filt : GoMap String ℤ) (pairs : List summary.PosSegment) :
    GoMap (String × String) ℚ :=
  let span := 5
  (List.range pairs.length).foldl
    (fun cm i =>
      let pi := pairs.getD i ⟨"", ""⟩
      if (filt.get? pi.pos).isSome then
        ((List.range' (i + 1) (min (i + span) pairs.length - (i + 1)))).foldl
          (fun cm j =>
            let pj := pairs.getD j ⟨"", ""⟩
            if !(filt.get? pj.pos).isSome then cm
            else if (pi.text.length : ℤ) < defaultMinWordLength then cm
            else bump cm (pi.text, pj.text))
          cm
      else cm)
    []

/-- Go `(*TextRanker).TextRankWithPOS`.  `σc` enumerates `cm`, `σ₁` and `σ₂`
enumerate the score table inside `rank`. -/
def TextRanker.TextRankWithPOS (t : TextRanker)
    (σc : GoMap (String × String) ℚ → GoMap (String × String) ℚ)
    (σ₁ σ₂ : GoMap String ℚ → GoMap String ℚ)
    (sentence : String) (topK : ℤ) (allowPOS : List String) : Segments :=
  let filt := posFilt allowPOS
  let pairs := t.cut sentence
  let cm := cooccurrence filt pairs
  let g := summary.graphOf (σc cm)
  let tags := rank g σ₁ σ₂
  if topK > 0 ∧ (tags.length : ℤ) > topK then tags.take topK.toNat else tags

/-- Go `(*TextRanker).TextRank` of package `analyse`. -/
def TextRanker.TextRank (t : TextRanker)
    (σc : GoMap (String × String) ℚ → GoMap (String × String) ℚ)
    (σ₁ σ₂ : GoMap String ℚ → GoMap String ℚ) (sentence : String) : Segments :=
  t.TextRankWithPOS σc σ₁ σ₂ sentence (-1) defaultAllowPOS

/-- Go `(*TextRanker).TopTextRank`. -/
def TextRanker.TopTextRank (t : TextRanker)
    (σc : GoMap (String × String) ℚ → GoMap (String × String) ℚ)
    (σ₁ σ₂ : GoMap String ℚ → GoMap String ℚ) (sentence : String) (topK : ℤ) : Segments :=
  t.TextRankWithPOS σc σ₁ σ₂ sentence topK defaultAllowPOS

/-- The accumulator `cm` of `SimHashRank`: every pair of positions within the window
counts, without tag or length filter. -/
def simHashCooccurrence (pairs : List summary.PosSegment) : GoMap (String × String) ℚ :=
  let span := 5
  (List.range pairs.length).foldl
    (fun cm i =>
      let pi := pairs.getD i ⟨"", ""⟩
      ((List.range' (i + 1) (min (i + span) pairs.length - (i + 1)))).foldl
        (fun cm j =>
          let pj := pairs.getD j ⟨"", ""⟩
          bump cm (pi.text, pj.text))
        cm)
    []

/-- Go `(*TextRanker).SimHashRank`. -/
def TextRanker.SimHashRank (t : TextRanker)
    (σc : GoMap (String × String) ℚ → GoMap (String × String) ℚ)
    (σ₁ σ₂ : GoMap String ℚ → GoMap String ℚ) (sentence : String) : Segments :=
  rank (summary.graphOf (σc (simHashCooccurrence (t.cut sentence)))) σ₁ σ₂

end analyse

/-! ## Definitions used in the statements -/

/-- The invariant of graphs: the key list enumerates the keys of the adjacency map,
each once. -/
def undirectWeightedGraph.WF (u : undirectWeightedGraph) : Prop :=
  u.keys = u.graph.keys ∧ u.keys.Nodup

/-- The raw score of the label visited first in each pass. -/
def rawFirst : ℚ := 1 - (17 / 20) ^ 19 / 2

/-- The raw score of the label visited second in each pass. -/
def rawSecond : ℚ := 1 - (17 / 20) ^ 20 / 2

/-- A segmenter that cuts every text into the two nouns "AA" and "BB". -/
def twoNouns : analyse.TextRanker := ⟨fun _ => [⟨"AA", "n"⟩, ⟨"BB", "n"⟩]⟩

/-- Total of `code-point length + 1` over a list of sentences. -/
def budgetOf (l : summary.Sentences) : ℤ := (l.map (fun s => (s.text.length : ℤ) + 1)).sum

/-- The texts of a list of sentences. -/
def textsOf (l : summary.Sentences) : List String := l.map summary.Sentence.text

/-- Invariant of the first loop of `TextRank` after the fields `F` have been read. -/
def SplitInv (F : List String) (st : summary.SplitState) : Prop :=
  st.i = st.sentences.length ∧
  st.sentences.map summary.Sentence.pos = List.range st.sentences.length ∧
  (textsOf st.sentences).Nodup ∧
  (∀ s, s ∈ textsOf st.sentences ↔ s ∈ F) ∧
  (∀ s, st.sm.get? s =
    if s ∈ textsOf st.sentences then some ((textsOf st.sentences).indexOf s) else none) ∧
  (textsOf st.sentences).Pairwise (fun a b => F.indexOf a < F.indexOf b)

/-- A segmenter for evaluation: every code point is a token of tag "x". -/
def charCut : summary.TextRanker :=
  ⟨fun s => s.data.map (fun c => ⟨String.mk [c], "x"⟩)⟩

/-- A stand-in for the library logarithm on set sizes, for evaluation: the integer
part of the binary logarithm, which is `0` at `1` and positive from `2` on. -/
def lnStub (n : ℕ) : ℚ := Nat.log 2 n

/-- The adjacency entries that a sequence of `addEdge` calls appends to the list of
the label `n`, in the order of the calls: a call registers `start -> end` under
`start` and `end -> start` under `end`. -/
def adjacency : List EdgeCall → String → edges
  | [], _ => []
  | c :: rest, n =>
    (if c.1 = n then [⟨c.1, c.2.1, c.2.2⟩] else []) ++
      ((if c.2.1 = n then [⟨c.2.1, c.1, c.2.2⟩] else []) ++ adjacency rest n)

/-- A segmenter that cuts every text into the three nouns "AA", "BB", "AA". -/
def threeNouns : analyse.TextRanker := ⟨fun _ => [⟨"AA", "n"⟩, ⟨"BB", "n"⟩, ⟨"AA", "n"⟩]⟩

/-- The number of entries of the adjacency list of `a` whose neighbour is `b`. -/
def neighbourCount (u : undirectWeightedGraph) (a b : String) : ℕ :=
  ((u.graph.getD a []).filter (fun e => e.«end» = b)).length

/-- A segmenter for evaluation: every text is cut into the single token "w" of tag
"x". -/
def oneWordCut : summary.TextRanker := ⟨fun _ => [⟨"w", "x"⟩]⟩

/-- The total weight that a sequence of `addEdge` calls inserts from `a` to `b`: the
weights of the calls `(a, b)` and of the calls `(b, a)`. -/
def linkWeight (calls : List EdgeCall) (a b : String) : ℚ :=
  (calls.map (fun c =>
    (if c.1 = a ∧ c.2.1 = b then c.2.2 else 0) + (if c.2.1 = a ∧ c.1 = b then c.2.2 else 0))).sum

/-- The number of position pairs `(i, j)` of a tagged token sequence with
`i < j < i + 5`, `j` within the sequence, both tags allowed, `token[i]` at least 2 code
points long, `token[i] = x` and `token[j] = y`. -/
def orderedPairCount (allowPOS : List String) (pairs : List summary.PosSegment)
    (x y : String) : ℕ :=
  (List.product (List.range pairs.length) (List.range pairs.length)).countP (fun ij =>
    decide (ij.1 < ij.2 ∧ ij.2 < ij.1 + 5 ∧
      (pairs.getD ij.1 ⟨"", ""⟩).pos ∈ allowPOS ∧ (pairs.getD ij.2 ⟨"", ""⟩).pos ∈ allowPOS ∧
      2 ≤ (pairs.getD ij.1 ⟨"", ""⟩).text.length ∧
      (pairs.getD ij.1 ⟨"", ""⟩).text = x ∧ (pairs.getD ij.2 ⟨"", ""⟩).text = y))

/-- The number of position pairs `(i, j)` of a tagged token sequence with
`i < j < i + 5`, `j` within the sequence, both tags allowed, `token[i]` at least 2 code
points long, and `{token[i], token[j]} = {a, b}`. -/
def pairCount (allowPOS : List String) (pairs : List summary.PosSegment) (a b : String) : ℕ :=
  (List.product (List.range pairs.length) (List.range pairs.length)).countP (fun ij =>
    decide (ij.1 < ij.2 ∧ ij.2 < ij.1 + 5 ∧
      (pairs.getD ij.1 ⟨"", ""⟩).pos ∈ allowPOS ∧ (pairs.getD ij.2 ⟨"", ""⟩).pos ∈ allowPOS ∧
      2 ≤ (pairs.getD ij.1 ⟨"", ""⟩).text.length ∧
      (((pairs.getD ij.1 ⟨"", ""⟩).text = a ∧ (pairs.getD ij.2 ⟨"", ""⟩).text = b) ∨
        ((pairs.getD ij.1 ⟨"", ""⟩).text = b ∧ (pairs.getD ij.2 ⟨"", ""⟩).text = a))))

/-- A `float64` with its exceptional values: `nan` is a NaN, `ninf` and `pinf` are the
two infinities, and `fin q` is the finite float of exact value `q`.  The arithmetic on
finite values is taken without rounding and without overflow, and the two zeros are
not told apart (a zero divisor counts as the positive zero). -/
inductive float64 where
  | nan : float64
  | ninf : float64
  | pinf : float64
  | fin : ℚ → float64
  deriving DecidableEq

namespace float64

/-- The float operation `-x`. -/
def neg : float64 → float64
  | nan => nan
  | ninf => pinf
  | pinf => ninf
  | fin a => fin (-a)

/-- The float operation `x + y`. -/
def add : float64 → float64 → float64
  | nan, _ => nan
  | _, nan => nan
  | fin a, fin b => fin (a + b)
  | pinf, ninf => nan
  | ninf, pinf => nan
  | pinf, _ => pinf
  | _, pinf => pinf
  | ninf, _ => ninf
  | _, ninf => ninf

/-- The float operation `x - y`. -/
def sub (x y : float64) : float64 := add x (neg y)

/-- The product of an infinity of sign `pos` with the finite value `b`. -/
def infTimes (pos : Bool) (b : ℚ) : float64 :=
  if b = 0 then nan
  else if 0 < b then (if pos then pinf else ninf)
  else (if pos then ninf else pinf)

/-- The float operation `x * y`. -/
def mul : float64 → float64 → float64
  | nan, _ => nan
  | _, nan => nan
  | fin a, fin b => fin (a * b)
  | pinf, pinf => pinf
  | ninf, ninf => pinf
  | pinf, ninf => ninf
  | ninf, pinf => ninf
  | pinf, fin b => infTimes true b
  | ninf, fin b => infTimes false b
  | fin a, pinf => infTimes true a
  | fin a, ninf => infTimes false a

/-- The float operation `x / y`. -/
def div : float64 → float64 → float64
  | nan, _ => nan
  | _, nan => nan
  | fin a, fin b =>
    if b = 0 then (if a = 0 then nan else if 0 < a then pinf else ninf) else fin (a / b)
  | fin _, pinf => fin 0
  | fin _, ninf => fin 0
  | pinf, fin b => if 0 ≤ b then pinf else ninf
  | ninf, fin b => if 0 ≤ b then ninf else pinf
  | pinf, pinf => nan
  | pinf, ninf => nan
  | ninf, pinf => nan
  | ninf, ninf => nan

/-- The value of a finite float; `0` for a NaN and for the infinities. -/
def toRat : float64 → ℚ
  | fin a => a
  | _ => 0

/-- The float comparison `x < y`, false as soon as one side is a NaN. -/
def lt : float64 → float64 → Bool
  | fin a, fin b => decide (a < b)
  | ninf, fin _ => true
  | ninf, pinf => true
  | fin _, pinf => true
  | _, _ => false

/-- The float comparison `x == y`, false as soon as one side is a NaN. -/
def eq : float64 → float64 → Bool
  | nan, _ => false
  | _, nan => false
  | x, y => decide (x = y)

/-- The float comparison `x >= y`, false as soon as one side is a NaN. -/
def ge (x y : float64) : Bool := lt y x || eq x y

end float64

namespace ieee

/-- A score table with finite scores, as a table of `float64` values. -/
def embed (ws : GoMap String ℚ) : GoMap String float64 :=
  ws.map (fun p => (p.1, float64.fin p.2))

/-- The body of the inner loop of `rank` for the node `n`, on `float64` scores.  The
out-weights are sums of the finite edge weights. -/
def rankNode (graph : GoMap String edges) (outSum : GoMap String ℚ)
    (ws : GoMap String float64) (n : String) : GoMap String float64 :=
  let inedges := graph.getD n []
  let s := inedges.foldl
    (fun s e => float64.add s
      (float64.mul (float64.div (float64.fin e.weight) (float64.fin (outSum.getD e.«end» 0)))
        (ws.getD e.«end» (float64.fin 0))))
    (float64.fin 0)
  ws.set n (float64.add (float64.fin (1 - dampingFactor))
    (float64.mul (float64.fin dampingFactor) s))

/-- One pass `for _, n := range u.keys` of `rank`, updating the table in place. -/
def rankPass (graph : GoMap String edges) (outSum : GoMap String ℚ) (keys : List String)
    (ws : GoMap String float64) : GoMap String float64 :=
  keys.foldl (fun ws n => rankNode graph outSum ws n) ws

/-- The score table after the ten passes of `rank` (the raw scores). -/
def rawScores (u : undirectWeightedGraph) : GoMap String float64 :=
  let keys := sortKeys u.keys
  let init := rankInit u.graph
  (rankPass u.graph init.2 keys)^[10] (embed init.1)

/-- The loop of `rank` computing `(minRank, maxRank)` over the visited scores. -/
def minMaxRank (visited : List float64) : float64 × float64 :=
  visited.foldl
    (fun acc w =>
      if float64.lt w acc.1 then (w, acc.2)
      else if float64.lt acc.2 w then (acc.1, w)
      else acc)
    (float64.fin MaxFloat64, float64.fin SmallestNonzeroFloat64)

/-- The normalisation formula of `rank`. -/
def normalize (minRank maxRank w : float64) : float64 :=
  float64.div (float64.sub w (float64.div minRank (float64.fin 10)))
    (float64.sub maxRank (float64.div minRank (float64.fin 10)))

/-- The part of `rank` up to but excluding the final sort: the label and normalised
score of every entry of `ws`, in the order `σ₂` in which the last loop visits `ws`;
`σ₁` is the order of the min/max loop. -/
def rankScores (u : undirectWeightedGraph)
    (σ₁ σ₂ : GoMap String float64 → GoMap String float64) : List (String × float64) :=
  let ws := rawScores u
  let mm := minMaxRank ((σ₁ ws).map Prod.snd)
  (σ₂ ws).map (fun nw => (nw.1, normalize mm.1 mm.2 nw.2))

/-- Go `Sentences.Less` of `summary/sentence.go` on two records, each given by its
text and weight.  `Segments.Less` of package `analyse` is not among the sources; it is
taken to be the same comparison, which is the one the spec describes (score, then
label). -/
def Less (a b : String × float64) : Bool :=
  if float64.eq a.2 b.2 then decide (a.1 < b.1) else float64.lt a.2 b.2

/-- The inner loop of `insertionSort` in Go's package `sort`: the element `x` is
swapped with its left neighbour as long as `less x neighbour`; the elements to its
left are given from the nearest to the farthest. -/
def insertLeft {ρ : Type} (less : ρ → ρ → Bool) (x : ρ) : List ρ → List ρ
  | [] => [x]
  | y :: rest => if less x y then y :: insertLeft less x rest else x :: y :: rest

/-- The function `insertionSort` of Go's package `sort`, which is what `sort.Sort`
runs on a slice of at most 12 elements (at most 6 before Go 1.19).  On a longer slice
`sort.Sort` runs another algorithm, with the same result whenever `less` is a strict
total order on the elements. -/
def insertionSort {ρ : Type} (less : ρ → ρ → Bool) (l : List ρ) : List ρ :=
  (l.foldl (fun sorted x => insertLeft less x sorted) []).reverse

/-- Go `(*undirectWeightedGraph).rank`, which the packages `analyse` and `summary` hold
in two copies that run the same statements; a returned record is given by its text and
weight.  The last step is `sort.Sort(sort.Reverse(result))`. -/
def rank (u : undirectWeightedGraph)
    (σ₁ σ₂ : GoMap String float64 → GoMap String float64) : List (String × float64) :=
  insertionSort (fun a b => Less b a) (rankScores u σ₁ σ₂)

end ieee

/-- The out-weight of the label `n` after a sequence of `addEdge` calls: the sum of
the weights of its adjacency entries. -/
def outWeight (calls : List EdgeCall) (n : String) : ℚ :=
  ((adjacency calls n).map edge.weight).sum

/-- Three `addEdge` calls, the second with weight zero. -/
def zeroEdgeCalls : List EdgeCall := [("A", "B", 1), ("C", "D", 0), ("E", "F", 1)]

/-- The raw score of "A" and of "E" in the graph of `zeroEdgeCalls`. -/
def lowRaw : ℚ := 1 - 5 / 6 * (17 / 20) ^ 19

/-- The raw score of "B" and of "F" in the graph of `zeroEdgeCalls`. -/
def highRaw : ℚ := 1 - 5 / 6 * (17 / 20) ^ 20

/-! ## Lemmas on maps -/

namespace GoMap

variable {κ ν : Type} [DecidableEq κ]

theorem get?_eq_none_iff (m : GoMap κ ν) (k : κ) : m.get? k = none ↔ k ∉ m.keys := by
  induction m with
  | nil => simp [get?, keys]
  | cons p rest ih =>
    obtain ⟨k', v⟩ := p
    by_cases h : k' = k
    · simp [get?, keys, h]
    · have h' : ¬ k = k' := fun e => h e.symm
      simpa [get?, keys, h, h'] using ih

theorem get?_isSome_iff (m : GoMap κ ν) (k : κ) : (m.get? k).isSome ↔ k ∈ m.keys := by
  rw [← not_iff_not, Bool.not_eq_true, Option.not_isSome, Option.isNone_iff_eq_none]
  exact get?_eq_none_iff m k

theorem keys_set_of_mem (m : GoMap κ ν) (k : κ) (v : ν) (h : k ∈ m.keys) :
    (m.set k v).keys = m.keys := by
  induction m with
  | nil => simp [keys] at h
  | cons p rest ih =>
    obtain ⟨k', v'⟩ := p
    by_cases hk : k' = k
    · simp [set, keys, hk]
    · have hk' : ¬ k = k' := fun e => hk e.symm
      have hr : k ∈ keys rest := by simpa [keys, hk'] using h
      have := ih hr
      simp only [keys] at this
      simp [set, keys, hk, this]

theorem keys_set_of_not_mem (m : GoMap κ ν) (k : κ) (v : ν) (h : k ∉ m.keys) :
    (m.set k v).keys = m.keys ++ [k] := by
  induction m with
  | nil => simp [set, keys]
  | cons p rest ih =>
    obtain ⟨k', v'⟩ := p
    have hk : ¬ k' = k := by
      intro e; apply h; simp [keys, e]
    have hr : k ∉ keys rest := by
      intro e; apply h; simp only [keys] at e; simp [keys, e]
    have := ih hr
    simp only [keys] at this
    simp [set, keys, hk, this]

theorem mem_keys_set (m : GoMap κ ν) (k : κ) (v : ν) (x : κ) :
    x ∈ (m.set k v).keys ↔ x ∈ m.keys ∨ x = k := by
  by_cases h : k ∈ m.keys
  · rw [keys_set_of_mem m k v h]
    constructor
    · exact Or.inl
    · rintro (h' | rfl)
      · exact h'
      · exact h
  · rw [keys_set_of_not_mem m k v h]; simp

theorem get?_set (m : GoMap κ ν) (k : κ) (v : ν) (k' : κ) :
    (m.set k v).get? k' = if k = k' then some v else m.get? k' := by
  induction m with
  | nil => simp [set, get?]
  | cons p rest ih =>
    obtain ⟨k₀, v₀⟩ := p
    by_cases h : k₀ = k
    · subst h
      by_cases h' : k₀ = k' <;> simp [set, get?, h']
    · by_cases h' : k₀ = k'
      · subst h'
        have : ¬ k = k₀ := fun e => h e.symm
        simp [set, get?, h, this]
      · simp [set, get?, h, h', ih]

theorem nodup_keys_set (m : GoMap κ ν) (k : κ) (v : ν) (h : m.keys.Nodup) :
    (m.set k v).keys.Nodup := by
  by_cases hk : k ∈ m.keys
  · rw [keys_set_of_mem m k v hk]; exact h
  · rw [keys_set_of_not_mem m k v hk]
    exact List.Nodup.append h (List.nodup_singleton k) (by simpa using hk)

end GoMap

/-! ## The graph invariant -/

theorem wf_new : newUndirectWeightedGraph.WF := by
  simp [undirectWeightedGraph.WF, newUndirectWeightedGraph, GoMap.keys]

theorem addHalf_wf (u : undirectWeightedGraph) (n : String) (e : edge) (h : u.WF) :
    (u.addHalf n e).WF := by
  obtain ⟨hk, hnd⟩ := h
  unfold undirectWeightedGraph.addHalf
  cases hg : u.graph.get? n with
  | none =>
    have hn : n ∉ u.graph.keys := (GoMap.get?_eq_none_iff _ _).1 hg
    refine ⟨?_, ?_⟩
    · simp only [GoMap.keys_set_of_not_mem _ _ _ hn, hk]
    · simp only
      rw [hk]
      rw [hk] at hnd
      exact List.Nodup.append hnd (List.nodup_singleton n) (by simpa using hn)
  | some es =>
    have hn : n ∈ u.graph.keys := by
      rw [← GoMap.get?_isSome_iff, hg]; rfl
    exact ⟨by simp only [GoMap.keys_set_of_mem _ _ _ hn, hk], hnd⟩

theorem mem_addHalf_keys (u : undirectWeightedGraph) (n : String) (e : edge) (h : u.WF)
    (x : String) : x ∈ (u.addHalf n e).keys ↔ x ∈ u.keys ∨ x = n := by
  obtain ⟨hk, -⟩ := h
  unfold undirectWeightedGraph.addHalf
  cases hg : u.graph.get? n with
  | none => simp
  | some es =>
    have hn : n ∈ u.keys := by
      rw [hk, ← GoMap.get?_isSome_iff, hg]; rfl
    constructor
    · exact Or.inl
    · rintro (h' | rfl)
      · exact h'
      · exact hn

theorem addEdge_wf (u : undirectWeightedGraph) (a b : String) (w : ℚ) (h : u.WF) :
    (u.addEdge a b w).WF :=
  addHalf_wf _ _ _ (addHalf_wf _ _ _ h)

theorem mem_addEdge_keys (u : undirectWeightedGraph) (a b : String) (w : ℚ) (h : u.WF)
    (x : String) : x ∈ (u.addEdge a b w).keys ↔ x ∈ u.keys ∨ x = a ∨ x = b := by
  unfold undirectWeightedGraph.addEdge
  rw [mem_addHalf_keys _ _ _ (addHalf_wf _ _ _ h), mem_addHalf_keys _ _ _ h, or_assoc]

theorem foldl_addEdge_wf (calls : List EdgeCall) (u : undirectWeightedGraph) (h : u.WF) :
    (calls.foldl (fun u c => u.addEdge c.1 c.2.1 c.2.2) u).WF := by
  induction calls generalizing u with
  | nil => exact h
  | cons c rest ih => exact ih _ (addEdge_wf _ _ _ _ h)

theorem mem_foldl_addEdge_keys (calls : List EdgeCall) (u : undirectWeightedGraph)
    (h : u.WF) (x : String) :
    x ∈ (calls.foldl (fun u c => u.addEdge c.1 c.2.1 c.2.2) u).keys ↔
      x ∈ u.keys ∨ ∃ c ∈ calls, x = c.1 ∨ x = c.2.1 := by
  induction calls generalizing u with
  | nil => simp
  | cons c rest ih =>
    rw [List.foldl_cons, ih _ (addEdge_wf _ _ _ _ h), mem_addEdge_keys _ _ _ _ h]
    constructor
    · rintro ((h1 | h2 | h3) | ⟨c', hc', h4⟩)
      · exact Or.inl h1
      · exact Or.inr ⟨c, by simp, Or.inl h2⟩
      · exact Or.inr ⟨c, by simp, Or.inr h3⟩
      · exact Or.inr ⟨c', by simp [hc'], h4⟩
    · rintro (h1 | ⟨c', hc', h4⟩)
      · exact Or.inl (Or.inl h1)
      · rcases List.mem_cons.1 hc' with rfl | hc''
        · rcases h4 with h4 | h4
          · exact Or.inl (Or.inr (Or.inl h4))
          · exact Or.inl (Or.inr (Or.inr h4))
        · exact Or.inr ⟨c', hc'', h4⟩

theorem buildGraph_wf (calls : List EdgeCall) : (buildGraph calls).WF :=
  foldl_addEdge_wf calls _ wf_new

theorem mem_buildGraph_keys (calls : List EdgeCall) (x : String) :
    x ∈ (buildGraph calls).keys ↔ ∃ c ∈ calls, x = c.1 ∨ x = c.2.1 := by
  unfold buildGraph
  rw [mem_foldl_addEdge_keys calls _ wf_new]
  simp [newUndirectWeightedGraph]

/-! ## Keys of the score table -/

theorem sortKeys_perm (keys : List String) : (sortKeys keys).Perm keys := by
  unfold sortKeys
  split
  · exact List.Perm.refl _
  · exact List.perm_insertionSort _ _

theorem foldl_set_keys {ν : Type} (f : String × edges → ν) (l : GoMap String edges)
    (acc : GoMap String ν) (h : (acc.keys ++ l.keys).Nodup) :
    (l.foldl (fun (acc : GoMap String ν) entry => acc.set entry.1 (f entry)) acc).keys =
      acc.keys ++ l.keys := by
  induction l generalizing acc with
  | nil => simp [GoMap.keys]
  | cons p rest ih =>
    have hp : p.1 ∉ acc.keys := by
      intro hmem
      have := (List.nodup_append.1 h).2.2
      exact this hmem (by simp [GoMap.keys])
    rw [List.foldl_cons, ih]
    · rw [GoMap.keys_set_of_not_mem _ _ _ hp]; simp [GoMap.keys]
    · rw [GoMap.keys_set_of_not_mem _ _ _ hp]; simpa [GoMap.keys] using h

theorem foldl_init_fst (d : ℚ) (l : GoMap String edges) (a b : GoMap String ℚ) :
    (l.foldl
      (fun (acc : GoMap String ℚ × GoMap String ℚ) entry =>
        (acc.1.set entry.1 d,
         acc.2.set entry.1 (entry.2.foldl (fun sum e => sum + e.weight) 0)))
      (a, b)).1 =
      l.foldl (fun (acc : GoMap String ℚ) entry => acc.set entry.1 d) a := by
  induction l generalizing a b with
  | nil => rfl
  | cons p rest ih => simp only [List.foldl_cons]; exact ih _ _

theorem rankInit_fst (graph : GoMap String edges) :
    (rankInit graph).1 =
      graph.foldl (fun (acc : GoMap String ℚ) entry => acc.set entry.1
        (if graph.length > 0 then 1 / (graph.length : ℚ) else 1)) [] := by
  unfold rankInit
  exact foldl_init_fst _ _ _ _

theorem rankInit_fst_keys (graph : GoMap String edges) (h : graph.keys.Nodup) :
    (rankInit graph).1.keys = graph.keys := by
  rw [rankInit_fst]
  have := foldl_set_keys
    (fun _ => (if graph.length > 0 then 1 / (graph.length : ℚ) else 1)) graph [] (by simpa [GoMap.keys] using h)
  simpa [GoMap.keys] using this

theorem rankNode_keys (graph : GoMap String edges) (outSum ws : GoMap String ℚ)
    (n : String) (h : n ∈ ws.keys) : (rankNode graph outSum ws n).keys = ws.keys := by
  unfold rankNode
  exact GoMap.keys_set_of_mem _ _ _ h

theorem rankPass_keys (graph : GoMap String edges) (outSum : GoMap String ℚ)
    (keys : List String) (ws : GoMap String ℚ) (h : ∀ n ∈ keys, n ∈ ws.keys) :
    (rankPass graph outSum keys ws).keys = ws.keys := by
  unfold rankPass
  induction keys generalizing ws with
  | nil => rfl
  | cons n rest ih =>
    have hn : n ∈ ws.keys := h n (by simp)
    rw [List.foldl_cons, ih, rankNode_keys _ _ _ _ hn]
    intro m hm
    rw [rankNode_keys _ _ _ _ hn]
    exact h m (by simp [hm])

theorem iterate_rankPass_keys (graph : GoMap String edges) (outSum : GoMap String ℚ)
    (keys : List String) (k : ℕ) (ws : GoMap String ℚ) (h : ∀ n ∈ keys, n ∈ ws.keys) :
    ((rankPass graph outSum keys)^[k] ws).keys = ws.keys := by
  induction k generalizing ws with
  | zero => rfl
  | succ k ih =>
    rw [Function.iterate_succ_apply, ih, rankPass_keys _ _ _ _ h]
    intro n hn
    rw [rankPass_keys _ _ _ _ h]
    exact h n hn

theorem rawScores_keys (u : undirectWeightedGraph) (h : u.WF) :
    (rawScores u).keys = u.keys := by
  obtain ⟨hk, hnd⟩ := h
  have hinit : (rankInit u.graph).1.keys = u.keys := by
    rw [rankInit_fst_keys _ (hk ▸ hnd), hk]
  unfold rawScores
  simp only
  rw [iterate_rankPass_keys, hinit]
  intro n hn
  rw [hinit]
  exact (sortKeys_perm u.keys).mem_iff.1 hn

theorem rankScores_labels (u : undirectWeightedGraph) (h : u.WF)
    (σ₁ σ₂ : GoMap String ℚ → GoMap String ℚ) (hσ : IsEnum σ₂) :
    ((rankScores u σ₁ σ₂).map Prod.fst).Perm u.keys := by
  unfold rankScores
  simp only [List.map_map]
  have : (σ₂ (rawScores u)).map Prod.fst = (σ₂ (rawScores u)).keys := rfl
  rw [show (Prod.fst ∘ fun nw : String × ℚ => (nw.1, normalize _ _ nw.2)) = Prod.fst from rfl]
  rw [← rawScores_keys u h]
  exact (hσ _).map _

/-! ## The final sort of `rank` -/

theorem sortReverse_perm {ρ : Type} (less : ρ → ρ → Prop) [DecidableRel less]
    (l : List ρ) : (sortReverse less l).Perm l :=
  List.perm_insertionSort _ _

theorem sortReverse_pairwise {ρ : Type} (less : ρ → ρ → Prop) [DecidableRel less]
    (key : ρ → ℚ ×ₗ String) (h : ∀ a b, less a b ↔ key a < key b) (l : List ρ) :
    (sortReverse less l).Pairwise (fun a b => key b ≤ key a) := by
  haveI : IsTotal ρ (fun a b => ¬ less a b) :=
    ⟨fun a b => by simp only [h, not_lt]; exact le_total _ _⟩
  haveI : IsTrans ρ (fun a b => ¬ less a b) :=
    ⟨fun a b c hab hbc => by
      simp only [h, not_lt] at hab hbc ⊢
      exact hbc.trans hab⟩
  have hs : List.Sorted (fun a b => ¬ less a b) (sortReverse less l) :=
    List.sorted_insertionSort _ l
  exact List.Pairwise.imp (fun {a b} hab => by simpa only [h, not_lt] using hab) hs

theorem lex_lt_iff (w₁ w₂ : ℚ) (t₁ t₂ : String) :
    toLex (w₁, t₁) < toLex (w₂, t₂) ↔ (if w₁ = w₂ then t₁ < t₂ else w₁ < w₂) := by
  rw [Prod.Lex.lt_iff]
  by_cases hw : w₁ = w₂
  · simp [hw]
  · simp [hw]

theorem lex_le_weight (w₁ w₂ : ℚ) (t₁ t₂ : String)
    (h : toLex (w₁, t₁) ≤ toLex (w₂, t₂)) : w₁ ≤ w₂ := by
  rw [Prod.Lex.le_iff] at h
  rcases h with h | ⟨h, -⟩
  · exact le_of_lt h
  · exact le_of_eq h

namespace summary

theorem sentences_less_iff (a b : Sentence) :
    Sentences.Less a b ↔ toLex (a.weight, a.text) < toLex (b.weight, b.text) := by
  rw [lex_lt_iff]; rfl

theorem sentences_rank_perm (u : undirectWeightedGraph) (σ₁ σ₂ : GoMap String ℚ → GoMap String ℚ) :
    (rank u σ₁ σ₂).Perm ((rankScores u σ₁ σ₂).map
      (fun nw => { pos := 0, text := nw.1, words := ∅, weight := nw.2 })) :=
  sortReverse_perm _ _

theorem sentences_rank_texts_perm (u : undirectWeightedGraph) (h : u.WF)
    (σ₁ σ₂ : GoMap String ℚ → GoMap String ℚ) (hσ : IsEnum σ₂) :
    ((rank u σ₁ σ₂).map Sentence.text).Perm u.keys := by
  refine ((sentences_rank_perm u σ₁ σ₂).map _).trans ?_
  rw [List.map_map]
  exact rankScores_labels u h σ₁ σ₂ hσ

theorem sentences_rank_weights_sorted (u : undirectWeightedGraph)
    (σ₁ σ₂ : GoMap String ℚ → GoMap String ℚ) :
    ((rank u σ₁ σ₂).map Sentence.weight).Sorted (· ≥ ·) := by
  unfold List.Sorted
  rw [List.pairwise_map]
  exact List.Pairwise.imp (fun {a b} hab => lex_le_weight _ _ _ _ hab)
    (sortReverse_pairwise Sentences.Less (fun a => toLex (a.weight, a.text)) sentences_less_iff _)

end summary

namespace analyse

theorem segments_less_iff (a b : Segment) :
    Segments.Less a b ↔ toLex (a.weight, a.text) < toLex (b.weight, b.text) := by
  rw [lex_lt_iff]; rfl

theorem segments_rank_perm (u : undirectWeightedGraph) (σ₁ σ₂ : GoMap String ℚ → GoMap String ℚ) :
    (rank u σ₁ σ₂).Perm ((rankScores u σ₁ σ₂).map
      (fun nw => { text := nw.1, weight := nw.2 })) :=
  sortReverse_perm _ _

theorem segments_rank_texts_perm (u : undirectWeightedGraph) (h : u.WF)
    (σ₁ σ₂ : GoMap String ℚ → GoMap String ℚ) (hσ : IsEnum σ₂) :
    ((rank u σ₁ σ₂).map Segment.text).Perm u.keys := by
  refine ((segments_rank_perm u σ₁ σ₂).map _).trans ?_
  rw [List.map_map]
  exact rankScores_labels u h σ₁ σ₂ hσ

theorem segments_rank_weights_sorted (u : undirectWeightedGraph)
    (σ₁ σ₂ : GoMap String ℚ → GoMap String ℚ) :
    ((rank u σ₁ σ₂).map Segment.weight).Sorted (· ≥ ·) := by
  unfold List.Sorted
  rw [List.pairwise_map]
  exact List.Pairwise.imp (fun {a b} hab => lex_le_weight _ _ _ _ hab)
    (sortReverse_pairwise Segments.Less (fun a => toLex (a.weight, a.text)) segments_less_iff _)

end analyse

/-! ## The graph with a single node -/

theorem buildGraph_loop (a : String) (w : ℚ) :
    buildGraph [(a, a, w)] = { graph := [(a, [⟨a, a, w⟩, ⟨a, a, w⟩])], keys := [a] } := by
  simp [buildGraph, undirectWeightedGraph.addEdge, undirectWeightedGraph.addHalf,
    newUndirectWeightedGraph, GoMap.get?, GoMap.set]

theorem sortKeys_singleton (a : String) : sortKeys [a] = [a] := by
  simp [sortKeys]

theorem rawScores_loop (a : String) (w : ℚ) (hw : w ≠ 0) :
    rawScores (buildGraph [(a, a, w)]) = [(a, 1)] := by
  have hpass : rankPass [(a, [⟨a, a, w⟩, ⟨a, a, w⟩])] [(a, 0 + w + w)] [a] [(a, 1)] = [(a, 1)] := by
    have h2 : w + w ≠ 0 := by
      intro h; apply hw; linarith
    simp only [rankPass, rankNode, GoMap.getD, GoMap.get?, GoMap.set, List.foldl_cons,
      List.foldl_nil, if_true, Option.getD_some, dampingFactor]
    congr 2
    rw [zero_add] 
    field_simp
  rw [buildGraph_loop]
  simp only [rawScores, sortKeys_singleton, rankInit, List.foldl_cons, List.foldl_nil,
    GoMap.set, List.length_singleton, Nat.lt_one_iff, gt_iff_lt, zero_lt_one, if_true,
    Nat.cast_one, div_one]
  exact Function.iterate_fixed hpass 10

theorem minMaxRank_singleton (w : ℚ) (h : w < MaxFloat64) :
    minMaxRank [w] = (w, SmallestNonzeroFloat64) := by
  simp [minMaxRank, h]

theorem one_lt_MaxFloat64 : (1 : ℚ) < MaxFloat64 := by
  unfold MaxFloat64; norm_num

theorem rankScores_loop (a : String) (w : ℚ) (hw : w ≠ 0) :
    rankScores (buildGraph [(a, a, w)]) id id =
      [(a, normalize 1 SmallestNonzeroFloat64 1)] := by
  simp only [rankScores, rawScores_loop a w hw, id, List.map_cons, List.map_nil,
    minMaxRank_singleton 1 one_lt_MaxFloat64]

theorem normalize_singleton_lt : normalize 1 SmallestNonzeroFloat64 1 < -9 := by
  unfold normalize SmallestNonzeroFloat64
  rw [div_lt_iff_of_neg (by norm_num)]
  norm_num

/-- C2, the failing input: the graph whose only node "A" is joined to itself by an
edge of weight 1.  The only raw score is 1, it becomes `minRank`, and `maxRank`
keeps its initial value `SmallestNonzeroFloat64`, because the `else if` branch that
raises `maxRank` is skipped for every score that lowers `minRank`.  `rank` returns
the single entry "A" with a score below -9, outside the interval [0,1]. -/
theorem C2_single_node_score_outside_unit_interval :
    analyse.rank (buildGraph [("A", "A", 1)]) id id =
        [{ text := "A", weight := normalize 1 SmallestNonzeroFloat64 1 }] ∧
      summary.rank (buildGraph [("A", "A", 1)]) id id =
        [{ pos := 0, text := "A", words := ∅, weight := normalize 1 SmallestNonzeroFloat64 1 }] ∧
      normalize 1 SmallestNonzeroFloat64 1 < -9 ∧
      ¬ (∀ s ∈ analyse.rank (buildGraph [("A", "A", 1)]) id id, 0 ≤ s.weight ∧ s.weight ≤ 1) := by
  have ha : analyse.rank (buildGraph [("A", "A", 1)]) id id =
      [{ text := "A", weight := normalize 1 SmallestNonzeroFloat64 1 }] := by
    unfold analyse.rank
    rw [rankScores_loop "A" 1 one_ne_zero]
    rfl
  refine ⟨ha, ?_, normalize_singleton_lt, ?_⟩
  · unfold summary.rank
    rw [rankScores_loop "A" 1 one_ne_zero]
    rfl
  · rw [ha]
    intro h
    have := (h _ (List.mem_singleton.2 rfl)).1
    have h9 := normalize_singleton_lt
    simp only at this
    linarith

/-! ## The graph with a single edge between two labels -/

theorem buildGraph_pair (a b : String) (w : ℚ) (hab : a ≠ b) :
    buildGraph [(a, b, w)] =
      { graph := [(a, [⟨a, b, w⟩]), (b, [⟨b, a, w⟩])], keys := [a, b] } := by
  simp [buildGraph, undirectWeightedGraph.addEdge, undirectWeightedGraph.addHalf,
    newUndirectWeightedGraph, GoMap.get?, GoMap.set, hab]

theorem sortKeys_pair_lt (a b : String) (hab : a < b) : sortKeys [a, b] = [a, b] := by
  simp [sortKeys, le_of_lt hab]

theorem sortKeys_pair_gt (a b : String) (hab : b < a) : sortKeys [a, b] = [b, a] := by
  have hns : ¬ List.Sorted (· ≤ ·) [a, b] := by
    intro h
    have := List.rel_of_sorted_cons h b (by simp)
    exact absurd this (not_le.2 hab)
  unfold sortKeys
  rw [if_neg hns]
  simp only [List.insertionSort, List.orderedInsert]
  rw [if_neg (not_le.2 hab)]

theorem rankInit_pair (a b : String) (w : ℚ) (hab : a ≠ b) :
    rankInit [(a, [⟨a, b, w⟩]), (b, [⟨b, a, w⟩])] =
      ([(a, 1 / 2), (b, 1 / 2)], [(a, w), (b, w)]) := by
  simp [rankInit, GoMap.set, hab]

theorem rankPass_pair_lt (a b : String) (w x y : ℚ) (hab : a ≠ b) (hw : w ≠ 0) :
    rankPass [(a, [⟨a, b, w⟩]), (b, [⟨b, a, w⟩])] [(a, w), (b, w)] [a, b] [(a, x), (b, y)] =
      [(a, 3 / 20 + 17 / 20 * y), (b, 3 / 20 + 17 / 20 * (3 / 20 + 17 / 20 * y))] := by
  have hba : b ≠ a := fun e => hab e.symm
  simp only [rankPass, rankNode, GoMap.getD, GoMap.get?, GoMap.set, List.foldl_cons,
    List.foldl_nil, if_true, if_false, hab, hba, Option.getD_some, dampingFactor, zero_add,
    div_self hw, one_mul]
  norm_num

theorem rankPass_pair_gt (a b : String) (w x y : ℚ) (hab : a ≠ b) (hw : w ≠ 0) :
    rankPass [(a, [⟨a, b, w⟩]), (b, [⟨b, a, w⟩])] [(a, w), (b, w)] [b, a] [(a, x), (b, y)] =
      [(a, 3 / 20 + 17 / 20 * (3 / 20 + 17 / 20 * x)), (b, 3 / 20 + 17 / 20 * x)] := by
  have hba : b ≠ a := fun e => hab e.symm
  simp only [rankPass, rankNode, GoMap.getD, GoMap.get?, GoMap.set, List.foldl_cons,
    List.foldl_nil, if_true, if_false, hab, hba, Option.getD_some, dampingFactor, zero_add,
    div_self hw, one_mul]
  norm_num

theorem iterate_pair_lt (a b : String) (w x d : ℚ) (hab : a ≠ b) (hw : w ≠ 0) (k : ℕ) :
    (rankPass [(a, [⟨a, b, w⟩]), (b, [⟨b, a, w⟩])] [(a, w), (b, w)] [a, b])^[k + 1]
        [(a, x), (b, 1 - d)] =
      [(a, 1 - (17 / 20) ^ (2 * k + 1) * d), (b, 1 - (17 / 20) ^ (2 * k + 2) * d)] := by
  induction k with
  | zero =>
    rw [Function.iterate_one, rankPass_pair_lt a b w x (1 - d) hab hw]
    congr 2
    · ring
    · congr 2; ring
  | succ k ih =>
    rw [Function.iterate_succ_apply', ih, rankPass_pair_lt a b w _ _ hab hw]
    congr 2
    · ring
    · congr 2; ring

theorem iterate_pair_gt (a b : String) (w y d : ℚ) (hab : a ≠ b) (hw : w ≠ 0) (k : ℕ) :
    (rankPass [(a, [⟨a, b, w⟩]), (b, [⟨b, a, w⟩])] [(a, w), (b, w)] [b, a])^[k + 1]
        [(a, 1 - d), (b, y)] =
      [(a, 1 - (17 / 20) ^ (2 * k + 2) * d), (b, 1 - (17 / 20) ^ (2 * k + 1) * d)] := by
  induction k with
  | zero =>
    rw [Function.iterate_one, rankPass_pair_gt a b w (1 - d) y hab hw]
    congr 2
    · ring
    · congr 2; ring
  | succ k ih =>
    rw [Function.iterate_succ_apply', ih, rankPass_pair_gt a b w _ _ hab hw]
    congr 2
    · ring
    · congr 2; ring

theorem rawScores_pair_lt (a b : String) (w : ℚ) (hab : a < b) (hw : w ≠ 0) :
    rawScores (buildGraph [(a, b, w)]) = [(a, rawFirst), (b, rawSecond)] := by
  have hne : a ≠ b := ne_of_lt hab
  have h := iterate_pair_lt a b w (1 / 2) (1 / 2) hne hw 9
  have e1 : (1 : ℚ) - 1 / 2 = 1 / 2 := by norm_num
  have e2 : (1 : ℚ) - (17 / 20) ^ (2 * 9 + 1) * (1 / 2) = rawFirst := by
    unfold rawFirst; ring
  have e3 : (1 : ℚ) - (17 / 20) ^ (2 * 9 + 2) * (1 / 2) = rawSecond := by
    unfold rawSecond; ring
  rw [e1, e2, e3] at h
  rw [buildGraph_pair a b w hne]
  unfold rawScores
  simp only [sortKeys_pair_lt a b hab, rankInit_pair a b w hne]
  exact h

theorem rawScores_pair_gt (a b : String) (w : ℚ) (hab : b < a) (hw : w ≠ 0) :
    rawScores (buildGraph [(a, b, w)]) = [(a, rawSecond), (b, rawFirst)] := by
  have hne : a ≠ b := ne_of_gt hab
  have h := iterate_pair_gt a b w (1 / 2) (1 / 2) hne hw 9
  have e1 : (1 : ℚ) - 1 / 2 = 1 / 2 := by norm_num
  have e2 : (1 : ℚ) - (17 / 20) ^ (2 * 9 + 1) * (1 / 2) = rawFirst := by
    unfold rawFirst; ring
  have e3 : (1 : ℚ) - (17 / 20) ^ (2 * 9 + 2) * (1 / 2) = rawSecond := by
    unfold rawSecond; ring
  rw [e1, e2, e3] at h
  rw [buildGraph_pair a b w hne]
  unfold rawScores
  simp only [sortKeys_pair_gt a b hab, rankInit_pair a b w hne]
  exact h

/-! ## Min/max loop and normalisation on two scores -/

theorem rawFirst_lt_rawSecond : rawFirst < rawSecond := by
  unfold rawFirst rawSecond; norm_num

theorem rawFirst_pos : 0 < rawFirst := by
  unfold rawFirst; norm_num

theorem rawSecond_lt_max : rawSecond < MaxFloat64 := by
  unfold rawSecond MaxFloat64; norm_num

theorem small_lt_rawFirst_div : SmallestNonzeroFloat64 < rawFirst / 10 := by
  unfold rawFirst SmallestNonzeroFloat64; norm_num

theorem minMaxRank_pair_asc (x y : ℚ) (hxy : x < y) (hy : y < MaxFloat64)
    (ht : SmallestNonzeroFloat64 < y) : minMaxRank [x, y] = (x, y) := by
  have hx : x < MaxFloat64 := lt_trans hxy hy
  simp [minMaxRank, hx, not_lt.2 (le_of_lt hxy), ht]

theorem minMaxRank_pair_desc (x y : ℚ) (hxy : x < y) (hy : y < MaxFloat64) :
    minMaxRank [y, x] = (x, SmallestNonzeroFloat64) := by
  simp [minMaxRank, hy, hxy]

theorem normalize_lt_of_pos (m M w₁ w₂ : ℚ) (hd : 0 < M - m / 10) (h : w₁ < w₂) :
    normalize m M w₁ < normalize m M w₂ := by
  unfold normalize
  exact div_lt_div_of_pos_right (by linarith) hd

theorem normalize_lt_of_neg (m M w₁ w₂ : ℚ) (hd : M - m / 10 < 0) (h : w₁ < w₂) :
    normalize m M w₂ < normalize m M w₁ := by
  unfold normalize
  exact div_lt_div_of_neg_of_lt hd (by linarith)

theorem perm_pair {α : Type} (l : List α) (p q : α) (h : l.Perm [p, q]) :
    l = [p, q] ∨ l = [q, p] := by
  have hl := h.length_eq
  obtain ⟨u, v, rfl⟩ := List.length_eq_two.1 hl
  have hu : u ∈ [p, q] := h.mem_iff.1 (by simp)
  rcases List.mem_pair.1 hu with rfl | rfl
  · have := List.perm_singleton.1 h.cons_inv
    left; simp at this; rw [this]
  · have h' : [u, v].Perm [u, p] := h.trans (List.Perm.swap _ _ _)
    have := List.perm_singleton.1 h'.cons_inv
    right; simp at this; rw [this]

theorem normalize_ne (m M w₁ w₂ : ℚ) (hd : M - m / 10 ≠ 0) (h : w₁ ≠ w₂) :
    normalize m M w₁ ≠ normalize m M w₂ := by
  unfold normalize
  intro e
  rw [div_left_inj' hd] at e
  exact h (by linarith)

/-- The raw scores of the graph with one edge between `a` and `b`: the label that
sorts first is visited first in each pass. -/
theorem rawScores_pair (a b : String) (w : ℚ) (hab : a ≠ b) (hw : w ≠ 0) :
    rawScores (buildGraph [(a, b, w)]) =
      [(a, if a < b then rawFirst else rawSecond), (b, if a < b then rawSecond else rawFirst)] := by
  rcases lt_or_gt_of_ne hab with h | h
  · rw [rawScores_pair_lt a b w h hw, if_pos h, if_pos h]
  · rw [rawScores_pair_gt a b w h hw, if_neg (not_lt.2 (le_of_lt h)),
      if_neg (not_lt.2 (le_of_lt h))]

theorem minMaxRank_pair_cases (v : List ℚ) (h : v.Perm [rawFirst, rawSecond]) :
    minMaxRank v = (rawFirst, rawSecond) ∨ minMaxRank v = (rawFirst, SmallestNonzeroFloat64) := by
  have ht : SmallestNonzeroFloat64 < rawSecond := by
    have h1 := small_lt_rawFirst_div
    have h2 := rawFirst_lt_rawSecond
    have h3 := rawFirst_pos
    linarith
  rcases perm_pair v _ _ h with rfl | rfl
  · exact Or.inl (minMaxRank_pair_asc _ _ rawFirst_lt_rawSecond rawSecond_lt_max ht)
  · exact Or.inr (minMaxRank_pair_desc _ _ rawFirst_lt_rawSecond rawSecond_lt_max)

theorem minMaxRank_pair_denominator (v : List ℚ) (h : v.Perm [rawFirst, rawSecond]) :
    (minMaxRank v).2 - (minMaxRank v).1 / 10 ≠ 0 := by
  have h1 := small_lt_rawFirst_div
  have h2 := rawFirst_lt_rawSecond
  have h3 := rawFirst_pos
  rcases minMaxRank_pair_cases v h with e | e <;> rw [e] <;> simp only <;> intro h0 <;> linarith

theorem rawScores_pair_values_perm (a b : String) (w : ℚ) (hab : a ≠ b) (hw : w ≠ 0)
    (σ₁ : GoMap String ℚ → GoMap String ℚ) (h₁ : IsEnum σ₁) :
    ((σ₁ (rawScores (buildGraph [(a, b, w)]))).map Prod.snd).Perm [rawFirst, rawSecond] := by
  refine ((h₁ _).map _).trans ?_
  rw [rawScores_pair a b w hab hw]
  by_cases h : a < b
  · simp [h]
  · simp only [h, if_false, List.map_cons, List.map_nil]
    exact List.Perm.swap _ _ _

theorem mem_rankScores_pair (a b : String) (w : ℚ) (hab : a ≠ b) (hw : w ≠ 0)
    (σ₁ σ₂ : GoMap String ℚ → GoMap String ℚ) (h₂ : IsEnum σ₂) (p : String × ℚ)
    (hp : p ∈ rankScores (buildGraph [(a, b, w)]) σ₁ σ₂) :
    (p.1 = a ∧ p.2 = normalize
        (minMaxRank ((σ₁ (rawScores (buildGraph [(a, b, w)]))).map Prod.snd)).1
        (minMaxRank ((σ₁ (rawScores (buildGraph [(a, b, w)]))).map Prod.snd)).2
        (if a < b then rawFirst else rawSecond)) ∨
    (p.1 = b ∧ p.2 = normalize
        (minMaxRank ((σ₁ (rawScores (buildGraph [(a, b, w)]))).map Prod.snd)).1
        (minMaxRank ((σ₁ (rawScores (buildGraph [(a, b, w)]))).map Prod.snd)).2
        (if a < b then rawSecond else rawFirst)) := by
  unfold rankScores at hp
  simp only [List.mem_map] at hp
  obtain ⟨q, hq, rfl⟩ := hp
  have hq' : q ∈ rawScores (buildGraph [(a, b, w)]) := (h₂ _).mem_iff.1 hq
  rw [rawScores_pair a b w hab hw] at hq'
  rcases List.mem_pair.1 hq' with e | e
  · left; rw [e]; exact ⟨rfl, rfl⟩
  · right; rw [e]; exact ⟨rfl, rfl⟩

/-- In the graph with a single edge between two distinct labels, the entries that
`rank` returns for the two labels carry different scores. -/
theorem pair_scores_ne (a b : String) (w : ℚ) (hab : a ≠ b) (hw : w ≠ 0)
    (σ₁ σ₂ : GoMap String ℚ → GoMap String ℚ) (h₁ : IsEnum σ₁) (h₂ : IsEnum σ₂)
    (s t : analyse.Segment) (hs : s ∈ analyse.rank (buildGraph [(a, b, w)]) σ₁ σ₂)
    (ht : t ∈ analyse.rank (buildGraph [(a, b, w)]) σ₁ σ₂) (hsa : s.text = a)
    (htb : t.text = b) : s.weight ≠ t.weight := by
  have hd := minMaxRank_pair_denominator _ (rawScores_pair_values_perm a b w hab hw σ₁ h₁)
  have hs' := (analyse.segments_rank_perm _ σ₁ σ₂).mem_iff.1 hs
  have ht' := (analyse.segments_rank_perm _ σ₁ σ₂).mem_iff.1 ht
  obtain ⟨p, hp, rfl⟩ := List.mem_map.1 hs'
  obtain ⟨q, hq, rfl⟩ := List.mem_map.1 ht'
  simp only at hsa htb ⊢
  have hba : b ≠ a := fun e => hab e.symm
  have hne : (if a < b then rawFirst else rawSecond) ≠ (if a < b then rawSecond else rawFirst) := by
    have := rawFirst_lt_rawSecond
    by_cases h : a < b
    · simp only [h, if_true]; exact ne_of_lt this
    · simp only [h, if_false]; exact ne_of_gt this
  rcases mem_rankScores_pair a b w hab hw σ₁ σ₂ h₂ p hp with ⟨-, e1⟩ | ⟨e1, -⟩
  · rcases mem_rankScores_pair a b w hab hw σ₁ σ₂ h₂ q hq with ⟨e2, -⟩ | ⟨-, e2⟩
    · exact absurd (e2.symm.trans htb) hab
    · rw [e1, e2]; exact normalize_ne _ _ _ _ hd hne
  · exact absurd (hsa.symm.trans e1) hab

theorem cooccurrence_twoNouns :
    analyse.cooccurrence (analyse.posFilt ["n"]) (twoNouns.cut "AABB") = [(("AA", "BB"), 1)] := by
  decide

theorem AA_lt_BB : ("AA" : String) < "BB" := by
  rw [String.lt_iff_toList_lt]; decide

theorem rankScores_pair_asc (a b : String) (w : ℚ) (hab : a < b) (hw : w ≠ 0) :
    rankScores (buildGraph [(a, b, w)]) id id =
      [(a, normalize rawFirst rawSecond rawFirst), (b, normalize rawFirst rawSecond rawSecond)] := by
  have ht : SmallestNonzeroFloat64 < rawSecond := by
    have h1 := small_lt_rawFirst_div
    have h2 := rawFirst_lt_rawSecond
    have h3 := rawFirst_pos
    linarith
  simp only [rankScores, rawScores_pair_lt a b w hab hw, id, List.map_cons, List.map_nil,
    minMaxRank_pair_asc _ _ rawFirst_lt_rawSecond rawSecond_lt_max ht]

theorem rankScores_pair_desc (a b : String) (w : ℚ) (hab : a < b) (hw : w ≠ 0) :
    rankScores (buildGraph [(a, b, w)]) List.reverse id =
      [(a, normalize rawFirst SmallestNonzeroFloat64 rawFirst),
       (b, normalize rawFirst SmallestNonzeroFloat64 rawSecond)] := by
  simp only [rankScores, rawScores_pair_lt a b w hab hw, id, List.map_cons, List.map_nil,
    List.reverse_cons, List.reverse_nil, List.nil_append, List.singleton_append,
    minMaxRank_pair_desc _ _ rawFirst_lt_rawSecond rawSecond_lt_max]

theorem sortReverse_pair_of_less {ρ : Type} (less : ρ → ρ → Prop) [DecidableRel less]
    (x y : ρ) (h : less x y) : sortReverse less [x, y] = [y, x] := by
  simp [sortReverse, List.insertionSort, List.orderedInsert, h]

theorem sortReverse_pair_of_not_less {ρ : Type} (less : ρ → ρ → Prop) [DecidableRel less]
    (x y : ρ) (h : ¬ less x y) : sortReverse less [x, y] = [x, y] := by
  simp [sortReverse, List.insertionSort, List.orderedInsert, h]

theorem segments_less_of_weight_lt (x y : analyse.Segment) (h : x.weight < y.weight) :
    analyse.Segments.Less x y := by
  unfold analyse.Segments.Less
  rw [if_neg (ne_of_lt h)]
  exact h

theorem segments_not_less_of_weight_gt (x y : analyse.Segment) (h : y.weight < x.weight) :
    ¬ analyse.Segments.Less x y := by
  unfold analyse.Segments.Less
  rw [if_neg (ne_of_gt h)]
  exact not_lt.2 (le_of_lt h)

/-- C3, the failing input: the token sequence "AA"/n, "BB"/n with allowed tags {n}.
The pair accumulator holds the single pair ("AA","BB"), and the raw scores of the two
labels differ.  When the min/max loop of `rank` visits the score table in the order
AA, BB the result lists "BB" before "AA"; when it visits it in the order BB, AA the
variable `maxRank` keeps its initial value, the divisor of the normalisation is
negative, and the result lists "AA" before "BB".  Two runs on the same input can
therefore return different lists. -/
theorem C3_output_depends_on_map_order :
    (twoNouns.TextRankWithPOS id id id "AABB" (-1) ["n"]).map analyse.Segment.text
        = ["BB", "AA"] ∧
      (twoNouns.TextRankWithPOS id List.reverse id "AABB" (-1) ["n"]).map analyse.Segment.text
        = ["AA", "BB"] ∧
      twoNouns.TextRankWithPOS id id id "AABB" (-1) ["n"] ≠
        twoNouns.TextRankWithPOS id List.reverse id "AABB" (-1) ["n"] := by
  have hd1 : (0 : ℚ) < rawSecond - rawFirst / 10 := by
    have h2 := rawFirst_lt_rawSecond
    have h3 := rawFirst_pos
    linarith
  have hd2 : SmallestNonzeroFloat64 - rawFirst / 10 < 0 := by
    have h1 := small_lt_rawFirst_div
    linarith
  have h1 : twoNouns.TextRankWithPOS id id id "AABB" (-1) ["n"] =
      [⟨"BB", normalize rawFirst rawSecond rawSecond⟩,
       ⟨"AA", normalize rawFirst rawSecond rawFirst⟩] := by
    unfold analyse.TextRanker.TextRankWithPOS
    simp only [cooccurrence_twoNouns, id, summary.graphOf, List.map_cons, List.map_nil,
      analyse.rank, rankScores_pair_asc "AA" "BB" 1 AA_lt_BB one_ne_zero]
    rw [sortReverse_pair_of_less _ _ _ (segments_less_of_weight_lt _ _
      (normalize_lt_of_pos _ _ _ _ hd1 rawFirst_lt_rawSecond))]
    simp
  have h2 : twoNouns.TextRankWithPOS id List.reverse id "AABB" (-1) ["n"] =
      [⟨"AA", normalize rawFirst SmallestNonzeroFloat64 rawFirst⟩,
       ⟨"BB", normalize rawFirst SmallestNonzeroFloat64 rawSecond⟩] := by
    unfold analyse.TextRanker.TextRankWithPOS
    simp only [cooccurrence_twoNouns, id, summary.graphOf, List.map_cons, List.map_nil,
      analyse.rank, rankScores_pair_desc "AA" "BB" 1 AA_lt_BB one_ne_zero]
    rw [sortReverse_pair_of_not_less _ _ _ (segments_not_less_of_weight_gt _ _
      (normalize_lt_of_neg _ _ _ _ hd2 rawFirst_lt_rawSecond))]
    simp
  refine ⟨by rw [h1]; rfl, by rw [h2]; rfl, ?_⟩
  rw [h1, h2]
  intro e
  have := congrArg (fun l => l.map analyse.Segment.text) e
  simp at this

theorem pair_rank_texts (a b : String) (w : ℚ) (hab : a ≠ b)
    (σ₁ σ₂ : GoMap String ℚ → GoMap String ℚ) (h₂ : IsEnum σ₂) :
    ((analyse.rank (buildGraph [(a, b, w)]) σ₁ σ₂).map analyse.Segment.text).Perm [a, b] := by
  have := analyse.segments_rank_texts_perm _ (buildGraph_wf [(a, b, w)]) σ₁ σ₂ h₂
  have hk : (buildGraph [(a, b, w)]).keys = [a, b] := by rw [buildGraph_pair a b w hab]
  rwa [hk] at this

theorem pair_scores_exist_ne (a b : String) (w : ℚ) (hab : a ≠ b) (hw : w ≠ 0)
    (σ₁ σ₂ : GoMap String ℚ → GoMap String ℚ) (h₁ : IsEnum σ₁) (h₂ : IsEnum σ₂) :
    ∃ s t, s ∈ analyse.rank (buildGraph [(a, b, w)]) σ₁ σ₂ ∧
      t ∈ analyse.rank (buildGraph [(a, b, w)]) σ₁ σ₂ ∧
      s.text = a ∧ t.text = b ∧ s.weight ≠ t.weight := by
  have hp := pair_rank_texts a b w hab σ₁ σ₂ h₂
  have ha : a ∈ (analyse.rank (buildGraph [(a, b, w)]) σ₁ σ₂).map analyse.Segment.text :=
    hp.mem_iff.2 (by simp)
  have hb : b ∈ (analyse.rank (buildGraph [(a, b, w)]) σ₁ σ₂).map analyse.Segment.text :=
    hp.mem_iff.2 (by simp)
  obtain ⟨s, hs, hsa⟩ := List.mem_map.1 ha
  obtain ⟨t, ht, htb⟩ := List.mem_map.1 hb
  exact ⟨s, t, hs, ht, hsa, htb, pair_scores_ne a b w hab hw σ₁ σ₂ h₁ h₂ s t hs ht hsa htb⟩

theorem isEnum_id {α : Type} : IsEnum (id : List α → List α) := fun l => List.Perm.refl l

theorem isEnum_reverse {α : Type} : IsEnum (List.reverse : List α → List α) :=
  fun l => List.reverse_perm l

/-- C8, as stated, fails: in the graph holding only the edge between "A" and "B"
with weight 3, `rank` returns an entry for "A" and an entry for "B" whose scores are
not equal. -/
theorem C8_scores_of_A_and_B_differ :
    ∃ s t, s ∈ analyse.rank (buildGraph [("A", "B", 3)]) id id ∧
      t ∈ analyse.rank (buildGraph [("A", "B", 3)]) id id ∧
      s.text = "A" ∧ t.text = "B" ∧ s.weight ≠ t.weight :=
  pair_scores_exist_ne "A" "B" 3 (by decide) (by norm_num) id id isEnum_id isEnum_id

/-- C8, amended: for the graph holding only one edge between two distinct labels
`a` and `b` with weight 3, `rank` returns one entry for each of the two labels and
their scores differ, in whatever order the score table is enumerated.  The ten
passes update the score table in place in sorted key order, so that with damping
factor 0.85 the raw score of the label that sorts first is `1 - 0.85^19 / 2` and the
raw score of the other label is `1 - 0.85^20 / 2`. -/
theorem C8_single_edge_scores_differ (a b : String) (hab : a ≠ b)
    (σ₁ σ₂ : GoMap String ℚ → GoMap String ℚ) (h₁ : IsEnum σ₁) (h₂ : IsEnum σ₂) :
    ((analyse.rank (buildGraph [(a, b, 3)]) σ₁ σ₂).map analyse.Segment.text).Perm [a, b] ∧
      (∀ s ∈ analyse.rank (buildGraph [(a, b, 3)]) σ₁ σ₂,
        ∀ t ∈ analyse.rank (buildGraph [(a, b, 3)]) σ₁ σ₂,
          s.text = a → t.text = b → s.weight ≠ t.weight) ∧
      (rawScores (buildGraph [(a, b, 3)])).getD (min a b) 0 = 1 - dampingFactor ^ 19 / 2 ∧
      (rawScores (buildGraph [(a, b, 3)])).getD (max a b) 0 = 1 - dampingFactor ^ 20 / 2 := by
  have h3 : (3 : ℚ) ≠ 0 := by norm_num
  have hba : b ≠ a := fun e => hab e.symm
  have hd : dampingFactor = 17 / 20 := by unfold dampingFactor; norm_num
  refine ⟨pair_rank_texts a b 3 hab σ₁ σ₂ h₂,
    fun s hs t ht hsa htb => pair_scores_ne a b 3 hab h3 σ₁ σ₂ h₁ h₂ s t hs ht hsa htb, ?_, ?_⟩
  · rw [rawScores_pair a b 3 hab h3, hd]
    rcases lt_or_gt_of_ne hab with h | h
    · rw [min_eq_left (le_of_lt h)]
      simp [GoMap.getD, GoMap.get?, h, rawFirst]
    · rw [min_eq_right (le_of_lt h)]
      simp [GoMap.getD, GoMap.get?, hab, not_lt.2 (le_of_lt h), rawFirst]
  · rw [rawScores_pair a b 3 hab h3, hd]
    rcases lt_or_gt_of_ne hab with h | h
    · rw [max_eq_right (le_of_lt h)]
      simp [GoMap.getD, GoMap.get?, hab, h, rawSecond]
    · rw [max_eq_left (le_of_lt h)]
      simp [GoMap.getD, GoMap.get?, not_lt.2 (le_of_lt h), rawSecond]

/-- C8, amended, at the labels "A" and "B", the score table enumerated forwards by
the min/max loop and backwards by the last loop. -/
theorem C8_single_edge_scores_differ_witness :
    ("A" : String) ≠ "B" ∧
    IsEnum (id : GoMap String ℚ → GoMap String ℚ) ∧
    IsEnum (List.reverse : GoMap String ℚ → GoMap String ℚ) ∧
    ((analyse.rank (buildGraph [("A", "B", 3)]) id List.reverse).map
      analyse.Segment.text).Perm ["A", "B"] ∧
      (∀ s ∈ analyse.rank (buildGraph [("A", "B", 3)]) id List.reverse,
        ∀ t ∈ analyse.rank (buildGraph [("A", "B", 3)]) id List.reverse,
          s.text = "A" → t.text = "B" → s.weight ≠ t.weight) ∧
      (rawScores (buildGraph [("A", "B", 3)])).getD (min "A" "B") 0 =
        1 - dampingFactor ^ 19 / 2 ∧
      (rawScores (buildGraph [("A", "B", 3)])).getD (max "A" "B") 0 =
        1 - dampingFactor ^ 20 / 2 :=
  ⟨by decide, isEnum_id, isEnum_reverse,
    C8_single_edge_scores_differ "A" "B" (by decide) id List.reverse isEnum_id isEnum_reverse⟩

/-! ## Similarity -/

theorem intersect_len_comm (s o : summary.set) :
    (s.intersect o).len = (o.intersect s).len := by
  unfold summary.set.intersect summary.set.len summary.set.has
  congr 1
  ext k
  simp only [Finset.mem_filter, decide_eq_true_eq]
  exact and_comm

/-- C6: sentence similarity is symmetric: for all sentences `s` and `t`, whatever their
word sets (empty and one-word sets included) and whatever values the library
logarithm takes, `s.Similarity(t)` equals `t.Similarity(s)`. -/
theorem C6_similarity_symmetric (ln : ℕ → ℚ) (s t : summary.Sentence) :
    s.Similarity ln t = t.Similarity ln s := by
  unfold summary.Sentence.Similarity
  simp only [intersect_len_comm s.words t.words,
    add_comm (summary.Log ln s.words.len) (summary.Log ln t.words.len)]

/-! ## Truncation to the top K -/

/-- C9: `TextRankWithPOS` with `topK = K > 0` returns exactly the first `min(K, n)`
entries of the full ranking of `n` entries, and with `K ≤ 0` it returns the full
ranking unchanged; the full ranking is the output of `rank` on the co-occurrence
graph, which is also what `topK = -1` (as passed by `TextRank`) returns.
`TopTextRank` is the same function with the default tag list. -/
theorem C9_topK_is_prefix_of_full_ranking (t : analyse.TextRanker)
    (σc : GoMap (String × String) ℚ → GoMap (String × String) ℚ)
    (σ₁ σ₂ : GoMap String ℚ → GoMap String ℚ)
    (sentence : String) (K : ℤ) (allowPOS : List String) :
    t.TextRankWithPOS σc σ₁ σ₂ sentence K allowPOS =
        (if 0 < K then
          (t.TextRankWithPOS σc σ₁ σ₂ sentence (-1) allowPOS).take
            (min K.toNat (t.TextRankWithPOS σc σ₁ σ₂ sentence (-1) allowPOS).length)
        else t.TextRankWithPOS σc σ₁ σ₂ sentence (-1) allowPOS) ∧
      t.TextRankWithPOS σc σ₁ σ₂ sentence (-1) allowPOS =
        analyse.rank (summary.graphOf (σc (analyse.cooccurrence (analyse.posFilt allowPOS)
          (t.cut sentence)))) σ₁ σ₂ ∧
      t.TextRank σc σ₁ σ₂ sentence =
        t.TextRankWithPOS σc σ₁ σ₂ sentence (-1) analyse.defaultAllowPOS ∧
      t.TopTextRank σc σ₁ σ₂ sentence K =
        t.TextRankWithPOS σc σ₁ σ₂ sentence K analyse.defaultAllowPOS := by
  have hfull : t.TextRankWithPOS σc σ₁ σ₂ sentence (-1) allowPOS =
      analyse.rank (summary.graphOf (σc (analyse.cooccurrence (analyse.posFilt allowPOS)
        (t.cut sentence)))) σ₁ σ₂ := by
    unfold analyse.TextRanker.TextRankWithPOS
    simp
  refine ⟨?_, hfull, rfl, rfl⟩
  rw [hfull]
  unfold analyse.TextRanker.TextRankWithPOS
  simp only
  generalize analyse.rank (summary.graphOf (σc (analyse.cooccurrence
    (analyse.posFilt allowPOS) (t.cut sentence)))) σ₁ σ₂ = tags
  by_cases hK : 0 < K
  · rw [if_pos hK]
    by_cases hlen : (tags.length : ℤ) > K
    · rw [if_pos ⟨hK, hlen⟩]
      congr 1
      have : K.toNat ≤ tags.length := by omega
      exact (min_eq_left this).symm
    · rw [if_neg (fun h => hlen h.2)]
      have : tags.length ≤ K.toNat := by omega
      rw [min_eq_right this, List.take_length]
  · rw [if_neg hK, if_neg (fun h => hK h.1)]

/-! ## Empty and entirely filtered input -/

theorem foldl_eq_self {α β : Type} (f : β → α → β) (l : List α) (b : β)
    (h : ∀ a ∈ l, f b a = b) : l.foldl f b = b := by
  induction l with
  | nil => rfl
  | cons a rest ih =>
    rw [List.foldl_cons, h a (by simp)]
    exact ih (fun x hx => h x (by simp [hx]))

theorem mem_keys_posFilt_aux (l : List String) (m : GoMap String ℤ) (x : String) :
    x ∈ (l.foldl (fun (m : GoMap String ℤ) pos => m.set pos 1) m).keys ↔
      x ∈ m.keys ∨ x ∈ l := by
  induction l generalizing m with
  | nil => simp
  | cons p rest ih =>
    rw [List.foldl_cons, ih, GoMap.mem_keys_set]
    simp only [List.mem_cons]
    tauto

theorem posFilt_isSome_iff (allowPOS : List String) (pos : String) :
    ((analyse.posFilt allowPOS).get? pos).isSome ↔ pos ∈ allowPOS := by
  rw [GoMap.get?_isSome_iff]
  unfold analyse.posFilt
  rw [mem_keys_posFilt_aux]
  simp [GoMap.keys]

theorem getD_mem_of_lt {α : Type} (l : List α) (i : ℕ) (d : α) (h : i < l.length) :
    l.getD i d ∈ l := by
  rw [List.getD_eq_getElem l d h]
  exact List.getElem_mem h

theorem cooccurrence_eq_nil (allowPOS : List String) (pairs : List summary.PosSegment)
    (h : ∀ p ∈ pairs, ¬ (p.pos ∈ allowPOS ∧ 2 ≤ p.text.length)) :
    analyse.cooccurrence (analyse.posFilt allowPOS) pairs = [] := by
  unfold analyse.cooccurrence
  apply foldl_eq_self
  intro i hi
  have hi' : i < pairs.length := List.mem_range.1 hi
  have hmem := getD_mem_of_lt pairs i ⟨"", ""⟩ hi'
  simp only
  split
  · rename_i hallow
    have hpos := (posFilt_isSome_iff allowPOS _).1 hallow
    have hshort : ((pairs.getD i ⟨"", ""⟩).text.length : ℤ) < analyse.defaultMinWordLength := by
      have := h _ hmem
      unfold analyse.defaultMinWordLength
      have h2 : ¬ 2 ≤ (pairs.getD i ⟨"", ""⟩).text.length := fun h2 => this ⟨hpos, h2⟩
      omega
    apply foldl_eq_self
    intro j _
    simp only [hshort, if_true]
    split <;> rfl
  · rfl

theorem isEnum_nil {α : Type} (σ : List α → List α) (h : IsEnum σ) : σ [] = [] :=
  List.perm_nil.1 (h [])

theorem rawScores_new : rawScores newUndirectWeightedGraph = [] := by
  decide

theorem segments_rank_new (σ₁ σ₂ : GoMap String ℚ → GoMap String ℚ) (h₂ : IsEnum σ₂) :
    analyse.rank newUndirectWeightedGraph σ₁ σ₂ = [] := by
  unfold analyse.rank rankScores
  simp only [rawScores_new, isEnum_nil σ₂ h₂, List.map_nil]
  rfl

theorem sentences_rank_new (σ₁ σ₂ : GoMap String ℚ → GoMap String ℚ) (h₂ : IsEnum σ₂) :
    summary.rank newUndirectWeightedGraph σ₁ σ₂ = [] := by
  unfold summary.rank rankScores
  simp only [rawScores_new, isEnum_nil σ₂ h₂, List.map_nil]
  rfl

theorem graphOf_nil : summary.graphOf [] = newUndirectWeightedGraph := rfl

/-- C7: empty or entirely filtered input gives an empty result.  `TextRankWithPOS`
returns the empty list whenever no token both has an allowed tag and is at least 2
code points long (an empty token sequence satisfies this vacuously); `TextRank` of
package `summary` returns the empty list and `Summary` the empty string whenever
the text splits into zero sentences.  The initial score `1.0` is divided by the
number of nodes only when that number is positive, so no division by zero occurs:
on the empty graph the tables `ws` and `outSum` stay empty. -/
theorem C7_empty_input_gives_empty_result (ta : analyse.TextRanker) (ts : summary.TextRanker)
    (ln : ℕ → ℚ)
    (σc : GoMap (String × String) ℚ → GoMap (String × String) ℚ)
    (σ₁ σ₂ : GoMap String ℚ → GoMap String ℚ)
    (hc : IsEnum σc) (h₂ : IsEnum σ₂)
    (sentence text : String) (topK limit : ℤ) (allowPOS : List String)
    (hA : ∀ p ∈ ta.cut sentence, ¬ (p.pos ∈ allowPOS ∧ 2 ≤ p.text.length))
    (hS : summary.FieldsFunc text summary.isSetenctStop = []) :
    ta.TextRankWithPOS σc σ₁ σ₂ sentence topK allowPOS = [] ∧
      ts.TextRank ln σc σ₁ σ₂ text limit = some [] ∧
      ts.Summary ln σc σ₁ σ₂ text limit = some "" ∧
      rankInit newUndirectWeightedGraph.graph = ([], []) := by
  have hT : ts.TextRank ln σc σ₁ σ₂ text limit = some [] := by
    unfold summary.TextRanker.TextRank summary.splitSentences
    rw [hS]
    simp only [List.foldl_nil, summary.similarityMap, List.enum_nil, isEnum_nil σc hc,
      graphOf_nil, sentences_rank_new σ₁ σ₂ h₂, summary.selectPoses, List.insertionSort]
    rfl
  refine ⟨?_, hT, ?_, rfl⟩
  · unfold analyse.TextRanker.TextRankWithPOS
    simp only [cooccurrence_eq_nil allowPOS _ hA, isEnum_nil σc hc, graphOf_nil,
      segments_rank_new σ₁ σ₂ h₂]
    simp
  · unfold summary.TextRanker.Summary
    rw [hT]
    rfl

/-- C7 at concrete inputs: one token has an allowed tag but a single code point, the
other is long enough but its tag is not allowed; the text holds stop characters only;
also the empty token sequence and the empty text. -/
theorem C7_empty_input_gives_empty_result_witness :
    (IsEnum (id : GoMap (String × String) ℚ → GoMap (String × String) ℚ) ∧
      IsEnum (List.reverse : GoMap String ℚ → GoMap String ℚ) ∧
      (∀ p ∈ (⟨fun _ => [⟨"的", "n"⟩, ⟨"我们", "r"⟩]⟩ : analyse.TextRanker).cut "我们的",
        ¬ (p.pos ∈ ["n"] ∧ 2 ≤ p.text.length)) ∧
      summary.FieldsFunc "。！\n" summary.isSetenctStop = []) ∧
    ((⟨fun _ => [⟨"的", "n"⟩, ⟨"我们", "r"⟩]⟩ : analyse.TextRanker).TextRankWithPOS
        id id List.reverse "我们的" 3 ["n"] = [] ∧
      (⟨fun _ => []⟩ : summary.TextRanker).TextRank (fun _ => 0) id id List.reverse
        "。！\n" 10 = some [] ∧
      (⟨fun _ => []⟩ : summary.TextRanker).Summary (fun _ => 0) id id List.reverse
        "。！\n" 10 = some "" ∧
      rankInit newUndirectWeightedGraph.graph = ([], [])) ∧
    ((⟨fun _ => []⟩ : analyse.TextRanker).TextRankWithPOS id id id "" (-1)
        analyse.defaultAllowPOS = [] ∧
      (⟨fun _ => []⟩ : summary.TextRanker).TextRank (fun _ => 0) id id id "" 0 = some [] ∧
      (⟨fun _ => []⟩ : summary.TextRanker).Summary (fun _ => 0) id id id "" 0 = some "" ∧
      rankInit newUndirectWeightedGraph.graph = ([], [])) :=
  ⟨⟨isEnum_id, isEnum_reverse, by decide, by decide⟩,
    C7_empty_input_gives_empty_result ⟨fun _ => [⟨"的", "n"⟩, ⟨"我们", "r"⟩]⟩ ⟨fun _ => []⟩
      (fun _ => 0) id id List.reverse isEnum_id isEnum_reverse "我们的" "。！\n" 3 10 ["n"]
      (by decide) (by decide),
    C7_empty_input_gives_empty_result ⟨fun _ => []⟩ ⟨fun _ => []⟩
      (fun _ => 0) id id id isEnum_id isEnum_id "" "" (-1) 0 analyse.defaultAllowPOS
      (by simp) (by decide)⟩

/-! ## The selection loop of `TextRank` -/

theorem selectPoses_spec (limit : ℤ) (sm : GoMap String ℕ) (tags : summary.Sentences)
    (total : ℤ) :
    ∃ sel : summary.Sentences, sel.Sublist tags ∧
      summary.selectPoses limit sm tags total = sel.map (fun t => sm.getD t.text 0) ∧
      (total ≤ limit → total + budgetOf sel ≤ limit) := by
  induction tags generalizing total with
  | nil => exact ⟨[], List.Sublist.refl _, rfl, by simp [budgetOf]⟩
  | cons t rest ih =>
    unfold summary.selectPoses
    simp only [summary.Sentence.Text]
    by_cases hc : (t.text.length : ℤ) > limit
    · rw [if_pos hc]
      obtain ⟨sel, hsub, heq, hb⟩ := ih total
      exact ⟨sel, hsub.cons _, heq, hb⟩
    · rw [if_neg hc]
      by_cases ht : total + ((t.text.length : ℤ) + 1) > limit
      · rw [if_pos ht]
        exact ⟨[], List.nil_sublist _, rfl, by simp [budgetOf]⟩
      · rw [if_neg ht]
        obtain ⟨sel, hsub, heq, hb⟩ := ih (total + ((t.text.length : ℤ) + 1))
        refine ⟨t :: sel, hsub.cons₂ _, by rw [heq]; rfl, fun _ => ?_⟩
        have := hb (not_lt.1 ht)
        simp only [budgetOf, List.map_cons, List.sum_cons] at this ⊢
        linarith

/-! ## The sentence-splitting loop of `TextRank` -/

theorem splitInv_init : SplitInv [] { sentences := [], sm := [], i := 0 } := by
  refine ⟨rfl, rfl, List.nodup_nil, fun s => Iff.rfl, fun s => ?_, List.Pairwise.nil⟩
  simp [textsOf, GoMap.get?]

theorem splitStep_inv (t : summary.TextRanker) (F : List String) (x : String)
    (st : summary.SplitState) (h : SplitInv F st) :
    SplitInv (F ++ [x]) (summary.splitStep t st x) := by
  obtain ⟨hi, hpos, hnd, hmem, hsm, hord⟩ := h
  have hordF : (textsOf st.sentences).Pairwise
      (fun a b => (F ++ [x]).indexOf a < (F ++ [x]).indexOf b) := by
    refine List.Pairwise.imp_of_mem ?_ hord
    intro a b ha hb hab
    rw [List.indexOf_append_of_mem ((hmem a).1 ha), List.indexOf_append_of_mem ((hmem b).1 hb)]
    exact hab
  unfold summary.splitStep
  cases hg : st.sm.get? x with
  | some k =>
    have hx : x ∈ textsOf st.sentences := by
      by_contra hx
      rw [hsm x, if_neg hx] at hg
      exact Option.noConfusion hg
    refine ⟨hi, hpos, hnd, fun s => ?_, hsm, hordF⟩
    rw [hmem s, List.mem_append, List.mem_singleton]
    constructor
    · exact Or.inl
    · rintro (h | rfl)
      · exact h
      · exact (hmem s).1 hx
  | none =>
    have hx : x ∉ textsOf st.sentences := by
      intro hx
      rw [hsm x, if_pos hx] at hg
      exact Option.noConfusion hg
    have hxF : x ∉ F := fun h => hx ((hmem x).2 h)
    have htexts : textsOf (st.sentences ++
        [{ pos := st.i, text := x, words := summary.wordsOf t x, weight := 0 }]) =
        textsOf st.sentences ++ [x] := by
      simp [textsOf]
    have hlen : (textsOf st.sentences).length = st.sentences.length := by
      simp [textsOf]
    refine ⟨?_, ?_, ?_, fun s => ?_, fun s => ?_, ?_⟩
    · simp [hi]
    · simp only [List.map_append, List.map_cons, List.map_nil, hpos, List.length_append,
        List.length_singleton, List.range_succ, hi]
    · rw [htexts]
      exact List.Nodup.append hnd (List.nodup_singleton x) (by simpa using hx)
    · rw [htexts, List.mem_append, List.mem_append, hmem s]
    · simp only
      rw [htexts, GoMap.get?_set]
      by_cases hxs : x = s
      · subst hxs
        rw [if_pos rfl, if_pos (by simp), List.indexOf_append_of_not_mem hx]
        simp [hi, hlen]
      · have hsx : ¬ s = x := fun e => hxs e.symm
        rw [if_neg hxs, hsm s]
        by_cases hs : s ∈ textsOf st.sentences
        · rw [if_pos hs, if_pos (by simp [hs]), List.indexOf_append_of_mem hs]
        · rw [if_neg hs, if_neg (by simp [hs, hsx])]
    · rw [htexts, List.pairwise_append]
      refine ⟨hordF, List.pairwise_singleton _ _, fun a ha b hb => ?_⟩
      rw [List.mem_singleton.1 hb, List.indexOf_append_of_mem ((hmem a).1 ha),
        List.indexOf_append_of_not_mem hxF]
      have := List.indexOf_lt_length.2 ((hmem a).1 ha)
      omega

theorem foldl_splitStep_inv (t : summary.TextRanker) (G F : List String)
    (st : summary.SplitState) (h : SplitInv F st) :
    SplitInv (F ++ G) (G.foldl (summary.splitStep t) st) := by
  induction G generalizing F st with
  | nil => simpa using h
  | cons x rest ih =>
    have := ih (F ++ [x]) _ (splitStep_inv t F x st h)
    simpa using this

theorem splitSentences_inv (t : summary.TextRanker) (text : String) :
    SplitInv (summary.FieldsFunc text summary.isSetenctStop) (summary.splitSentences t text) := by
  have := foldl_splitStep_inv t (summary.FieldsFunc text summary.isSetenctStop) [] _ splitInv_init
  simpa using this

/-! ## Labels of the sentence graph -/

theorem foldl_keys_invariant {α κ ν : Type} [DecidableEq κ] (P : κ → Prop)
    (f : GoMap κ ν → α → GoMap κ ν) (l : List α)
    (hf : ∀ (acc : GoMap κ ν), ∀ x ∈ l, (∀ k ∈ acc.keys, P k) → ∀ k ∈ (f acc x).keys, P k)
    (acc : GoMap κ ν) (h : ∀ k ∈ acc.keys, P k) : ∀ k ∈ (l.foldl f acc).keys, P k := by
  induction l generalizing acc with
  | nil => exact h
  | cons x rest ih =>
    rw [List.foldl_cons]
    exact ih (fun acc y hy => hf acc y (by simp [hy])) _ (hf acc x (by simp) h)

theorem similarityMap_keys (ln : ℕ → ℚ) (S : summary.Sentences) :
    ∀ k ∈ (summary.similarityMap ln S).keys, k.1 ∈ textsOf S ∧ k.2 ∈ textsOf S := by
  unfold summary.similarityMap
  apply foldl_keys_invariant
  · intro acc is1 his1 hacc
    have hs1 : is1.2 ∈ S := List.snd_mem_of_mem_enumFrom his1
    split
    · apply foldl_keys_invariant
      · intro acc' s2 hs2 hacc' k hk
        simp only at hk
        split at hk
        · rw [GoMap.mem_keys_set] at hk
          rcases hk with hk | rfl
          · exact hacc' k hk
          · exact ⟨List.mem_map_of_mem _ hs1, List.mem_map_of_mem _ hs2⟩
        · exact hacc' k hk
      · exact hacc
    · exact hacc
  · intro k hk
    simp [GoMap.keys] at hk

theorem graphOf_keys (σc : GoMap (String × String) ℚ → GoMap (String × String) ℚ)
    (hc : IsEnum σc) (cm : GoMap (String × String) ℚ) (x : String)
    (hx : x ∈ (summary.graphOf (σc cm)).keys) : ∃ k ∈ cm.keys, x = k.1 ∨ x = k.2 := by
  unfold summary.graphOf at hx
  rw [mem_buildGraph_keys] at hx
  obtain ⟨c, hc', hxc⟩ := hx
  obtain ⟨kv, hkv, rfl⟩ := List.mem_map.1 hc'
  have hkv' : kv ∈ cm := (hc cm).mem_iff.1 hkv
  exact ⟨kv.1, List.mem_map_of_mem _ hkv', hxc⟩

theorem graphOf_wf (entries : List ((String × String) × ℚ)) : (summary.graphOf entries).WF :=
  buildGraph_wf _

/-- The ranked sentences of `TextRank` carry pairwise distinct texts, each of which is
the text of a sentence of the input. -/
theorem tags_texts (ln : ℕ → ℚ) (S : summary.Sentences)
    (σc : GoMap (String × String) ℚ → GoMap (String × String) ℚ)
    (σ₁ σ₂ : GoMap String ℚ → GoMap String ℚ) (hc : IsEnum σc) (h₂ : IsEnum σ₂) :
    (textsOf (summary.rank (summary.graphOf (σc (summary.similarityMap ln S))) σ₁ σ₂)).Nodup ∧
      ∀ s ∈ textsOf (summary.rank (summary.graphOf (σc (summary.similarityMap ln S))) σ₁ σ₂),
        s ∈ textsOf S := by
  have hp := summary.sentences_rank_texts_perm _
    (graphOf_wf (σc (summary.similarityMap ln S))) σ₁ σ₂ h₂
  refine ⟨hp.nodup_iff.2 (graphOf_wf _).2, fun s hs => ?_⟩
  have hk := hp.mem_iff.1 hs
  obtain ⟨k, hk', hsk⟩ := graphOf_keys σc hc _ s hk
  have := similarityMap_keys ln S k hk'
  rcases hsk with rfl | rfl
  · exact this.1
  · exact this.2

/-! ## The output of `TextRank` -/

theorem exists_fin_list (n : ℕ) (l : List ℕ) (h : ∀ v ∈ l, v < n) :
    ∃ is : List (Fin n), is.map Fin.val = l :=
  ⟨l.pmap Fin.mk h, by simp [List.map_pmap]⟩

theorem mapM_getElem? {α : Type} (l : List α) (is : List (Fin l.length)) :
    (is.map Fin.val).mapM (fun v => l[v]?) = some (is.map (fun i => l[i])) := by
  induction is with
  | nil => rfl
  | cons i rest ih =>
    simp only [List.map_cons, List.mapM_cons, ih]
    simp

theorem sorted_lt_of_sorted_le_of_nodup (l : List ℕ) (h₁ : l.Sorted (· ≤ ·)) (h₂ : l.Nodup) :
    l.Pairwise (· < ·) := by
  unfold List.Sorted at h₁
  unfold List.Nodup at h₂
  exact (h₁.and h₂).imp (fun ⟨hle, hne⟩ => lt_of_le_of_ne hle hne)

theorem budgetOf_eq (l : summary.Sentences) :
    budgetOf l = ((textsOf l).map (fun s => (s.length : ℤ) + 1)).sum := by
  simp [budgetOf, textsOf, List.map_map, Function.comp_def]

theorem textRank_core (ln : ℕ → ℚ)
    (σc : GoMap (String × String) ℚ → GoMap (String × String) ℚ)
    (σ₁ σ₂ : GoMap String ℚ → GoMap String ℚ) (hc : IsEnum σc) (h₂ : IsEnum σ₂)
    (F : List String) (st : summary.SplitState) (hinv : SplitInv F st) (limit : ℤ) :
    ∃ res sel : summary.Sentences,
      ((summary.selectPoses limit st.sm (summary.rank (summary.graphOf
          (σc (summary.similarityMap ln st.sentences))) σ₁ σ₂) 0).insertionSort (· ≤ ·)).mapM
        (fun v => st.sentences[v]?) = some res ∧
      res.Sublist st.sentences ∧
      sel.Sublist (summary.rank (summary.graphOf
        (σc (summary.similarityMap ln st.sentences))) σ₁ σ₂) ∧
      summary.selectPoses limit st.sm
        (summary.rank (summary.graphOf
          (σc (summary.similarityMap ln st.sentences))) σ₁ σ₂) 0 =
        sel.map (fun s => st.sm.getD s.text 0) ∧
      (0 ≤ limit → budgetOf sel ≤ limit) ∧
      (textsOf res).Perm (textsOf sel) := by
  obtain ⟨-, -, hnd, -, hsm, -⟩ := hinv
  obtain ⟨htnd, htmem⟩ := tags_texts ln st.sentences σc σ₁ σ₂ hc h₂
  obtain ⟨sel, hsub, hsel, hbud⟩ := selectPoses_spec limit st.sm
    (summary.rank (summary.graphOf (σc (summary.similarityMap ln st.sentences))) σ₁ σ₂) 0
  have hselmem : ∀ s ∈ sel, s.text ∈ textsOf st.sentences := fun s hs =>
    htmem _ (List.mem_map_of_mem _ (hsub.subset hs))
  have hselnd : (textsOf sel).Nodup := (hsub.map _).nodup htnd
  -- the positions read from `sm` are the indices of the texts
  have hposes : sel.map (fun s => st.sm.getD s.text 0) =
      sel.map (fun s => (textsOf st.sentences).indexOf s.text) := by
    apply List.map_congr_left
    intro s hs
    simp only [GoMap.getD, hsm s.text, if_pos (hselmem s hs), Option.getD_some]
  have hlenT : (textsOf st.sentences).length = st.sentences.length := by simp [textsOf]
  have hvalid : ∀ v ∈ sel.map (fun s => st.sm.getD s.text 0), v < st.sentences.length := by
    rw [hposes]
    intro v hv
    obtain ⟨s, hs, rfl⟩ := List.mem_map.1 hv
    rw [← hlenT]
    exact List.indexOf_lt_length.2 (hselmem s hs)
  have hposnd : (sel.map (fun s => st.sm.getD s.text 0)).Nodup := by
    rw [hposes]
    have : sel.map (fun s => (textsOf st.sentences).indexOf s.text) =
        (textsOf sel).map (fun s => (textsOf st.sentences).indexOf s) := by
      simp [textsOf, List.map_map, Function.comp_def]
    rw [this]
    refine List.Nodup.map_on ?_ hselnd
    intro a ha b hb hab
    obtain ⟨a', ha', rfl⟩ := List.mem_map.1 ha
    obtain ⟨b', hb', rfl⟩ := List.mem_map.1 hb
    exact (List.indexOf_inj (hselmem a' ha') (hselmem b' hb')).1 hab
  -- the sorted positions
  have hperm := List.perm_insertionSort (· ≤ ·) (sel.map (fun s => st.sm.getD s.text 0))
  have hsorted := List.sorted_insertionSort (· ≤ ·) (sel.map (fun s => st.sm.getD s.text 0))
  have hlt := sorted_lt_of_sorted_le_of_nodup _ hsorted (hperm.nodup_iff.2 hposnd)
  obtain ⟨is, his⟩ := exists_fin_list st.sentences.length
    ((sel.map (fun s => st.sm.getD s.text 0)).insertionSort (· ≤ ·))
    (fun v hv => hvalid v (hperm.mem_iff.1 hv))
  have hislt : is.Pairwise (· < ·) := by
    rw [← his, List.pairwise_map] at hlt
    exact hlt
  refine ⟨is.map (fun i => st.sentences[i]), sel, ?_, List.map_getElem_sublist hislt, hsub,
    hsel, fun h0 => by have := hbud h0; rwa [zero_add] at this, ?_⟩
  · rw [hsel, ← his]
    exact mapM_getElem? st.sentences is
  · have hφ : textsOf (is.map (fun i => st.sentences[i])) =
        (is.map Fin.val).map (fun v => (textsOf st.sentences).getD v "") := by
      simp only [textsOf, List.map_map]
      apply List.map_congr_left
      intro i _
      simp only [Function.comp_apply]
      rw [List.getD_eq_getElem _ _ (by simp)]
      simp
    rw [hφ, his]
    refine (hperm.map _).trans ?_
    rw [hposes, List.map_map]
    have : sel.map ((fun v => (textsOf st.sentences).getD v "") ∘
        (fun s => (textsOf st.sentences).indexOf s.text)) = textsOf sel := by
      show sel.map _ = sel.map summary.Sentence.text
      apply List.map_congr_left
      intro s hs
      have hlt' := List.indexOf_lt_length.2 (hselmem s hs)
      simp only [Function.comp_apply]
      rw [List.getD_eq_getElem _ _ hlt']
      exact List.getElem_indexOf hlt'
    rw [this]

theorem textRank_spec (t : summary.TextRanker) (ln : ℕ → ℚ)
    (σc : GoMap (String × String) ℚ → GoMap (String × String) ℚ)
    (σ₁ σ₂ : GoMap String ℚ → GoMap String ℚ) (hc : IsEnum σc) (h₂ : IsEnum σ₂)
    (text : String) (limit : ℤ) :
    ∃ res sel : summary.Sentences,
      t.TextRank ln σc σ₁ σ₂ text limit = some res ∧
      res.Sublist (summary.splitSentences t text).sentences ∧
      sel.Sublist (summary.rank (summary.graphOf
        (σc (summary.similarityMap ln (summary.splitSentences t text).sentences))) σ₁ σ₂) ∧
      summary.selectPoses limit (summary.splitSentences t text).sm
        (summary.rank (summary.graphOf
          (σc (summary.similarityMap ln (summary.splitSentences t text).sentences))) σ₁ σ₂) 0 =
        sel.map (fun s => (summary.splitSentences t text).sm.getD s.text 0) ∧
      (0 ≤ limit → budgetOf sel ≤ limit) ∧
      (textsOf res).Perm (textsOf sel) :=
  textRank_core ln σc σ₁ σ₂ hc h₂ _ _ (splitSentences_inv t text) limit

/-! ## Fields of the text -/

theorem fieldsAux_spec (f : Char → Bool) (cs cur : List Char)
    (hcur : ∀ c ∈ cur, f c = false) :
    ∀ s ∈ summary.fieldsAux f cs cur,
      s.data ≠ [] ∧ (∀ c ∈ s.data, f c = false) ∧ s.data <:+: (cur.reverse ++ cs) := by
  induction cs generalizing cur with
  | nil =>
    intro s hs
    unfold summary.fieldsAux at hs
    by_cases hc : cur = []
    · simp [hc] at hs
    · rw [if_neg hc, List.mem_singleton] at hs
      subst hs
      refine ⟨by simpa using hc, fun c hc' => hcur c (by simpa using hc'), ?_⟩
      simp
  | cons c cs ih =>
    intro s hs
    unfold summary.fieldsAux at hs
    by_cases hf : f c = true
    · rw [if_pos hf] at hs
      have hrest : ∀ s ∈ summary.fieldsAux f cs [],
          s.data ≠ [] ∧ (∀ c ∈ s.data, f c = false) ∧ s.data <:+: (cur.reverse ++ c :: cs) := by
        intro s hs
        obtain ⟨h1, h2, h3⟩ := ih [] (by simp) s hs
        refine ⟨h1, h2, ?_⟩
        simp only [List.reverse_nil, List.nil_append] at h3
        refine h3.trans ?_
        exact ⟨cur.reverse ++ [c], [], by simp⟩
      by_cases hc : cur = []
      · rw [if_pos hc] at hs
        exact hrest s hs
      · rw [if_neg hc, List.mem_cons] at hs
        rcases hs with rfl | hs
        · refine ⟨by simpa using hc, fun c hc' => hcur c (by simpa using hc'), ?_⟩
          exact ⟨[], c :: cs, by simp⟩
        · exact hrest s hs
    · rw [if_neg hf] at hs
      have hfc : f c = false := by simpa using hf
      obtain ⟨h1, h2, h3⟩ := ih (c :: cur) (by
        intro x hx
        rcases List.mem_cons.1 hx with rfl | hx
        · exact hfc
        · exact hcur x hx) s hs
      refine ⟨h1, h2, ?_⟩
      simpa using h3

theorem fieldsFunc_spec (text : String) (f : Char → Bool) :
    ∀ s ∈ summary.FieldsFunc text f,
      s ≠ "" ∧ (∀ c ∈ s.data, f c = false) ∧ s.data <:+: text.data := by
  intro s hs
  obtain ⟨h1, h2, h3⟩ := fieldsAux_spec f text.data [] (by simp) s hs
  refine ⟨fun e => h1 (by rw [e]), h2, by simpa using h3⟩

/-! ## Length of the joined summary -/

theorem length_foldl_append (l : List String) (acc : String) :
    (l.foldl (fun r s => r ++ s) acc).length = acc.length + (l.map String.length).sum := by
  induction l generalizing acc with
  | nil => simp
  | cons s rest ih =>
    rw [List.foldl_cons, ih, String.length_append]
    simp [add_assoc]

theorem length_join (l : List String) : (String.join l).length = (l.map String.length).sum := by
  unfold String.join
  rw [length_foldl_append]
  simp

theorem length_summary (res : summary.Sentences) :
    ((String.join (res.map (fun s => s.text ++ "。"))).length : ℤ) = budgetOf res := by
  rw [length_join, budgetOf, List.map_map]
  induction res with
  | nil => rfl
  | cons s rest ih =>
    simp only [List.map_cons, List.sum_cons, Function.comp_apply, String.length_append]
    push_cast at ih ⊢
    rw [ih]
    rfl

/-! ## Weights of the sentence records -/

theorem foldl_splitStep_weight (t : summary.TextRanker) (F : List String)
    (st : summary.SplitState) (h : ∀ s ∈ st.sentences, s.weight = 0) :
    ∀ s ∈ (F.foldl (summary.splitStep t) st).sentences, s.weight = 0 := by
  induction F generalizing st with
  | nil => exact h
  | cons x rest ih =>
    rw [List.foldl_cons]
    apply ih
    unfold summary.splitStep
    split
    · exact h
    · intro s hs
      rcases List.mem_append.1 hs with hs | hs
      · exact h s hs
      · rw [List.mem_singleton.1 hs]

theorem splitSentences_weight (t : summary.TextRanker) (text : String) :
    ∀ s ∈ (summary.splitSentences t text).sentences, s.weight = 0 :=
  foldl_splitStep_weight t _ _ (by simp)

/-- C4: for every text and every budget `limit ≥ 0`, `TextRank` returns a list of
sentences whose total of (code-point length + 1) is at most `limit`, and the
code-point length of the string returned by `Summary` equals that total, so it never
exceeds `limit`.  For the selection loop itself: with a budget of 20 and ranked
sentences of code-point lengths 10, 8, 15, exactly the first two are selected. -/
theorem C4_summary_within_budget (t : summary.TextRanker) (ln : ℕ → ℚ)
    (σc : GoMap (String × String) ℚ → GoMap (String × String) ℚ)
    (σ₁ σ₂ : GoMap String ℚ → GoMap String ℚ) (hc : IsEnum σc) (h₂ : IsEnum σ₂)
    (text : String) (limit : ℤ) (hlimit : 0 ≤ limit)
    (sm : GoMap String ℕ) (t₁ t₂ t₃ : summary.Sentence)
    (h10 : t₁.Text.length = 10) (h8 : t₂.Text.length = 8) (h15 : t₃.Text.length = 15) :
    (∃ res out, t.TextRank ln σc σ₁ σ₂ text limit = some res ∧
        t.Summary ln σc σ₁ σ₂ text limit = some out ∧
        (res.map (fun s => (s.Text.length : ℤ) + 1)).sum ≤ limit ∧
        (out.length : ℤ) = (res.map (fun s => (s.Text.length : ℤ) + 1)).sum ∧
        (out.length : ℤ) ≤ limit) ∧
      summary.selectPoses 20 sm [t₁, t₂, t₃] 0 = [sm.getD t₁.Text 0, sm.getD t₂.Text 0] := by
  constructor
  · obtain ⟨res, sel, hres, -, -, -, hbud, hperm⟩ :=
      textRank_spec t ln σc σ₁ σ₂ hc h₂ text limit
    have hsum : budgetOf res ≤ limit := by
      rw [budgetOf_eq, (hperm.map _).sum_eq, ← budgetOf_eq]
      exact hbud hlimit
    refine ⟨res, String.join (res.map (fun s => s.text ++ "。")), hres, ?_, hsum, ?_, ?_⟩
    · unfold summary.TextRanker.Summary
      rw [hres]
      rfl
    · exact length_summary res
    · rw [length_summary res]
      exact hsum
  · simp only [summary.selectPoses, h10, h8, h15]
    norm_num

/-- C4 at a concrete input: three sentences cut into code points, budget 8; and the
ranked sentences of lengths 10, 8 and 15. -/
theorem C4_summary_within_budget_witness :
    (IsEnum (id : GoMap (String × String) ℚ → GoMap (String × String) ℚ) ∧
      IsEnum (List.reverse : GoMap String ℚ → GoMap String ℚ) ∧
      (0 : ℤ) ≤ 8 ∧
      (⟨0, "aaaaaaaaaa", ∅, 1⟩ : summary.Sentence).Text.length = 10 ∧
      (⟨0, "bbbbbbbb", ∅, 1 / 2⟩ : summary.Sentence).Text.length = 8 ∧
      (⟨0, "ccccccccccccccc", ∅, 1 / 3⟩ : summary.Sentence).Text.length = 15) ∧
    ((∃ res out, charCut.TextRank lnStub id id List.reverse "abc。bcd！efa" 8 = some res ∧
        charCut.Summary lnStub id id List.reverse "abc。bcd！efa" 8 = some out ∧
        (res.map (fun s => (s.Text.length : ℤ) + 1)).sum ≤ 8 ∧
        (out.length : ℤ) = (res.map (fun s => (s.Text.length : ℤ) + 1)).sum ∧
        (out.length : ℤ) ≤ 8) ∧
      summary.selectPoses 20 [("aaaaaaaaaa", 0), ("bbbbbbbb", 1), ("ccccccccccccccc", 2)]
          [⟨0, "aaaaaaaaaa", ∅, 1⟩, ⟨0, "bbbbbbbb", ∅, 1 / 2⟩, ⟨0, "ccccccccccccccc", ∅, 1 / 3⟩] 0 =
        [GoMap.getD [("aaaaaaaaaa", 0), ("bbbbbbbb", 1), ("ccccccccccccccc", 2)]
            (⟨0, "aaaaaaaaaa", ∅, 1⟩ : summary.Sentence).Text 0,
          GoMap.getD [("aaaaaaaaaa", 0), ("bbbbbbbb", 1), ("ccccccccccccccc", 2)]
            (⟨0, "bbbbbbbb", ∅, 1 / 2⟩ : summary.Sentence).Text 0]) :=
  ⟨⟨isEnum_id, isEnum_reverse, by norm_num, by decide, by decide, by decide⟩,
    C4_summary_within_budget charCut lnStub id id List.reverse isEnum_id isEnum_reverse
      "abc。bcd！efa" 8 (by norm_num)
      [("aaaaaaaaaa", 0), ("bbbbbbbb", 1), ("ccccccccccccccc", 2)]
      ⟨0, "aaaaaaaaaa", ∅, 1⟩ ⟨0, "bbbbbbbb", ∅, 1 / 2⟩ ⟨0, "ccccccccccccccc", ∅, 1 / 3⟩
      (by decide) (by decide) (by decide)⟩

/-- C5: for every text and budget, `TextRank` returns sentences that are pairwise
distinct, each of which is one of the fields of the input (a non-empty run of
consecutive code points of the text holding no stop character), and which appear in
strictly increasing order of the position of their first occurrence among the fields
of the text; the `pos` fields of the returned records increase strictly too, whatever
the rank order was. -/
theorem C5_output_in_text_order (t : summary.TextRanker) (ln : ℕ → ℚ)
    (σc : GoMap (String × String) ℚ → GoMap (String × String) ℚ)
    (σ₁ σ₂ : GoMap String ℚ → GoMap String ℚ) (hc : IsEnum σc) (h₂ : IsEnum σ₂)
    (text : String) (limit : ℤ) :
    ∃ res, t.TextRank ln σc σ₁ σ₂ text limit = some res ∧
      (res.map summary.Sentence.Text).Nodup ∧
      (∀ s ∈ res, s.Text ∈ summary.FieldsFunc text summary.isSetenctStop ∧ s.Text ≠ "" ∧
        (∀ c ∈ s.Text.data, summary.isSetenctStop c = false) ∧ s.Text.data <:+: text.data) ∧
      (res.map (fun s => (summary.FieldsFunc text summary.isSetenctStop).indexOf s.Text)).Sorted
        (· < ·) ∧
      (res.map summary.Sentence.pos).Sorted (· < ·) := by
  obtain ⟨res, sel, hres, hsub, -, -, -, -⟩ := textRank_spec t ln σc σ₁ σ₂ hc h₂ text limit
  obtain ⟨-, hpos, hnd, hmem, -, hord⟩ := splitSentences_inv t text
  have hsubT : (textsOf res).Sublist (textsOf (summary.splitSentences t text).sentences) :=
    hsub.map _
  refine ⟨res, hres, hsubT.nodup hnd, fun s hs => ?_, ?_, ?_⟩
  · have hF : s.Text ∈ summary.FieldsFunc text summary.isSetenctStop :=
      (hmem _).1 (hsubT.subset (List.mem_map_of_mem _ hs))
    exact ⟨hF, fieldsFunc_spec text _ _ hF⟩
  · unfold List.Sorted
    rw [List.pairwise_map]
    have := hord.sublist hsubT
    unfold textsOf at this
    rw [List.pairwise_map] at this
    exact this
  · have h := (hsub.map summary.Sentence.pos)
    rw [hpos] at h
    exact (List.pairwise_lt_range _).sublist h

/-- C5 at a concrete input: four fields, the first of them repeated, budget 8. -/
theorem C5_output_in_text_order_witness :
    (IsEnum (List.reverse : GoMap (String × String) ℚ → GoMap (String × String) ℚ) ∧
      IsEnum (id : GoMap String ℚ → GoMap String ℚ)) ∧
    ∃ res, charCut.TextRank lnStub List.reverse id id "abc。bcd！abc\nefa" 8 = some res ∧
      (res.map summary.Sentence.Text).Nodup ∧
      (∀ s ∈ res, s.Text ∈ summary.FieldsFunc "abc。bcd！abc\nefa" summary.isSetenctStop ∧
        s.Text ≠ "" ∧ (∀ c ∈ s.Text.data, summary.isSetenctStop c = false) ∧
        s.Text.data <:+: ("abc。bcd！abc\nefa" : String).data) ∧
      (res.map (fun s => (summary.FieldsFunc "abc。bcd！abc\nefa"
        summary.isSetenctStop).indexOf s.Text)).Sorted (· < ·) ∧
      (res.map summary.Sentence.pos).Sorted (· < ·) :=
  ⟨⟨isEnum_reverse, isEnum_id⟩,
    C5_output_in_text_order charCut lnStub List.reverse id id isEnum_reverse isEnum_id
      "abc。bcd！abc\nefa" 8⟩

/-! ## The weight of the returned sentence records -/

theorem fields_ab : summary.FieldsFunc "ab。" summary.isSetenctStop = ["ab"] := by
  decide

theorem words_ab_card : (summary.wordsOf charCut "ab").card = 2 := by
  decide

theorem splitSentences_ab :
    summary.splitSentences charCut "ab。" =
      { sentences := [{ pos := 0, text := "ab", words := summary.wordsOf charCut "ab", weight := 0 }],
        sm := [("ab", 0)], i := 1 } := by
  unfold summary.splitSentences
  rw [fields_ab]
  simp [summary.splitStep, GoMap.get?, GoMap.set]

theorem similarity_self_two (ln : ℕ → ℚ) (s : summary.Sentence) (h : s.words.card = 2)
    (hln : ln 2 + ln 2 ≠ 0) : s.Similarity ln s = 2 / (ln 2 + ln 2) := by
  have hi : (s.words.intersect s.words) = s.words := by
    unfold summary.set.intersect summary.set.has
    apply Finset.filter_true_of_mem
    intro k hk
    simpa using hk
  have hss : summary.Log ln 2 + summary.Log ln 2 = ((ln 2 + ln 2 : ℚ) : WithBot ℚ) := by
    simp [summary.Log]
  unfold summary.Sentence.Similarity
  simp only [hi, summary.set.len, h, hss]
  rw [if_neg (by exact_mod_cast hln)]
  simp [summary.divBot]

theorem similarityMap_ab :
    summary.similarityMap lnStub (summary.splitSentences charCut "ab。").sentences =
      [(("ab", "ab"), 1)] := by
  have hl : lnStub 2 = 1 := by
    unfold lnStub; norm_num [Nat.log]
  have hs := similarity_self_two lnStub
    { pos := 0, text := "ab", words := summary.wordsOf charCut "ab", weight := 0 }
    words_ab_card (by rw [hl]; norm_num)
  rw [hl] at hs
  norm_num at hs
  rw [splitSentences_ab]
  simp [summary.similarityMap, List.enum, List.enumFrom, hs, GoMap.set, summary.Sentence.Text]

theorem sentences_rank_loop (a : String) (w : ℚ) (hw : w ≠ 0) :
    summary.rank (buildGraph [(a, a, w)]) id id =
      [{ pos := 0, text := a, words := ∅, weight := normalize 1 SmallestNonzeroFloat64 1 }] := by
  unfold summary.rank
  rw [rankScores_loop a w hw]
  rfl

/-- Every record returned by `TextRank` has the weight 0, for every input. -/
theorem textRank_weight_zero (t : summary.TextRanker) (ln : ℕ → ℚ)
    (σc : GoMap (String × String) ℚ → GoMap (String × String) ℚ)
    (σ₁ σ₂ : GoMap String ℚ → GoMap String ℚ) (hc : IsEnum σc) (h₂ : IsEnum σ₂)
    (text : String) (limit : ℤ) :
    ∃ res, t.TextRank ln σc σ₁ σ₂ text limit = some res ∧ ∀ s ∈ res, s.Weight = 0 := by
  obtain ⟨res, sel, hres, hsub, -, -, -, -⟩ := textRank_spec t ln σc σ₁ σ₂ hc h₂ text limit
  exact ⟨res, hres, fun s hs => splitSentences_weight t text s (hsub.subset hs)⟩

/-- C10, the failing input: the text "ab。" cut into the two tokens "a" and "b", with
budget 10.  The only sentence "ab" is similar to itself, `rank` assigns it a
non-zero normalised score, and `TextRank` returns the record of "ab" that was built
while splitting the text, whose `weight` field was never assigned: `Weight()`
returns 0, not the score that `rank` assigned. -/
theorem C10_returned_weight_is_zero_not_rank_score :
    charCut.TextRank lnStub id id id "ab。" 10 =
        some [{ pos := 0, text := "ab", words := summary.wordsOf charCut "ab", weight := 0 }] ∧
      summary.rank (summary.graphOf (id (summary.similarityMap lnStub
          (summary.splitSentences charCut "ab。").sentences))) id id =
        [{ pos := 0, text := "ab", words := ∅,
           weight := normalize 1 SmallestNonzeroFloat64 1 }] ∧
      normalize 1 SmallestNonzeroFloat64 1 ≠ 0 ∧
      (∀ res, charCut.TextRank lnStub id id id "ab。" 10 = some res →
        ∀ s ∈ res, s.Weight = 0) := by
  have hrank : summary.rank (summary.graphOf (id (summary.similarityMap lnStub
      (summary.splitSentences charCut "ab。").sentences))) id id =
      [{ pos := 0, text := "ab", words := ∅,
         weight := normalize 1 SmallestNonzeroFloat64 1 }] := by
    rw [similarityMap_ab]
    exact sentences_rank_loop "ab" 1 one_ne_zero
  have hT : charCut.TextRank lnStub id id id "ab。" 10 =
      some [{ pos := 0, text := "ab", words := summary.wordsOf charCut "ab", weight := 0 }] := by
    unfold summary.TextRanker.TextRank
    simp only
    rw [hrank, splitSentences_ab]
    have hlen : ("ab" : String).length = 2 := by decide
    simp [summary.selectPoses, summary.Sentence.Text, hlen, GoMap.getD, GoMap.get?,
      List.insertionSort]
    rfl
  refine ⟨hT, hrank, ?_, ?_⟩
  · have := normalize_singleton_lt
    intro h0
    rw [h0] at this
    norm_num at this
  · intro res hres s hs
    rw [hT] at hres
    cases hres
    rw [List.mem_singleton.1 hs]
    rfl

/-! ## Adjacency lists -/

theorem getD_set {κ ν : Type} [DecidableEq κ] (m : GoMap κ ν) (k : κ) (v : ν) (k' : κ)
    (z : ν) : (m.set k v).getD k' z = if k = k' then v else m.getD k' z := by
  unfold GoMap.getD
  rw [GoMap.get?_set]
  split <;> rfl

theorem addHalf_getD (u : undirectWeightedGraph) (n : String) (e : edge) (a : String) :
    (u.addHalf n e).graph.getD a [] =
      if n = a then u.graph.getD a [] ++ [e] else u.graph.getD a [] := by
  unfold undirectWeightedGraph.addHalf
  cases hg : u.graph.get? n with
  | none =>
    simp only [getD_set]
    by_cases h : n = a
    · subst h; simp [GoMap.getD, hg]
    · simp [h]
  | some es =>
    simp only [getD_set]
    by_cases h : n = a
    · subst h; simp [GoMap.getD, hg]
    · simp [h]

theorem addEdge_getD (u : undirectWeightedGraph) (a b : String) (w : ℚ) (n : String) :
    (u.addEdge a b w).graph.getD n [] =
      u.graph.getD n [] ++ ((if a = n then [⟨a, b, w⟩] else []) ++
        (if b = n then [⟨b, a, w⟩] else [])) := by
  unfold undirectWeightedGraph.addEdge
  rw [addHalf_getD, addHalf_getD]
  by_cases ha : a = n <;> by_cases hb : b = n <;> simp [ha, hb]

theorem foldl_addEdge_getD (calls : List EdgeCall) (u : undirectWeightedGraph) (n : String) :
    (calls.foldl (fun u c => u.addEdge c.1 c.2.1 c.2.2) u).graph.getD n [] =
      u.graph.getD n [] ++ adjacency calls n := by
  induction calls generalizing u with
  | nil => simp [adjacency]
  | cons c rest ih =>
    rw [List.foldl_cons, ih, addEdge_getD]
    simp [adjacency, List.append_assoc]

theorem buildGraph_getD (calls : List EdgeCall) (n : String) :
    (buildGraph calls).graph.getD n [] = adjacency calls n := by
  unfold buildGraph
  rw [foldl_addEdge_getD]
  simp [newUndirectWeightedGraph, GoMap.getD, GoMap.get?]

theorem addHalf_keys_eq (u : undirectWeightedGraph) (n : String) (e : edge) (h : u.WF) :
    (u.addHalf n e).keys = u.keys ++ (if n ∈ u.keys then [] else [n]) := by
  obtain ⟨hk, -⟩ := h
  unfold undirectWeightedGraph.addHalf
  cases hg : u.graph.get? n with
  | none =>
    have hn : n ∉ u.keys := by
      rw [hk]; exact (GoMap.get?_eq_none_iff _ _).1 hg
    simp [hn]
  | some es =>
    have hn : n ∈ u.keys := by
      rw [hk, ← GoMap.get?_isSome_iff, hg]; rfl
    simp [hn]

theorem addEdge_keys_eq (u : undirectWeightedGraph) (a b : String) (w : ℚ) (h : u.WF) :
    (u.addEdge a b w).keys =
      u.keys ++ (if a ∈ u.keys then [] else [a]) ++
        (if b ∈ u.keys ∨ b = a then [] else [b]) := by
  unfold undirectWeightedGraph.addEdge
  rw [addHalf_keys_eq _ _ _ (addHalf_wf _ _ _ h), addHalf_keys_eq _ _ _ h]
  by_cases ha : a ∈ u.keys <;> by_cases hb : b ∈ u.keys <;> by_cases hab : b = a <;>
    simp [ha, hb, hab]

theorem buildGraph_append (calls : List EdgeCall) (a b : String) (w : ℚ) :
    buildGraph (calls ++ [(a, b, w)]) = (buildGraph calls).addEdge a b w := by
  simp [buildGraph, List.foldl_append]

/-- C17: the graph invariant kept by every `addEdge` call.  Let `u` be a graph built
by `addEdge` calls and `u'` the graph after one more call `addEdge(a, b, w)`.  The
key list of `u'` has no duplicates, its elements are exactly the keys of the adjacency
map and exactly the endpoints of all inserted edges.  The call appends the entry
`a -> b` to the list of `a` and then the entry `b -> a` to the list of `b`, both of
weight `w`, and changes no other list; for a self-edge (`a = b`) both entries are
appended to the one list.  Each endpoint is appended to the key list once, and only
if it was not a key before. -/
theorem C17_addEdge_keeps_graph_invariant (calls : List EdgeCall) (a b : String) (w : ℚ) :
    ((buildGraph calls).addEdge a b w).keys.Nodup ∧
      (∀ x, x ∈ ((buildGraph calls).addEdge a b w).keys ↔
        x ∈ ((buildGraph calls).addEdge a b w).graph.keys) ∧
      ((buildGraph calls).addEdge a b w).graph.keys.Nodup ∧
      (∀ x, x ∈ ((buildGraph calls).addEdge a b w).keys ↔
        ∃ c ∈ calls ++ [(a, b, w)], x = c.1 ∨ x = c.2.1) ∧
      (∀ n, ((buildGraph calls).addEdge a b w).graph.getD n [] =
        (buildGraph calls).graph.getD n [] ++
          ((if a = n then [⟨a, b, w⟩] else []) ++ (if b = n then [⟨b, a, w⟩] else []))) ∧
      ((buildGraph calls).addEdge a b w).keys =
        (buildGraph calls).keys ++ (if a ∈ (buildGraph calls).keys then [] else [a]) ++
          (if b ∈ (buildGraph calls).keys ∨ b = a then [] else [b]) ∧
      (∀ n, (n ∈ ((buildGraph calls).addEdge a b w).keys ↔
        ((buildGraph calls).addEdge a b w).graph.getD n [] ≠ [])) := by
  have hwf := buildGraph_wf calls
  have hwf' := addEdge_wf _ a b w hwf
  have happ := buildGraph_append calls a b w
  refine ⟨hwf'.2, fun x => by rw [hwf'.1], hwf'.1 ▸ hwf'.2, fun x => ?_,
    fun n => addEdge_getD _ a b w n, addEdge_keys_eq _ a b w hwf, fun n => ?_⟩
  · rw [← happ, mem_buildGraph_keys]
  · rw [← happ, buildGraph_getD, mem_buildGraph_keys]
    generalize calls ++ [(a, b, w)] = l
    induction l with
    | nil => simp [adjacency]
    | cons c rest ih =>
      simp only [List.mem_cons, exists_eq_or_imp, adjacency, ne_eq, List.append_eq_nil,
        not_and]
      by_cases h1 : c.1 = n
      · simp [h1]
      · by_cases h2 : c.2.1 = n
        · simp [h2]
        · have h1' : ¬ n = c.1 := fun e => h1 e.symm
          have h2' : ¬ n = c.2.1 := fun e => h2 e.symm
          simp only [h1, h2, h1', h2', if_false, or_self, false_or, true_implies]
          rw [ih]

/-! ## Out-weights -/

theorem get?_of_mem {κ ν : Type} [DecidableEq κ] (m : GoMap κ ν) (k : κ) (v : ν)
    (hnd : m.keys.Nodup) (h : (k, v) ∈ m) : m.get? k = some v := by
  induction m with
  | nil => simp at h
  | cons p rest ih =>
    obtain ⟨k', v'⟩ := p
    have hnd' : (GoMap.keys rest).Nodup := (List.nodup_cons.1 hnd).2
    have hk' : k' ∉ GoMap.keys rest := (List.nodup_cons.1 hnd).1
    rcases List.mem_cons.1 h with e | h'
    · cases e
      simp [GoMap.get?]
    · have hne : ¬ k' = k := by
        intro e
        apply hk'
        rw [e]
        exact List.mem_map_of_mem Prod.fst h'
      simp only [GoMap.get?, hne, if_false]
      exact ih hnd' h'

theorem mem_of_get? {κ ν : Type} [DecidableEq κ] (m : GoMap κ ν) (k : κ) (v : ν)
    (h : m.get? k = some v) : (k, v) ∈ m := by
  induction m with
  | nil => simp [GoMap.get?] at h
  | cons p rest ih =>
    obtain ⟨k', v'⟩ := p
    by_cases hk : k' = k
    · simp only [GoMap.get?, hk, if_true, Option.some.injEq] at h
      simp [hk, h]
    · simp only [GoMap.get?, hk, if_false] at h
      exact List.mem_cons_of_mem _ (ih h)

theorem foldl_set_getD {ν : Type} (f : edges → ν) (l : GoMap String edges)
    (acc : GoMap String ν) (hnd : l.keys.Nodup) (n : String) (z : ν) :
    (l.foldl (fun (acc : GoMap String ν) entry => acc.set entry.1 (f entry.2)) acc).getD n z =
      match l.get? n with
      | some es => f es
      | none => acc.getD n z := by
  induction l generalizing acc with
  | nil => simp [GoMap.get?]
  | cons p rest ih =>
    obtain ⟨k, es⟩ := p
    have hnd' : (GoMap.keys rest).Nodup := (List.nodup_cons.1 hnd).2
    have hk : k ∉ GoMap.keys rest := (List.nodup_cons.1 hnd).1
    rw [List.foldl_cons, ih _ hnd']
    by_cases hkn : k = n
    · subst hkn
      have hnone : GoMap.get? rest k = none := (GoMap.get?_eq_none_iff _ _).2 hk
      simp [GoMap.get?, hnone, getD_set]
    · simp only [GoMap.get?, hkn, if_false]
      cases GoMap.get? rest n with
      | none => simp [getD_set, hkn]
      | some es' => rfl

theorem foldl_init_snd (d : ℚ) (l : GoMap String edges) (a b : GoMap String ℚ) :
    (l.foldl
      (fun (acc : GoMap String ℚ × GoMap String ℚ) entry =>
        (acc.1.set entry.1 d,
         acc.2.set entry.1 (entry.2.foldl (fun sum e => sum + e.weight) 0)))
      (a, b)).2 =
      l.foldl (fun (acc : GoMap String ℚ) entry =>
        acc.set entry.1 (entry.2.foldl (fun sum e => sum + e.weight) 0)) b := by
  induction l generalizing a b with
  | nil => rfl
  | cons p rest ih => simp only [List.foldl_cons]; exact ih _ _

theorem foldl_weight_eq_sum (es : edges) (z : ℚ) :
    es.foldl (fun sum e => sum + e.weight) z = z + (es.map edge.weight).sum := by
  induction es generalizing z with
  | nil => simp
  | cons e rest ih => rw [List.foldl_cons, ih]; simp [add_assoc]

/-- The table `outSum` of `rank` holds, for every label, the sum of the weights of
its adjacency list. -/
theorem outSum_getD (graph : GoMap String edges) (hnd : graph.keys.Nodup) (n : String) :
    (rankInit graph).2.getD n 0 = ((graph.getD n []).map edge.weight).sum := by
  unfold rankInit
  rw [foldl_init_snd]
  rw [foldl_set_getD (fun es => es.foldl (fun sum e => sum + e.weight) 0) graph [] hnd n 0]
  unfold GoMap.getD
  cases graph.get? n with
  | none => simp [GoMap.get?]
  | some es => simp [foldl_weight_eq_sum]

theorem ws_init_getD (graph : GoMap String edges) (hnd : graph.keys.Nodup) (n : String) :
    (rankInit graph).1.getD n 0 =
      if n ∈ graph.keys then (if graph.length > 0 then 1 / (graph.length : ℚ) else 1) else 0 := by
  rw [rankInit_fst]
  rw [foldl_set_getD (fun _ => (if graph.length > 0 then 1 / (graph.length : ℚ) else 1))
    graph [] hnd n 0]
  by_cases h : n ∈ graph.keys
  · rw [if_pos h]
    have := (GoMap.get?_isSome_iff graph n).2 h
    cases hg : graph.get? n with
    | none => rw [hg] at this; exact absurd this (by simp)
    | some es => rfl
  · rw [if_neg h, (GoMap.get?_eq_none_iff graph n).2 h]
    simp [GoMap.getD, GoMap.get?]

theorem mem_adjacency (calls : List EdgeCall) (n : String) (e : edge) :
    e ∈ adjacency calls n ↔
      ∃ c ∈ calls, (c.1 = n ∧ e = ⟨c.1, c.2.1, c.2.2⟩) ∨ (c.2.1 = n ∧ e = ⟨c.2.1, c.1, c.2.2⟩) := by
  induction calls with
  | nil => simp [adjacency]
  | cons c rest ih =>
    simp only [adjacency, List.mem_append, ih, List.mem_cons, exists_eq_or_imp]
    by_cases h1 : c.1 = n <;> by_cases h2 : c.2.1 = n <;> simp [h1, h2, or_assoc]

theorem adjacency_weight_pos (calls : List EdgeCall) (hpos : ∀ c ∈ calls, 0 < c.2.2)
    (n : String) (e : edge) (he : e ∈ adjacency calls n) : 0 < e.weight := by
  obtain ⟨c, hc, h | h⟩ := (mem_adjacency calls n e).1 he
  · rw [h.2]; exact hpos c hc
  · rw [h.2]; exact hpos c hc

theorem adjacency_reverse (calls : List EdgeCall) (n : String) (e : edge)
    (he : e ∈ adjacency calls n) :
    e.start = n ∧ (⟨e.«end», n, e.weight⟩ : edge) ∈ adjacency calls e.«end» := by
  obtain ⟨c, hc, h | h⟩ := (mem_adjacency calls n e).1 he
  · refine ⟨by rw [h.2]; exact h.1, ?_⟩
    rw [mem_adjacency]
    refine ⟨c, hc, Or.inr ⟨by rw [h.2], ?_⟩⟩
    rw [h.2, ← h.1]
  · refine ⟨by rw [h.2]; exact h.1, ?_⟩
    rw [mem_adjacency]
    refine ⟨c, hc, Or.inl ⟨by rw [h.2], ?_⟩⟩
    rw [h.2, ← h.1]

theorem sum_weights_pos (es : edges) (hpos : ∀ e ∈ es, 0 < e.weight) (hne : es ≠ []) :
    0 < (es.map edge.weight).sum := by
  apply List.sum_pos
  · intro x hx
    obtain ⟨e, he, rfl⟩ := List.mem_map.1 hx
    exact hpos e he
  · simpa using hne

theorem weight_le_sum (es : edges) (hpos : ∀ e ∈ es, 0 < e.weight) (e : edge) (he : e ∈ es) :
    e.weight ≤ (es.map edge.weight).sum := by
  apply List.single_le_sum
  · intro x hx
    obtain ⟨e', he', rfl⟩ := List.mem_map.1 hx
    exact le_of_lt (hpos e' he')
  · exact List.mem_map_of_mem _ he

/-- C13: for every graph built by `addEdge` calls with strictly positive weights, every
label `e.end` that appears as the neighbour of an adjacency entry `e` (in the list of
any label `n`) is itself a node of the graph, its own list holds the reverse entry
`e.end -> n` of the same weight, and its out-weight, the value `outSum[e.end]` that
`rank` divides by, is the sum of the weights of its list and is strictly positive (at
least the weight of `e`): the term `weight / outSum[e.end]` never divides by zero. -/
theorem C13_neighbour_has_positive_out_weight (calls : List EdgeCall)
    (hpos : ∀ c ∈ calls, 0 < c.2.2) (n : String) (e : edge)
    (he : e ∈ (buildGraph calls).graph.getD n []) :
    e.«end» ∈ (buildGraph calls).keys ∧
      e.«end» ∈ (buildGraph calls).graph.keys ∧
      (⟨e.«end», n, e.weight⟩ : edge) ∈ (buildGraph calls).graph.getD e.«end» [] ∧
      (rankInit (buildGraph calls).graph).2.getD e.«end» 0 =
        (((buildGraph calls).graph.getD e.«end» []).map edge.weight).sum ∧
      0 < (rankInit (buildGraph calls).graph).2.getD e.«end» 0 ∧
      e.weight ≤ (rankInit (buildGraph calls).graph).2.getD e.«end» 0 ∧
      (rankInit (buildGraph calls).graph).2.getD e.«end» 0 ≠ 0 := by
  have hwf := buildGraph_wf calls
  have hnd : (buildGraph calls).graph.keys.Nodup := hwf.1 ▸ hwf.2
  rw [buildGraph_getD] at he
  obtain ⟨-, hrev⟩ := adjacency_reverse calls n e he
  have hkey : e.«end» ∈ (buildGraph calls).keys := by
    rw [mem_buildGraph_keys]
    obtain ⟨c, hc, h | h⟩ := (mem_adjacency calls n e).1 he
    · exact ⟨c, hc, Or.inr (by rw [h.2])⟩
    · exact ⟨c, hc, Or.inl (by rw [h.2])⟩
  have hsum := outSum_getD _ hnd e.«end»
  have hposs : 0 < (rankInit (buildGraph calls).graph).2.getD e.«end» 0 := by
    rw [hsum, buildGraph_getD]
    exact sum_weights_pos _ (adjacency_weight_pos calls hpos _) (List.ne_nil_of_mem hrev)
  refine ⟨hkey, hwf.1 ▸ hkey, by rw [buildGraph_getD]; exact hrev, hsum, hposs, ?_,
    ne_of_gt hposs⟩
  rw [hsum, buildGraph_getD]
  exact weight_le_sum _ (adjacency_weight_pos calls hpos _) ⟨e.«end», n, e.weight⟩ hrev

/-- C13 at the graph with the edges A-B (weight 1) and B-C (weight 2) and the entry
`A -> B` of the list of "A". -/
theorem C13_neighbour_has_positive_out_weight_witness :
    ((∀ c ∈ [(("A", "B", 1) : EdgeCall), ("B", "C", 2)], 0 < c.2.2) ∧
      (⟨"A", "B", 1⟩ : edge) ∈ (buildGraph [("A", "B", 1), ("B", "C", 2)]).graph.getD "A" []) ∧
    ("B" ∈ (buildGraph [("A", "B", 1), ("B", "C", 2)]).keys ∧
      "B" ∈ (buildGraph [("A", "B", 1), ("B", "C", 2)]).graph.keys ∧
      (⟨"B", "A", 1⟩ : edge) ∈ (buildGraph [("A", "B", 1), ("B", "C", 2)]).graph.getD "B" [] ∧
      (rankInit (buildGraph [("A", "B", 1), ("B", "C", 2)]).graph).2.getD "B" 0 =
        (((buildGraph [("A", "B", 1), ("B", "C", 2)]).graph.getD "B" []).map edge.weight).sum ∧
      0 < (rankInit (buildGraph [("A", "B", 1), ("B", "C", 2)]).graph).2.getD "B" 0 ∧
      (1 : ℚ) ≤ (rankInit (buildGraph [("A", "B", 1), ("B", "C", 2)]).graph).2.getD "B" 0 ∧
      (rankInit (buildGraph [("A", "B", 1), ("B", "C", 2)]).graph).2.getD "B" 0 ≠ 0) :=
  have hpos : ∀ c ∈ [(("A", "B", 1) : EdgeCall), ("B", "C", 2)], 0 < c.2.2 := by
    intro c hc
    simp only [List.mem_cons, List.mem_singleton, List.not_mem_nil, or_false] at hc
    rcases hc with rfl | rfl <;> norm_num
  have hmem : (⟨"A", "B", 1⟩ : edge) ∈
      (buildGraph [("A", "B", 1), ("B", "C", 2)]).graph.getD "A" [] := by
    rw [buildGraph_getD]; simp [adjacency]
  ⟨⟨hpos, hmem⟩,
    C13_neighbour_has_positive_out_weight [("A", "B", 1), ("B", "C", 2)] hpos "A"
      ⟨"A", "B", 1⟩ hmem⟩

/-! ## A lower bound on the raw scores -/

theorem rankNode_getD (graph : GoMap String edges) (outSum ws : GoMap String ℚ)
    (n x : String) :
    (rankNode graph outSum ws n).getD x 0 =
      if n = x then
        (1 - dampingFactor) + dampingFactor *
          (graph.getD n []).foldl
            (fun s e => s + e.weight / outSum.getD e.«end» 0 * ws.getD e.«end» 0) 0
      else ws.getD x 0 := by
  unfold rankNode
  simp only [getD_set]

theorem foldl_terms_nonneg (es : edges) (O W : String → ℚ) (hw : ∀ e ∈ es, 0 ≤ e.weight)
    (hO : ∀ x, 0 ≤ O x) (hW : ∀ x, 0 ≤ W x) (z : ℚ) (hz : 0 ≤ z) :
    0 ≤ es.foldl (fun s e => s + e.weight / O e.«end» * W e.«end») z := by
  induction es generalizing z with
  | nil => exact hz
  | cons e rest ih =>
    rw [List.foldl_cons]
    apply ih (fun e' he' => hw e' (by simp [he']))
    have := mul_nonneg (div_nonneg (hw e (by simp)) (hO e.«end»)) (hW e.«end»)
    linarith

theorem rankNode_value_ge (graph : GoMap String edges) (outSum ws : GoMap String ℚ)
    (hw : ∀ n, ∀ e ∈ graph.getD n [], 0 ≤ e.weight) (hO : ∀ x, 0 ≤ outSum.getD x 0)
    (hW : ∀ x, 0 ≤ ws.getD x 0) (n : String) :
    3 / 20 ≤ (rankNode graph outSum ws n).getD n 0 := by
  rw [rankNode_getD, if_pos rfl]
  have := foldl_terms_nonneg (graph.getD n []) (fun x => outSum.getD x 0)
    (fun x => ws.getD x 0) (hw n) hO hW 0 le_rfl
  unfold dampingFactor
  simp only at this
  linarith

theorem rankNode_nonneg (graph : GoMap String edges) (outSum ws : GoMap String ℚ)
    (hw : ∀ n, ∀ e ∈ graph.getD n [], 0 ≤ e.weight) (hO : ∀ x, 0 ≤ outSum.getD x 0)
    (hW : ∀ x, 0 ≤ ws.getD x 0) (n x : String) :
    0 ≤ (rankNode graph outSum ws n).getD x 0 := by
  by_cases h : n = x
  · subst h
    have := rankNode_value_ge graph outSum ws hw hO hW n
    linarith
  · rw [rankNode_getD, if_neg h]
    exact hW x

theorem rankPass_ge (graph : GoMap String edges) (outSum : GoMap String ℚ)
    (hw : ∀ n, ∀ e ∈ graph.getD n [], 0 ≤ e.weight) (hO : ∀ x, 0 ≤ outSum.getD x 0)
    (keys : List String) (ws : GoMap String ℚ) (hW : ∀ x, 0 ≤ ws.getD x 0) :
    (∀ x, 0 ≤ (rankPass graph outSum keys ws).getD x 0) ∧
      ∀ x, (3 / 20 ≤ ws.getD x 0 ∨ x ∈ keys) →
        3 / 20 ≤ (rankPass graph outSum keys ws).getD x 0 := by
  unfold rankPass
  induction keys generalizing ws with
  | nil =>
    refine ⟨hW, fun x hx => ?_⟩
    rcases hx with hx | hx
    · exact hx
    · simp at hx
  | cons n rest ih =>
    rw [List.foldl_cons]
    obtain ⟨h1, h2⟩ := ih (rankNode graph outSum ws n)
      (rankNode_nonneg graph outSum ws hw hO hW n)
    refine ⟨h1, fun x hx => h2 x ?_⟩
    by_cases hnx : n = x
    · left
      rw [← hnx]
      exact rankNode_value_ge graph outSum ws hw hO hW n
    · rcases hx with hx | hx
      · left
        rw [rankNode_getD, if_neg hnx]
        exact hx
      · right
        rcases List.mem_cons.1 hx with e | hx'
        · exact absurd e.symm hnx
        · exact hx'

theorem iterate_rankPass_nonneg (graph : GoMap String edges) (outSum : GoMap String ℚ)
    (hw : ∀ n, ∀ e ∈ graph.getD n [], 0 ≤ e.weight) (hO : ∀ x, 0 ≤ outSum.getD x 0)
    (keys : List String) (k : ℕ) (ws : GoMap String ℚ) (hW : ∀ x, 0 ≤ ws.getD x 0) :
    ∀ x, 0 ≤ ((rankPass graph outSum keys)^[k] ws).getD x 0 := by
  induction k with
  | zero => exact hW
  | succ k ih =>
    rw [Function.iterate_succ_apply']
    exact (rankPass_ge graph outSum hw hO keys _ ih).1

theorem iterate_rankPass_ge (graph : GoMap String edges) (outSum : GoMap String ℚ)
    (hw : ∀ n, ∀ e ∈ graph.getD n [], 0 ≤ e.weight) (hO : ∀ x, 0 ≤ outSum.getD x 0)
    (keys : List String) (k : ℕ) (ws : GoMap String ℚ) (hW : ∀ x, 0 ≤ ws.getD x 0) :
    ∀ x ∈ keys, 3 / 20 ≤ ((rankPass graph outSum keys)^[k + 1] ws).getD x 0 := by
  intro x hx
  rw [Function.iterate_succ_apply']
  exact (rankPass_ge graph outSum hw hO keys _
    (iterate_rankPass_nonneg graph outSum hw hO keys k ws hW)).2 x (Or.inr hx)

/-- With non-negative weights every raw score is at least `1 - dampingFactor`. -/
theorem rawScores_ge (calls : List EdgeCall) (hpos : ∀ c ∈ calls, 0 ≤ c.2.2) :
    ∀ p ∈ rawScores (buildGraph calls), 3 / 20 ≤ p.2 := by
  have hwf := buildGraph_wf calls
  have hnd : (buildGraph calls).graph.keys.Nodup := hwf.1 ▸ hwf.2
  have hw : ∀ n, ∀ e ∈ (buildGraph calls).graph.getD n [], 0 ≤ e.weight := by
    intro n e he
    rw [buildGraph_getD] at he
    obtain ⟨c, hc, h | h⟩ := (mem_adjacency calls n e).1 he
    · rw [h.2]; exact hpos c hc
    · rw [h.2]; exact hpos c hc
  have hO : ∀ x, 0 ≤ (rankInit (buildGraph calls).graph).2.getD x 0 := by
    intro x
    rw [outSum_getD _ hnd]
    apply List.sum_nonneg
    intro y hy
    obtain ⟨e, he, rfl⟩ := List.mem_map.1 hy
    exact hw x e he
  have hW : ∀ x, 0 ≤ (rankInit (buildGraph calls).graph).1.getD x 0 := by
    intro x
    rw [ws_init_getD _ hnd]
    split
    · split
      · positivity
      · norm_num
    · exact le_rfl
  intro p hp
  have hkeys := rawScores_keys _ hwf
  have hget : (rawScores (buildGraph calls)).get? p.1 = some p.2 :=
    get?_of_mem _ p.1 p.2 (hkeys ▸ hwf.2) hp
  have hmem : p.1 ∈ sortKeys (buildGraph calls).keys := by
    rw [(sortKeys_perm _).mem_iff, ← hkeys]
    exact List.mem_map_of_mem Prod.fst hp
  have := iterate_rankPass_ge _ _ hw hO (sortKeys (buildGraph calls).keys) 9 _ hW p.1 hmem
  have hval : (rawScores (buildGraph calls)).getD p.1 0 = p.2 := by
    unfold GoMap.getD; rw [hget]; rfl
  rw [← hval]
  exact this

/-! ## The divisor of the normalisation -/

theorem small_lt_bound : SmallestNonzeroFloat64 < 3 / 200 := by
  unfold SmallestNonzeroFloat64; norm_num

theorem bound_le_max : (3 : ℚ) / 20 ≤ MaxFloat64 := by
  unfold MaxFloat64; norm_num

theorem foldl_minMax_inv (v : List ℚ) (h : ∀ w ∈ v, 3 / 20 ≤ w) (acc : ℚ × ℚ)
    (hacc : 3 / 20 ≤ acc.1 ∧ (acc.1 ≤ acc.2 ∨ acc.2 = SmallestNonzeroFloat64)) :
    3 / 20 ≤ (v.foldl
        (fun acc w =>
          if w < acc.1 then (w, acc.2)
          else if w > acc.2 then (acc.1, w)
          else acc) acc).1 ∧
      ((v.foldl
        (fun acc w =>
          if w < acc.1 then (w, acc.2)
          else if w > acc.2 then (acc.1, w)
          else acc) acc).1 ≤
        (v.foldl
        (fun acc w =>
          if w < acc.1 then (w, acc.2)
          else if w > acc.2 then (acc.1, w)
          else acc) acc).2 ∨
       (v.foldl
        (fun acc w =>
          if w < acc.1 then (w, acc.2)
          else if w > acc.2 then (acc.1, w)
          else acc) acc).2 = SmallestNonzeroFloat64) := by
  induction v generalizing acc with
  | nil => exact hacc
  | cons w rest ih =>
    rw [List.foldl_cons]
    apply ih (fun x hx => h x (by simp [hx]))
    have hw := h w (by simp)
    obtain ⟨h1, h2⟩ := hacc
    by_cases c1 : w < acc.1
    · rw [if_pos c1]
      refine ⟨hw, ?_⟩
      rcases h2 with h2 | h2
      · left; simp only; linarith
      · right; exact h2
    · rw [if_neg c1]
      by_cases c2 : w > acc.2
      · rw [if_pos c2]
        exact ⟨h1, Or.inl (not_lt.1 c1)⟩
      · rw [if_neg c2]
        exact ⟨h1, h2⟩

theorem minMaxRank_inv (v : List ℚ) (h : ∀ w ∈ v, 3 / 20 ≤ w) :
    3 / 20 ≤ (minMaxRank v).1 ∧
      ((minMaxRank v).1 ≤ (minMaxRank v).2 ∨ (minMaxRank v).2 = SmallestNonzeroFloat64) :=
  foldl_minMax_inv v h _ ⟨bound_le_max, Or.inr rfl⟩

theorem minMaxRank_denominator (v : List ℚ) (h : ∀ w ∈ v, 3 / 20 ≤ w) :
    (minMaxRank v).2 - (minMaxRank v).1 / 10 ≠ 0 := by
  obtain ⟨h1, h2 | h2⟩ := minMaxRank_inv v h
  · intro h0; linarith
  · rw [h2]
    have := small_lt_bound
    intro h0; linarith

/-- C12: for every graph built by `addEdge` calls with strictly positive weights (a
graph with a single node included), and whatever order `σ₁` the score table is
visited in by the min/max loop, the divisor `maxRank - minRank/10` of the
normalisation in `rank` is not zero; every score that `rank` computes is a quotient
by this non-zero divisor. -/
theorem C12_normalization_divisor_nonzero (calls : List EdgeCall)
    (hpos : ∀ c ∈ calls, 0 < c.2.2) (σ₁ σ₂ : GoMap String ℚ → GoMap String ℚ)
    (h₁ : IsEnum σ₁) :
    (minMaxRank ((σ₁ (rawScores (buildGraph calls))).map Prod.snd)).2 -
        (minMaxRank ((σ₁ (rawScores (buildGraph calls))).map Prod.snd)).1 / 10 ≠ 0 ∧
      ∀ p ∈ rankScores (buildGraph calls) σ₁ σ₂, ∃ w,
        p.2 = (w - (minMaxRank ((σ₁ (rawScores (buildGraph calls))).map Prod.snd)).1 / 10) /
          ((minMaxRank ((σ₁ (rawScores (buildGraph calls))).map Prod.snd)).2 -
            (minMaxRank ((σ₁ (rawScores (buildGraph calls))).map Prod.snd)).1 / 10) := by
  constructor
  · apply minMaxRank_denominator
    intro w hw
    obtain ⟨p, hp, rfl⟩ := List.mem_map.1 hw
    exact rawScores_ge calls (fun c hc => le_of_lt (hpos c hc)) p ((h₁ _).mem_iff.1 hp)
  · intro p hp
    unfold rankScores at hp
    obtain ⟨q, -, rfl⟩ := List.mem_map.1 hp
    exact ⟨q.2, rfl⟩

/-- C12 at the graph whose only node "A" is joined to itself, and at the graph with
the edges A-B and B-C visited backwards. -/
theorem C12_normalization_divisor_nonzero_witness :
    ((∀ c ∈ [(("A", "B", 1) : EdgeCall), ("B", "C", 2)], 0 < c.2.2) ∧
      IsEnum (List.reverse : GoMap String ℚ → GoMap String ℚ)) ∧
    ((minMaxRank ((List.reverse (rawScores (buildGraph [("A", "B", 1), ("B", "C", 2)]))).map
        Prod.snd)).2 -
        (minMaxRank ((List.reverse (rawScores (buildGraph [("A", "B", 1), ("B", "C", 2)]))).map
          Prod.snd)).1 / 10 ≠ 0 ∧
      ∀ p ∈ rankScores (buildGraph [("A", "B", 1), ("B", "C", 2)]) List.reverse id, ∃ w,
        p.2 = (w - (minMaxRank ((List.reverse
            (rawScores (buildGraph [("A", "B", 1), ("B", "C", 2)]))).map Prod.snd)).1 / 10) /
          ((minMaxRank ((List.reverse
            (rawScores (buildGraph [("A", "B", 1), ("B", "C", 2)]))).map Prod.snd)).2 -
            (minMaxRank ((List.reverse
              (rawScores (buildGraph [("A", "B", 1), ("B", "C", 2)]))).map Prod.snd)).1 / 10)) ∧
    ((minMaxRank ((id (rawScores (buildGraph [("A", "A", 1)]))).map Prod.snd)).2 -
        (minMaxRank ((id (rawScores (buildGraph [("A", "A", 1)]))).map Prod.snd)).1 / 10 ≠ 0) :=
  have hpos : ∀ c ∈ [(("A", "B", 1) : EdgeCall), ("B", "C", 2)], 0 < c.2.2 := by
    intro c hc
    simp only [List.mem_cons, List.mem_singleton, List.not_mem_nil, or_false] at hc
    rcases hc with rfl | rfl <;> norm_num
  ⟨⟨hpos, isEnum_reverse⟩,
    C12_normalization_divisor_nonzero [("A", "B", 1), ("B", "C", 2)] hpos List.reverse id
      isEnum_reverse,
    (C12_normalization_divisor_nonzero [("A", "A", 1)]
      (by intro c hc; rw [List.mem_singleton.1 hc]; norm_num) id id isEnum_id).1⟩

/-- C14, failing inputs.  For the graph whose only node "A" is joined to itself the
only raw score is 1, yet the `maxRank` that `rank` normalises with is
`SmallestNonzeroFloat64`, not 1.  For the graph with the single edge AA-BB, whose
greatest raw score is that of "BB", a min/max loop that visits BB before AA also
leaves `maxRank` at `SmallestNonzeroFloat64`: both scores take the branch that lowers
`minRank`, and the `else if` branch that would raise `maxRank` is skipped. -/
theorem C14_maxRank_is_not_the_greatest_raw_score :
    rawScores (buildGraph [("A", "A", 1)]) = [("A", 1)] ∧
      minMaxRank ((id (rawScores (buildGraph [("A", "A", 1)]))).map Prod.snd) =
        (1, SmallestNonzeroFloat64) ∧
      SmallestNonzeroFloat64 < 1 ∧
      rawScores (buildGraph [("AA", "BB", 1)]) = [("AA", rawFirst), ("BB", rawSecond)] ∧
      rawFirst < rawSecond ∧
      minMaxRank ((List.reverse (rawScores (buildGraph [("AA", "BB", 1)]))).map Prod.snd) =
        (rawFirst, SmallestNonzeroFloat64) ∧
      SmallestNonzeroFloat64 < rawSecond := by
  have hb := small_lt_bound
  have hf := small_lt_rawFirst_div
  have hp := rawFirst_pos
  have hlt := rawFirst_lt_rawSecond
  refine ⟨rawScores_loop "A" 1 one_ne_zero, ?_, by linarith,
    rawScores_pair_lt "AA" "BB" 1 AA_lt_BB one_ne_zero, hlt, ?_, by linarith⟩
  · rw [rawScores_loop "A" 1 one_ne_zero]
    exact minMaxRank_singleton 1 one_lt_MaxFloat64
  · rw [rawScores_pair_lt "AA" "BB" 1 AA_lt_BB one_ne_zero]
    exact minMaxRank_pair_desc _ _ hlt rawSecond_lt_max

/-- C18, the failing input: the graph with the single edge AA-BB of weight 1, the
score table visited in the order BB, AA by the min/max loop.  The raw score of "AA" is
smaller than that of "BB", `maxRank` keeps its initial value, the divisor of the
normalisation is negative, and the returned score of "AA" is greater than that of
"BB": the first entry of the output of `rank` is "AA", the node with the least raw
score. -/
theorem C18_normalization_reverses_order :
    rawScores (buildGraph [("AA", "BB", 1)]) = [("AA", rawFirst), ("BB", rawSecond)] ∧
      rawFirst < rawSecond ∧
      analyse.rank (buildGraph [("AA", "BB", 1)]) List.reverse id =
        [⟨"AA", normalize rawFirst SmallestNonzeroFloat64 rawFirst⟩,
         ⟨"BB", normalize rawFirst SmallestNonzeroFloat64 rawSecond⟩] ∧
      summary.rank (buildGraph [("AA", "BB", 1)]) List.reverse id =
        [⟨0, "AA", ∅, normalize rawFirst SmallestNonzeroFloat64 rawFirst⟩,
         ⟨0, "BB", ∅, normalize rawFirst SmallestNonzeroFloat64 rawSecond⟩] ∧
      normalize rawFirst SmallestNonzeroFloat64 rawSecond <
        normalize rawFirst SmallestNonzeroFloat64 rawFirst := by
  have hd2 : SmallestNonzeroFloat64 - rawFirst / 10 < 0 := by
    have h1 := small_lt_rawFirst_div
    linarith
  have hlt := normalize_lt_of_neg _ _ _ _ hd2 rawFirst_lt_rawSecond
  refine ⟨rawScores_pair_lt "AA" "BB" 1 AA_lt_BB one_ne_zero, rawFirst_lt_rawSecond, ?_, ?_,
    hlt⟩
  · unfold analyse.rank
    rw [rankScores_pair_desc "AA" "BB" 1 AA_lt_BB one_ne_zero]
    exact sortReverse_pair_of_not_less _ _ _ (segments_not_less_of_weight_gt _ _ hlt)
  · unfold summary.rank
    rw [rankScores_pair_desc "AA" "BB" 1 AA_lt_BB one_ne_zero]
    apply sortReverse_pair_of_not_less
    unfold summary.Sentences.Less
    rw [if_neg (ne_of_gt hlt)]
    exact not_lt.2 (le_of_lt hlt)

/-! ## One adjacency entry per accumulated ordered pair -/

theorem foldl_inv {α β : Type} (Q : β → Prop) (f : β → α → β) (l : List α)
    (hf : ∀ b, ∀ x ∈ l, Q b → Q (f b x)) (b : β) (h : Q b) : Q (l.foldl f b) := by
  induction l generalizing b with
  | nil => exact h
  | cons x rest ih =>
    rw [List.foldl_cons]
    exact ih (fun b y hy => hf b y (by simp [hy])) _ (hf b x (by simp) h)

theorem bump_nodup (cm : GoMap (String × String) ℚ) (k : String × String)
    (h : cm.keys.Nodup) : (analyse.bump cm k).keys.Nodup := by
  unfold analyse.bump
  split <;> exact GoMap.nodup_keys_set _ _ _ h

theorem cooccurrence_nodup (filt : GoMap String ℤ) (pairs : List summary.PosSegment) :
    (analyse.cooccurrence filt pairs).keys.Nodup := by
  unfold analyse.cooccurrence
  apply foldl_inv (fun (cm : GoMap (String × String) ℚ) => cm.keys.Nodup)
  · intro cm i _ hcm
    dsimp only
    split
    · apply foldl_inv (fun (cm : GoMap (String × String) ℚ) => cm.keys.Nodup)
      · intro cm' j _ hcm'
        dsimp only
        split
        · exact hcm'
        · split
          · exact hcm'
          · exact bump_nodup _ _ hcm'
      · exact hcm
    · exact hcm
  · exact List.nodup_nil

theorem simHashCooccurrence_nodup (pairs : List summary.PosSegment) :
    (analyse.simHashCooccurrence pairs).keys.Nodup := by
  unfold analyse.simHashCooccurrence
  apply foldl_inv (fun (cm : GoMap (String × String) ℚ) => cm.keys.Nodup)
  · intro cm i _ hcm
    apply foldl_inv (fun (cm : GoMap (String × String) ℚ) => cm.keys.Nodup)
    · intro cm' j _ hcm'
      exact bump_nodup _ _ hcm'
    · exact hcm
  · exact List.nodup_nil

theorem similarityMap_nodup (ln : ℕ → ℚ) (S : summary.Sentences) :
    (summary.similarityMap ln S).keys.Nodup := by
  unfold summary.similarityMap
  apply foldl_inv (fun (cm : GoMap (String × String) ℚ) => cm.keys.Nodup)
  · intro cm is1 _ hcm
    split
    · apply foldl_inv (fun (cm : GoMap (String × String) ℚ) => cm.keys.Nodup)
      · intro cm' s2 _ hcm'
        simp only
        split
        · exact GoMap.nodup_keys_set _ _ _ hcm'
        · exact hcm'
      · exact hcm
    · exact hcm
  · exact List.nodup_nil

theorem length_filter_ite (p : Prop) [Decidable p] (e : edge) (b : String) :
    ((if p then [e] else []).filter (fun e => e.«end» = b)).length =
      if p ∧ e.«end» = b then 1 else 0 := by
  by_cases hp : p <;> by_cases he : e.«end» = b <;> simp [hp, he]

theorem neighbourCount_adjacency (calls : List EdgeCall) (a b : String) :
    ((adjacency calls a).filter (fun e => e.«end» = b)).length =
      calls.countP (fun c => c.1 = a ∧ c.2.1 = b) +
        calls.countP (fun c => c.2.1 = a ∧ c.1 = b) := by
  induction calls with
  | nil => simp [adjacency]
  | cons c rest ih =>
    simp only [adjacency, List.filter_append, List.length_append, ih, List.countP_cons,
      length_filter_ite, decide_eq_true_eq]
    ring

theorem countP_key (E : GoMap (String × String) ℚ) (hnd : E.keys.Nodup)
    (k : String × String) :
    E.countP (fun kv => kv.1 = k) = if k ∈ E.keys then 1 else 0 := by
  induction E with
  | nil => simp [GoMap.keys]
  | cons kv rest ih =>
    have hnd' : (GoMap.keys rest).Nodup := (List.nodup_cons.1 hnd).2
    have hk : kv.1 ∉ GoMap.keys rest := (List.nodup_cons.1 hnd).1
    rw [List.countP_cons, ih hnd']
    by_cases h : kv.1 = k
    · have hk' : k ∉ GoMap.keys rest := h ▸ hk
      have hmem : k ∈ GoMap.keys (kv :: rest) := by simp [GoMap.keys, ← h]
      simp [h, hk', hmem]
    · have hiff : k ∈ GoMap.keys (kv :: rest) ↔ k ∈ GoMap.keys rest := by
        simp only [GoMap.keys, List.map_cons, List.mem_cons]
        constructor
        · rintro (e | e)
          · exact absurd e.symm h
          · exact e
        · exact Or.inr
      simp only [h, decide_False, Bool.false_eq_true, if_false, add_zero]
      by_cases hr : k ∈ GoMap.keys rest
      · rw [if_pos hr, if_pos (hiff.2 hr)]
      · rw [if_neg hr, if_neg (fun e => hr (hiff.1 e))]

theorem neighbourCount_graphOf (E : GoMap (String × String) ℚ) (hnd : E.keys.Nodup)
    (a b : String) :
    neighbourCount (summary.graphOf E) a b =
      (if (a, b) ∈ E.keys then 1 else 0) + (if (b, a) ∈ E.keys then 1 else 0) := by
  unfold neighbourCount summary.graphOf
  rw [buildGraph_getD, neighbourCount_adjacency, List.countP_map, List.countP_map,
    ← countP_key E hnd (a, b), ← countP_key E hnd (b, a)]
  congr 1
  · congr 1
    funext kv
    simp [Prod.ext_iff]
  · congr 1
    funext kv
    simp [Prod.ext_iff, and_comm]

theorem neighbourCount_enum (cm : GoMap (String × String) ℚ) (hnd : cm.keys.Nodup)
    (σc : GoMap (String × String) ℚ → GoMap (String × String) ℚ) (hc : IsEnum σc)
    (a b : String) :
    neighbourCount (summary.graphOf (σc cm)) a b =
        (if (a, b) ∈ cm.keys then 1 else 0) + (if (b, a) ∈ cm.keys then 1 else 0) ∧
      neighbourCount (summary.graphOf (σc cm)) a b ≤ 2 := by
  have hp : (σc cm).keys.Perm cm.keys := (hc cm).map _
  have h := neighbourCount_graphOf (σc cm) (hp.nodup_iff.2 hnd) a b
  simp only [hp.mem_iff] at h
  refine ⟨h, ?_⟩
  rw [h]
  split <;> split <;> omega

theorem cooccurrence_threeNouns :
    analyse.cooccurrence (analyse.posFilt ["n"]) (threeNouns.cut "AABBAA") =
      [(("AA", "BB"), 1), (("AA", "AA"), 1), (("BB", "AA"), 1)] := by
  decide

/-- C15, as stated, fails: for the token sequence "AA"/n, "BB"/n, "AA"/n with allowed
tags {n} the accumulator holds both ordered pairs ("AA","BB") and ("BB","AA"), and in
the graph built by `TextRankWithPOS` the adjacency list of "AA" holds two entries
whose neighbour is "BB". -/
theorem C15_two_entries_for_one_unordered_pair :
    analyse.cooccurrence (analyse.posFilt ["n"]) (threeNouns.cut "AABBAA") =
        [(("AA", "BB"), 1), (("AA", "AA"), 1), (("BB", "AA"), 1)] ∧
      (summary.graphOf (id (analyse.cooccurrence (analyse.posFilt ["n"])
          (threeNouns.cut "AABBAA")))).graph.getD "AA" [] =
        [⟨"AA", "BB", 1⟩, ⟨"AA", "AA", 1⟩, ⟨"AA", "AA", 1⟩, ⟨"AA", "BB", 1⟩] ∧
      neighbourCount (summary.graphOf (id (analyse.cooccurrence (analyse.posFilt ["n"])
        (threeNouns.cut "AABBAA")))) "AA" "BB" = 2 := by
  refine ⟨cooccurrence_threeNouns, ?_, ?_⟩
  · rw [cooccurrence_threeNouns]
    decide
  · unfold neighbourCount
    rw [cooccurrence_threeNouns]
    decide

/-- C15, amended: the pipelines pre-aggregate by ordered label pair and insert one
edge per accumulated ordered pair.  In the graph built by `TextRankWithPOS`, by
`SimHashRank` or by the sentence `TextRank`, in whatever order the accumulator `cm`
is enumerated, the adjacency list of a label `a` holds, for any label `b`, exactly one
entry with neighbour `b` for each of the ordered pairs `(a, b)` and `(b, a)` that is a
key of `cm`: at most two entries. -/
theorem C15_one_entry_per_ordered_pair (ta : analyse.TextRanker) (ts : summary.TextRanker)
    (ln : ℕ → ℚ) (σc : GoMap (String × String) ℚ → GoMap (String × String) ℚ)
    (hc : IsEnum σc) (sentence text : String) (allowPOS : List String) (a b : String) :
    (neighbourCount (summary.graphOf (σc (analyse.cooccurrence (analyse.posFilt allowPOS)
          (ta.cut sentence)))) a b =
        (if (a, b) ∈ (analyse.cooccurrence (analyse.posFilt allowPOS)
            (ta.cut sentence)).keys then 1 else 0) +
          (if (b, a) ∈ (analyse.cooccurrence (analyse.posFilt allowPOS)
            (ta.cut sentence)).keys then 1 else 0) ∧
      neighbourCount (summary.graphOf (σc (analyse.cooccurrence (analyse.posFilt allowPOS)
          (ta.cut sentence)))) a b ≤ 2) ∧
    (neighbourCount (summary.graphOf (σc (analyse.simHashCooccurrence
          (ta.cut sentence)))) a b =
        (if (a, b) ∈ (analyse.simHashCooccurrence (ta.cut sentence)).keys then 1 else 0) +
          (if (b, a) ∈ (analyse.simHashCooccurrence (ta.cut sentence)).keys then 1 else 0) ∧
      neighbourCount (summary.graphOf (σc (analyse.simHashCooccurrence
          (ta.cut sentence)))) a b ≤ 2) ∧
    (neighbourCount (summary.graphOf (σc (summary.similarityMap ln
          (summary.splitSentences ts text).sentences))) a b =
        (if (a, b) ∈ (summary.similarityMap ln
            (summary.splitSentences ts text).sentences).keys then 1 else 0) +
          (if (b, a) ∈ (summary.similarityMap ln
            (summary.splitSentences ts text).sentences).keys then 1 else 0) ∧
      neighbourCount (summary.graphOf (σc (summary.similarityMap ln
          (summary.splitSentences ts text).sentences))) a b ≤ 2) :=
  ⟨neighbourCount_enum _ (cooccurrence_nodup _ _) σc hc a b,
    neighbourCount_enum _ (simHashCooccurrence_nodup _) σc hc a b,
    neighbourCount_enum _ (similarityMap_nodup _ _) σc hc a b⟩

/-- C15, amended, at the token sequence "AA"/n, "BB"/n, "AA"/n and the text
"abc。bcd。", the accumulator enumerated backwards. -/
theorem C15_one_entry_per_ordered_pair_witness :
    IsEnum (List.reverse : GoMap (String × String) ℚ → GoMap (String × String) ℚ) ∧
    ((neighbourCount (summary.graphOf (List.reverse (analyse.cooccurrence
          (analyse.posFilt ["n"]) (threeNouns.cut "AABBAA")))) "AA" "BB" =
        (if ("AA", "BB") ∈ (analyse.cooccurrence (analyse.posFilt ["n"])
            (threeNouns.cut "AABBAA")).keys then 1 else 0) +
          (if ("BB", "AA") ∈ (analyse.cooccurrence (analyse.posFilt ["n"])
            (threeNouns.cut "AABBAA")).keys then 1 else 0) ∧
      neighbourCount (summary.graphOf (List.reverse (analyse.cooccurrence
          (analyse.posFilt ["n"]) (threeNouns.cut "AABBAA")))) "AA" "BB" ≤ 2) ∧
    (neighbourCount (summary.graphOf (List.reverse (analyse.simHashCooccurrence
          (threeNouns.cut "AABBAA")))) "AA" "BB" =
        (if ("AA", "BB") ∈ (analyse.simHashCooccurrence
            (threeNouns.cut "AABBAA")).keys then 1 else 0) +
          (if ("BB", "AA") ∈ (analyse.simHashCooccurrence
            (threeNouns.cut "AABBAA")).keys then 1 else 0) ∧
      neighbourCount (summary.graphOf (List.reverse (analyse.simHashCooccurrence
          (threeNouns.cut "AABBAA")))) "AA" "BB" ≤ 2) ∧
    (neighbourCount (summary.graphOf (List.reverse (summary.similarityMap lnStub
          (summary.splitSentences charCut "abc。bcd。").sentences))) "AA" "BB" =
        (if ("AA", "BB") ∈ (summary.similarityMap lnStub
            (summary.splitSentences charCut "abc。bcd。").sentences).keys then 1 else 0) +
          (if ("BB", "AA") ∈ (summary.similarityMap lnStub
            (summary.splitSentences charCut "abc。bcd。").sentences).keys then 1 else 0) ∧
      neighbourCount (summary.graphOf (List.reverse (summary.similarityMap lnStub
          (summary.splitSentences charCut "abc。bcd。").sentences))) "AA" "BB" ≤ 2)) :=
  ⟨isEnum_reverse,
    C15_one_entry_per_ordered_pair threeNouns charCut lnStub List.reverse isEnum_reverse
      "AABBAA" "abc。bcd。" ["n"] "AA" "BB"⟩

/-! ## The pair accumulator of the sentence pipeline -/

theorem mem_set {κ ν : Type} [DecidableEq κ] (m : GoMap κ ν) (k : κ) (v : ν) (kv : κ × ν)
    (h : kv ∈ m.set k v) : kv = (k, v) ∨ kv ∈ m := by
  induction m with
  | nil => simp only [GoMap.set, List.mem_singleton] at h; exact Or.inl h
  | cons p rest ih =>
    obtain ⟨k', v'⟩ := p
    by_cases hk : k' = k
    · simp only [GoMap.set, hk, if_true, List.mem_cons] at h
      rcases h with h | h
      · exact Or.inl h
      · exact Or.inr (List.mem_cons_of_mem _ h)
    · simp only [GoMap.set, hk, if_false, List.mem_cons] at h
      rcases h with h | h
      · exact Or.inr (by rw [h]; exact List.mem_cons_self _ _)
      · rcases ih h with h' | h'
        · exact Or.inl h'
        · exact Or.inr (List.mem_cons_of_mem _ h')

theorem foldl_keys_mono {α κ ν : Type} [DecidableEq κ] (g : GoMap κ ν → α → GoMap κ ν)
    (hmono : ∀ m x, ∀ k ∈ m.keys, k ∈ (g m x).keys) (l : List α) (m : GoMap κ ν) :
    ∀ k ∈ m.keys, k ∈ (l.foldl g m).keys := by
  induction l generalizing m with
  | nil => exact fun k hk => hk
  | cons x rest ih =>
    intro k hk
    rw [List.foldl_cons]
    exact ih _ k (hmono m x k hk)

theorem foldl_keys_hit {α κ ν : Type} [DecidableEq κ] (g : GoMap κ ν → α → GoMap κ ν)
    (hmono : ∀ m x, ∀ k ∈ m.keys, k ∈ (g m x).keys) (l : List α) (m : GoMap κ ν)
    (x : α) (hx : x ∈ l) (k : κ) (hk : ∀ m, k ∈ (g m x).keys) :
    k ∈ (l.foldl g m).keys := by
  induction l generalizing m with
  | nil => simp at hx
  | cons y rest ih =>
    rw [List.foldl_cons]
    rcases List.mem_cons.1 hx with rfl | hx'
    · exact foldl_keys_mono g hmono rest _ k (hk m)
    · exact ih _ hx'

theorem similarityMap_entries (ln : ℕ → ℚ) (S : summary.Sentences) :
    ∀ kv ∈ summary.similarityMap ln S, ∃ s ∈ S, ∃ t ∈ S,
      kv.1 = (s.text, t.text) ∧ kv.2 = s.Similarity ln t ∧ 0 < kv.2 := by
  unfold summary.similarityMap
  apply foldl_inv (fun (cm : GoMap (String × String) ℚ) => ∀ kv ∈ cm, ∃ s ∈ S, ∃ t ∈ S,
      kv.1 = (s.text, t.text) ∧ kv.2 = s.Similarity ln t ∧ 0 < kv.2)
  · intro cm is1 his1 hcm
    have hs1 : is1.2 ∈ S := List.snd_mem_of_mem_enumFrom his1
    split
    · apply foldl_inv (fun (cm : GoMap (String × String) ℚ) => ∀ kv ∈ cm, ∃ s ∈ S, ∃ t ∈ S,
        kv.1 = (s.text, t.text) ∧ kv.2 = s.Similarity ln t ∧ 0 < kv.2)
      · intro cm' s2 hs2 hcm'
        dsimp only
        split
        · rename_i hpos
          intro kv hkv
          rcases mem_set _ _ _ _ hkv with rfl | h
          · exact ⟨is1.2, hs1, s2, hs2, rfl, rfl, hpos⟩
          · exact hcm' kv h
        · exact hcm'
      · exact hcm
    · exact hcm
  · intro kv hkv
    simp at hkv

theorem similarityMap_complete (ln : ℕ → ℚ) (S : summary.Sentences)
    (s t : summary.Sentence) (hs : s ∈ S) (ht : t ∈ S) (hpos : 0 < s.Similarity ln t) :
    (s.text, t.text) ∈ (summary.similarityMap ln S).keys := by
  have hinner : ∀ (s1 : summary.Sentence) (m : GoMap (String × String) ℚ) (x : summary.Sentence),
      ∀ k ∈ m.keys, k ∈ (if s1.Similarity ln x > 0 then m.set (s1.Text, x.Text)
        (s1.Similarity ln x) else m).keys := by
    intro s1 m x k hk
    split
    · exact (GoMap.mem_keys_set _ _ _ _).2 (Or.inl hk)
    · exact hk
  obtain ⟨i, hi⟩ := List.mem_iff_getElem?.1 hs
  have hmem : (i, s) ∈ S.enum := List.mk_mem_enum_iff_getElem?.2 hi
  have hilt : i < S.length + 1 := by
    have := List.fst_lt_of_mem_enum hmem
    exact Nat.lt_succ_of_lt this
  unfold summary.similarityMap
  apply foldl_keys_hit _ _ _ _ (i, s) hmem
  · intro m
    dsimp only
    rw [if_pos hilt]
    apply foldl_keys_hit _ (hinner s) _ _ t ht
    intro m'
    dsimp only
    rw [if_pos hpos]
    exact (GoMap.mem_keys_set _ _ _ _).2 (Or.inr rfl)
  · intro m is1 k hk
    dsimp only
    split
    · exact foldl_keys_mono _ (hinner is1.2) _ _ k hk
    · exact hk

theorem sentence_eq_of_text (S : summary.Sentences) (hnd : (textsOf S).Nodup)
    (s s' : summary.Sentence) (hs : s ∈ S) (hs' : s' ∈ S) (h : s.text = s'.text) : s = s' :=
  List.inj_on_of_nodup_map hnd hs hs' h

theorem similarityMap_get? (ln : ℕ → ℚ) (S : summary.Sentences) (hnd : (textsOf S).Nodup)
    (s t : summary.Sentence) (hs : s ∈ S) (ht : t ∈ S) :
    (summary.similarityMap ln S).get? (s.text, t.text) =
      if 0 < s.Similarity ln t then some (s.Similarity ln t) else none := by
  have hval : ∀ w, (summary.similarityMap ln S).get? (s.text, t.text) = some w →
      w = s.Similarity ln t ∧ 0 < s.Similarity ln t := by
    intro w hw
    obtain ⟨s', hs', t', ht', hk, hv, hp⟩ := similarityMap_entries ln S _ (mem_of_get? _ _ _ hw)
    simp only [Prod.mk.injEq] at hk
    have e1 := sentence_eq_of_text S hnd s s' hs hs' hk.1
    have e2 := sentence_eq_of_text S hnd t t' ht ht' hk.2
    subst e1 e2
    simp only at hv hp
    exact ⟨hv, hv ▸ hp⟩
  by_cases hpos : 0 < s.Similarity ln t
  · rw [if_pos hpos]
    have hk := similarityMap_complete ln S s t hs ht hpos
    have hsome := (GoMap.get?_isSome_iff _ _).2 hk
    cases hg : (summary.similarityMap ln S).get? (s.text, t.text) with
    | none => rw [hg] at hsome; exact absurd hsome (by simp)
    | some w => rw [(hval w hg).1]
  · rw [if_neg hpos]
    cases hg : (summary.similarityMap ln S).get? (s.text, t.text) with
    | none => rfl
    | some w => exact absurd (hval w hg).2 hpos

theorem intersect_self (s : summary.set) : s.intersect s = s := by
  unfold summary.set.intersect summary.set.has
  apply Finset.filter_true_of_mem
  intro k hk
  simpa using hk

theorem similarity_self (ln : ℕ → ℚ) (s : summary.Sentence) (h2 : 2 ≤ s.words.len)
    (hln : 0 < ln s.words.len) :
    s.Similarity ln s = (s.words.len : ℚ) / (2 * ln s.words.len) ∧ 0 < s.Similarity ln s := by
  have hn0 : s.words.len ≠ 0 := by omega
  have hss : summary.Log ln s.words.len + summary.Log ln s.words.len =
      ((ln s.words.len + ln s.words.len : ℚ) : WithBot ℚ) := by
    simp [summary.Log, hn0]
  have hne : ln s.words.len + ln s.words.len ≠ 0 := by linarith
  have heq : s.Similarity ln s = (s.words.len : ℚ) / (2 * ln s.words.len) := by
    unfold summary.Sentence.Similarity
    simp only [intersect_self, hss]
    rw [if_neg (by exact_mod_cast hne)]
    simp only [summary.divBot]
    rw [two_mul]
  refine ⟨heq, ?_⟩
  rw [heq]
  have : (0 : ℚ) < s.words.len := by exact_mod_cast (by omega : 0 < s.words.len)
  positivity

theorem similarity_of_denominator_zero (ln : ℕ → ℚ) (s t : summary.Sentence)
    (h : summary.Log ln s.words.len + summary.Log ln t.words.len = 0) :
    s.Similarity ln t = -1 := by
  unfold summary.Sentence.Similarity
  simp only [h, if_true]

theorem mem_graphOf_of_mem (cm : GoMap (String × String) ℚ)
    (σc : GoMap (String × String) ℚ → GoMap (String × String) ℚ) (hc : IsEnum σc)
    (k : String × String) (w : ℚ) (h : (k, w) ∈ cm) :
    (⟨k.1, k.2, w⟩ : edge) ∈ (summary.graphOf (σc cm)).graph.getD k.1 [] ∧
      (⟨k.2, k.1, w⟩ : edge) ∈ (summary.graphOf (σc cm)).graph.getD k.2 [] := by
  have h' : (k, w) ∈ σc cm := (hc cm).mem_iff.2 h
  unfold summary.graphOf
  rw [buildGraph_getD, buildGraph_getD, mem_adjacency, mem_adjacency]
  exact ⟨⟨(k.1, k.2, w), List.mem_map.2 ⟨(k, w), h', rfl⟩, Or.inl ⟨rfl, rfl⟩⟩,
    ⟨(k.1, k.2, w), List.mem_map.2 ⟨(k, w), h', rfl⟩, Or.inr ⟨rfl, rfl⟩⟩⟩

/-- C16: in the sentence pipeline, with `S` the de-duplicated sentences of the text,
the pair accumulator `cm` holds an entry for the ordered pair of texts `(s, t)` exactly
when `Similarity(s, t) > 0`, with that similarity as weight, and holds no other entry.
The loop compares each sentence with itself: every sentence whose word set has
`n ≥ 2` words has the entry `(s, s)` of weight `n / (2 ln n)`, which becomes a
self-edge of the graph.  A pair whose log-size denominator is 0 has similarity `-1`
and no entry.  (`ln` is the library logarithm, positive from 2 on.) -/
theorem C16_accumulator_holds_positive_similarities (t : summary.TextRanker) (ln : ℕ → ℚ)
    (σc : GoMap (String × String) ℚ → GoMap (String × String) ℚ) (hc : IsEnum σc)
    (hln : ∀ n, 2 ≤ n → 0 < ln n) (text : String) :
    (∀ s ∈ (summary.splitSentences t text).sentences,
      ∀ s' ∈ (summary.splitSentences t text).sentences,
        (summary.similarityMap ln (summary.splitSentences t text).sentences).get?
            (s.Text, s'.Text) =
          if 0 < s.Similarity ln s' then some (s.Similarity ln s') else none) ∧
    (∀ k w, (summary.similarityMap ln (summary.splitSentences t text).sentences).get? k =
        some w →
      ∃ s ∈ (summary.splitSentences t text).sentences,
        ∃ s' ∈ (summary.splitSentences t text).sentences,
          k = (s.Text, s'.Text) ∧ w = s.Similarity ln s' ∧ 0 < s.Similarity ln s') ∧
    (∀ s ∈ (summary.splitSentences t text).sentences, 2 ≤ s.words.len →
      (summary.similarityMap ln (summary.splitSentences t text).sentences).get?
          (s.Text, s.Text) = some ((s.words.len : ℚ) / (2 * ln s.words.len)) ∧
      0 < (s.words.len : ℚ) / (2 * ln s.words.len) ∧
      (⟨s.Text, s.Text, (s.words.len : ℚ) / (2 * ln s.words.len)⟩ : edge) ∈
        (summary.graphOf (σc (summary.similarityMap ln
          (summary.splitSentences t text).sentences))).graph.getD s.Text []) ∧
    (∀ s ∈ (summary.splitSentences t text).sentences,
      ∀ s' ∈ (summary.splitSentences t text).sentences,
        summary.Log ln s.words.len + summary.Log ln s'.words.len = 0 →
          s.Similarity ln s' = -1 ∧
          (summary.similarityMap ln (summary.splitSentences t text).sentences).get?
            (s.Text, s'.Text) = none) := by
  obtain ⟨-, -, hnd, -, -, -⟩ := splitSentences_inv t text
  refine ⟨fun s hs s' hs' => similarityMap_get? ln _ hnd s s' hs hs', ?_, ?_, ?_⟩
  · intro k w hkw
    obtain ⟨s, hs, s', hs', hk, hv, hp⟩ :=
      similarityMap_entries ln _ _ (mem_of_get? _ _ _ hkw)
    exact ⟨s, hs, s', hs', hk, hv, hv ▸ hp⟩
  · intro s hs h2
    obtain ⟨heq, hpos⟩ := similarity_self ln s h2 (hln _ h2)
    have hget := similarityMap_get? ln _ hnd s s hs hs
    rw [if_pos hpos, heq] at hget
    refine ⟨hget, heq ▸ hpos, ?_⟩
    exact (mem_graphOf_of_mem _ σc hc (s.text, s.text) _ (mem_of_get? _ _ _ hget)).1
  · intro s hs s' hs' h0
    have hsim := similarity_of_denominator_zero ln s s' h0
    refine ⟨hsim, ?_⟩
    have hget := similarityMap_get? ln _ hnd s s' hs hs'
    rw [hsim, if_neg (by norm_num)] at hget
    exact hget

theorem lnStub_pos (n : ℕ) (h : 2 ≤ n) : 0 < lnStub n := by
  unfold lnStub
  exact_mod_cast Nat.log_pos (by norm_num) h

/-- C16 at the text "abc。bcd。" cut into code points. -/
theorem C16_accumulator_holds_positive_similarities_witness :
    (IsEnum (List.reverse : GoMap (String × String) ℚ → GoMap (String × String) ℚ) ∧
      ∀ n, 2 ≤ n → 0 < lnStub n) ∧
    ∀ s ∈ (summary.splitSentences charCut "abc。bcd。").sentences, 2 ≤ s.words.len →
      (summary.similarityMap lnStub (summary.splitSentences charCut "abc。bcd。").sentences).get?
          (s.Text, s.Text) = some ((s.words.len : ℚ) / (2 * lnStub s.words.len)) ∧
      0 < (s.words.len : ℚ) / (2 * lnStub s.words.len) ∧
      (⟨s.Text, s.Text, (s.words.len : ℚ) / (2 * lnStub s.words.len)⟩ : edge) ∈
        (summary.graphOf (List.reverse (summary.similarityMap lnStub
          (summary.splitSentences charCut "abc。bcd。").sentences))).graph.getD s.Text [] :=
  ⟨⟨isEnum_reverse, lnStub_pos⟩,
    (C16_accumulator_holds_positive_similarities charCut lnStub List.reverse isEnum_reverse
      lnStub_pos "abc。bcd。").2.2.1⟩

/-! ## Sentences of the output have a similar sentence -/

theorem similarity_comm (ln : ℕ → ℚ) (s t : summary.Sentence) :
    s.Similarity ln t = t.Similarity ln s := by
  unfold summary.Sentence.Similarity
  simp only [intersect_len_comm s.words t.words,
    add_comm (summary.Log ln s.words.len) (summary.Log ln t.words.len)]

theorem similarity_small (ln : ℕ → ℚ) (hln1 : ln 1 = 0) (s t : summary.Sentence)
    (hs : s.words.len ≤ 1) (ht : t.words.len ≤ 1) : ¬ 0 < s.Similarity ln t := by
  have hcases : ∀ n : ℕ, n ≤ 1 → summary.Log ln n = ⊥ ∨ summary.Log ln n = 0 := by
    intro n hn
    rcases Nat.le_one_iff_eq_zero_or_eq_one.1 hn with rfl | rfl
    · left; simp [summary.Log]
    · right; simp [summary.Log, hln1]
  unfold summary.Sentence.Similarity
  rcases hcases _ hs with h1 | h1 <;> rcases hcases _ ht with h2 | h2 <;>
    simp [h1, h2, summary.divBot]

theorem foldl_splitStep_words (t : summary.TextRanker) (F : List String)
    (st : summary.SplitState) (h : ∀ s ∈ st.sentences, s.words = summary.wordsOf t s.text) :
    ∀ s ∈ (F.foldl (summary.splitStep t) st).sentences,
      s.words = summary.wordsOf t s.text := by
  induction F generalizing st with
  | nil => exact h
  | cons x rest ih =>
    rw [List.foldl_cons]
    apply ih
    unfold summary.splitStep
    split
    · exact h
    · intro s hs
      rcases List.mem_append.1 hs with hs | hs
      · exact h s hs
      · rw [List.mem_singleton.1 hs]

theorem splitSentences_words (t : summary.TextRanker) (text : String) :
    ∀ s ∈ (summary.splitSentences t text).sentences, s.words = summary.wordsOf t s.text :=
  foldl_splitStep_words t _ _ (by simp)

theorem textRank_similar (t : summary.TextRanker) (ln : ℕ → ℚ)
    (σc : GoMap (String × String) ℚ → GoMap (String × String) ℚ)
    (σ₁ σ₂ : GoMap String ℚ → GoMap String ℚ) (hc : IsEnum σc) (h₂ : IsEnum σ₂)
    (text : String) (limit : ℤ) :
    ∃ res, t.TextRank ln σc σ₁ σ₂ text limit = some res ∧
      ∀ r ∈ res, r ∈ (summary.splitSentences t text).sentences ∧
        ∃ s ∈ (summary.splitSentences t text).sentences, 0 < r.Similarity ln s := by
  obtain ⟨res, sel, hres, hsub, hselsub, -, -, hperm⟩ :=
    textRank_spec t ln σc σ₁ σ₂ hc h₂ text limit
  obtain ⟨-, -, hnd, -, -, -⟩ := splitSentences_inv t text
  refine ⟨res, hres, fun r hr => ⟨hsub.subset hr, ?_⟩⟩
  have hrS := hsub.subset hr
  have h1 : r.text ∈ textsOf sel := hperm.mem_iff.1 (List.mem_map_of_mem _ hr)
  obtain ⟨tag, htag, htext⟩ := List.mem_map.1 h1
  have h2 : r.text ∈ textsOf (summary.rank (summary.graphOf (σc (summary.similarityMap ln
      (summary.splitSentences t text).sentences))) σ₁ σ₂) := by
    rw [← htext]
    exact List.mem_map_of_mem _ (hselsub.subset htag)
  have h3 := (summary.sentences_rank_texts_perm _ (graphOf_wf _) σ₁ σ₂ h₂).mem_iff.1 h2
  obtain ⟨k, hk, hrk⟩ := graphOf_keys σc hc _ _ h3
  obtain ⟨kv, hkv, rfl⟩ := List.mem_map.1 hk
  obtain ⟨s, hs, s', hs', hkey, hval, hpos⟩ := similarityMap_entries ln _ kv hkv
  rw [hkey] at hrk
  rw [hval] at hpos
  rcases hrk with e | e
  · have := sentence_eq_of_text _ hnd r s hrS hs e
    subst this
    exact ⟨s', hs', hpos⟩
  · have := sentence_eq_of_text _ hnd r s' hrS hs' e
    subst this
    exact ⟨s, hs, by rw [similarity_comm]; exact hpos⟩

/-- C20: a sentence appears in the output of `TextRank`, and hence in the string
returned by `Summary`, only if it is a sentence of the text that has similarity `> 0`
with at least one sentence of the text (possibly itself).  In particular, when the
word set of every sentence has at most one word, `TextRank` returns the empty list
and `Summary` the empty string, for every budget.  (`ln` is the library logarithm,
with `ln 1 = 0`.) -/
theorem C20_output_sentences_have_similar_sentence (t : summary.TextRanker) (ln : ℕ → ℚ)
    (σc : GoMap (String × String) ℚ → GoMap (String × String) ℚ)
    (σ₁ σ₂ : GoMap String ℚ → GoMap String ℚ) (hc : IsEnum σc) (h₂ : IsEnum σ₂)
    (hln1 : ln 1 = 0) (text : String) (limit : ℤ) :
    ∃ res, t.TextRank ln σc σ₁ σ₂ text limit = some res ∧
      t.Summary ln σc σ₁ σ₂ text limit =
        some (String.join (res.map (fun s => s.Text ++ "。"))) ∧
      (∀ r ∈ res, r ∈ (summary.splitSentences t text).sentences ∧
        ∃ s ∈ (summary.splitSentences t text).sentences, 0 < r.Similarity ln s) ∧
      ((∀ s ∈ (summary.splitSentences t text).sentences, s.words.len ≤ 1) →
        res = [] ∧ t.Summary ln σc σ₁ σ₂ text limit = some "") := by
  obtain ⟨res, hres, hsim⟩ := textRank_similar t ln σc σ₁ σ₂ hc h₂ text limit
  have hsum : t.Summary ln σc σ₁ σ₂ text limit =
      some (String.join (res.map (fun s => s.Text ++ "。"))) := by
    unfold summary.TextRanker.Summary
    rw [hres]
    rfl
  refine ⟨res, hres, hsum, hsim, fun hsmall => ?_⟩
  have hnil : res = [] := by
    apply List.eq_nil_iff_forall_not_mem.2
    intro r hr
    obtain ⟨hrS, s, hs, hpos⟩ := hsim r hr
    exact similarity_small ln hln1 r s (hsmall r hrS) (hsmall s hs) hpos
  refine ⟨hnil, ?_⟩
  rw [hsum, hnil]
  rfl

theorem wordsOf_oneWordCut (s : String) : (summary.wordsOf oneWordCut s).card ≤ 1 := by
  show (summary.wordsOf oneWordCut "").card ≤ 1
  decide

/-- C20 at the text "ab。cd" with a segmenter that yields one word per sentence. -/
theorem C20_output_sentences_have_similar_sentence_witness :
    (IsEnum (id : GoMap (String × String) ℚ → GoMap (String × String) ℚ) ∧
      IsEnum (List.reverse : GoMap String ℚ → GoMap String ℚ) ∧ lnStub 1 = 0 ∧
      ∀ s ∈ (summary.splitSentences oneWordCut "ab。cd").sentences, s.words.len ≤ 1) ∧
    oneWordCut.TextRank lnStub id id List.reverse "ab。cd" 100 = some [] ∧
    oneWordCut.Summary lnStub id id List.reverse "ab。cd" 100 = some "" :=
  have hln : lnStub 1 = 0 := by unfold lnStub; simp
  have hsmall : ∀ s ∈ (summary.splitSentences oneWordCut "ab。cd").sentences,
      s.words.len ≤ 1 := by
    intro s hs
    rw [splitSentences_words oneWordCut "ab。cd" s hs]
    exact wordsOf_oneWordCut s.text
  match C20_output_sentences_have_similar_sentence oneWordCut lnStub id id List.reverse
      isEnum_id isEnum_reverse hln "ab。cd" 100 with
  | ⟨_, hres, _, _, hempty⟩ =>
    ⟨⟨isEnum_id, isEnum_reverse, hln, hsmall⟩, by rw [hres, (hempty hsmall).1],
      (hempty hsmall).2⟩

/-! ## Total weight between two labels -/

theorem sum_filter_ite (p : Prop) [Decidable p] (e : edge) (b : String) :
    (((if p then [e] else []).filter (fun e => e.«end» = b)).map edge.weight).sum =
      if p ∧ e.«end» = b then e.weight else 0 := by
  by_cases hp : p <;> by_cases he : e.«end» = b <;> simp [hp, he]

/-- The weights of the adjacency entries `a -> b` add up to the total weight inserted
between `a` and `b`. -/
theorem adjacency_linkWeight (calls : List EdgeCall) (a b : String) :
    (((adjacency calls a).filter (fun e => e.«end» = b)).map edge.weight).sum =
      linkWeight calls a b := by
  unfold linkWeight
  induction calls with
  | nil => simp [adjacency]
  | cons c rest ih =>
    simp only [adjacency, List.filter_append, List.map_append, List.sum_append, ih,
      sum_filter_ite, List.map_cons, List.sum_cons]
    ring

theorem sum_key (E : GoMap (String × String) ℚ) (hnd : E.keys.Nodup) (k : String × String) :
    (E.map (fun kv => if kv.1 = k then kv.2 else 0)).sum = E.getD k 0 := by
  induction E with
  | nil => simp [GoMap.getD, GoMap.get?]
  | cons kv rest ih =>
    obtain ⟨k', v⟩ := kv
    have hnd' : (GoMap.keys rest).Nodup := (List.nodup_cons.1 hnd).2
    have hk : k' ∉ GoMap.keys rest := (List.nodup_cons.1 hnd).1
    rw [List.map_cons, List.sum_cons, ih hnd']
    by_cases h : k' = k
    · subst h
      have hnone : GoMap.get? rest k' = none := (GoMap.get?_eq_none_iff _ _).2 hk
      simp [GoMap.getD, GoMap.get?, hnone]
    · simp [GoMap.getD, GoMap.get?, h]

theorem linkWeight_entries (E : GoMap (String × String) ℚ) (hnd : E.keys.Nodup)
    (a b : String) :
    linkWeight (E.map (fun kv => (kv.1.1, kv.1.2, kv.2))) a b =
      E.getD (a, b) 0 + E.getD (b, a) 0 := by
  unfold linkWeight
  rw [← sum_key E hnd (a, b), ← sum_key E hnd (b, a), List.map_map, ← List.sum_map_add]
  congr 1
  apply List.map_congr_left
  intro kv _
  simp only [Function.comp_apply, Prod.ext_iff]
  congr 1
  by_cases h1 : kv.1.2 = a <;> by_cases h2 : kv.1.1 = b <;> simp [h1, h2]

theorem getD_perm {κ ν : Type} [DecidableEq κ] (m m' : GoMap κ ν) (hp : m'.Perm m)
    (hnd : m.keys.Nodup) (k : κ) (z : ν) : m'.getD k z = m.getD k z := by
  have hnd' : m'.keys.Nodup := (hp.map Prod.fst).nodup_iff.2 hnd
  unfold GoMap.getD
  cases hg : m.get? k with
  | none =>
    have hk : k ∉ m'.keys := fun h =>
      (GoMap.get?_eq_none_iff _ _).1 hg ((hp.map Prod.fst).mem_iff.1 h)
    rw [(GoMap.get?_eq_none_iff _ _).2 hk]
  | some v =>
    rw [get?_of_mem m' k v hnd' (hp.mem_iff.2 (mem_of_get? m k v hg))]

/-- The total weight of the adjacency entries `a -> b` of the graph built from the
accumulator `cm` is `cm[(a, b)] + cm[(b, a)]`. -/
theorem graphOf_weight (cm : GoMap (String × String) ℚ) (hnd : cm.keys.Nodup)
    (σc : GoMap (String × String) ℚ → GoMap (String × String) ℚ) (hc : IsEnum σc)
    (a b : String) :
    ((((summary.graphOf (σc cm)).graph.getD a []).filter (fun e => e.«end» = b)).map
      edge.weight).sum = cm.getD (a, b) 0 + cm.getD (b, a) 0 := by
  have hnd' : (σc cm).keys.Nodup := ((hc cm).map Prod.fst).nodup_iff.2 hnd
  unfold summary.graphOf
  rw [buildGraph_getD, adjacency_linkWeight, linkWeight_entries _ hnd',
    getD_perm cm (σc cm) (hc cm) hnd, getD_perm cm (σc cm) (hc cm) hnd]

/-! ## The co-occurrence accumulator counts position pairs -/

theorem bump_getD (cm : GoMap (String × String) ℚ) (k k' : String × String) :
    (analyse.bump cm k).getD k' 0 = cm.getD k' 0 + if k = k' then 1 else 0 := by
  unfold analyse.bump
  cases hg : cm.get? k with
  | none =>
    simp only [getD_set]
    by_cases h : k = k'
    · subst h; simp [GoMap.getD, hg]
    · simp [h]
  | some w =>
    simp only [getD_set]
    by_cases h : k = k'
    · subst h; simp [GoMap.getD, hg]
    · simp [h]

theorem foldl_getD_add {α κ : Type} [DecidableEq κ] (g : GoMap κ ℚ → α → GoMap κ ℚ)
    (k' : κ) (N : α → ℚ) (l : List α)
    (hg : ∀ (m : GoMap κ ℚ), ∀ x ∈ l, (g m x).getD k' 0 = m.getD k' 0 + N x)
    (m : GoMap κ ℚ) : (l.foldl g m).getD k' 0 = m.getD k' 0 + (l.map N).sum := by
  induction l generalizing m with
  | nil => simp
  | cons x rest ih =>
    rw [List.foldl_cons, ih (fun m y hy => hg m y (by simp [hy])), hg m x (by simp)]
    simp [add_assoc]

theorem sum_indicator {α : Type} (l : List α) (p : α → Prop) [DecidablePred p] :
    (l.map (fun x => if p x then (1 : ℚ) else 0)).sum = (l.countP (fun x => decide (p x)) : ℚ) := by
  induction l with
  | nil => simp
  | cons x rest ih =>
    rw [List.map_cons, List.sum_cons, ih, List.countP_cons]
    by_cases h : p x <;> simp [h, add_comm]

/-- The positions `j` scanned for the position `i`: `i < j < i + 5`, `j < n`. -/
theorem window_perm (i n : ℕ) :
    (List.range' (i + 1) (min (i + 5) n - (i + 1))).Perm
      ((List.range n).filter (fun j => decide (i < j ∧ j < i + 5))) := by
  rw [List.perm_ext_iff_of_nodup (List.nodup_range' _ _) ((List.nodup_range n).filter _)]
  intro j
  simp only [List.mem_range'_1, List.mem_filter, List.mem_range, decide_eq_true_eq]
  omega

theorem cooccurrence_step (allowPOS : List String) (pi pj : summary.PosSegment)
    (m : GoMap (String × String) ℚ) (x y : String) :
    (if !((analyse.posFilt allowPOS).get? pj.pos).isSome then m
      else if (pi.text.length : ℤ) < analyse.defaultMinWordLength then m
      else analyse.bump m (pi.text, pj.text)).getD (x, y) 0 =
      m.getD (x, y) 0 +
        if pj.pos ∈ allowPOS ∧ 2 ≤ pi.text.length ∧ pi.text = x ∧ pj.text = y then 1 else 0 := by
  by_cases halj : pj.pos ∈ allowPOS
  · have hj : ((analyse.posFilt allowPOS).get? pj.pos).isSome = true :=
      (posFilt_isSome_iff allowPOS _).2 halj
    simp only [hj, Bool.not_true, Bool.false_eq_true, if_false]
    by_cases hshort : (pi.text.length : ℤ) < analyse.defaultMinWordLength
    · have h2 : ¬ 2 ≤ pi.text.length := by
        unfold analyse.defaultMinWordLength at hshort; omega
      simp [hshort, h2]
    · have h2 : 2 ≤ pi.text.length := by
        unfold analyse.defaultMinWordLength at hshort; omega
      rw [if_neg hshort, bump_getD]
      simp [halj, h2, Prod.ext_iff]
  · have hj : ((analyse.posFilt allowPOS).get? pj.pos).isSome = false := by
      rw [← Bool.not_eq_true, posFilt_isSome_iff]; exact halj
    simp [hj, halj]

theorem cooccurrence_getD (allowPOS : List String) (pairs : List summary.PosSegment)
    (x y : String) :
    (analyse.cooccurrence (analyse.posFilt allowPOS) pairs).getD (x, y) 0 =
      ((List.range pairs.length).map (fun i =>
        if (pairs.getD i ⟨"", ""⟩).pos ∈ allowPOS then
          (((List.range' (i + 1) (min (i + 5) pairs.length - (i + 1))).countP (fun j =>
            decide ((pairs.getD j ⟨"", ""⟩).pos ∈ allowPOS ∧
              2 ≤ (pairs.getD i ⟨"", ""⟩).text.length ∧
              (pairs.getD i ⟨"", ""⟩).text = x ∧ (pairs.getD j ⟨"", ""⟩).text = y)) : ℕ) : ℚ)
        else 0)).sum := by
  unfold analyse.cooccurrence
  refine (foldl_getD_add _ (x, y) (fun i =>
        if (pairs.getD i ⟨"", ""⟩).pos ∈ allowPOS then
          (((List.range' (i + 1) (min (i + 5) pairs.length - (i + 1))).countP (fun j =>
            decide ((pairs.getD j ⟨"", ""⟩).pos ∈ allowPOS ∧
              2 ≤ (pairs.getD i ⟨"", ""⟩).text.length ∧
              (pairs.getD i ⟨"", ""⟩).text = x ∧ (pairs.getD j ⟨"", ""⟩).text = y)) : ℕ) : ℚ)
        else 0) _ ?_ []).trans ?_
  rotate_left
  · simp [GoMap.getD, GoMap.get?]
  · intro m i _
    dsimp only
    by_cases hal : (pairs.getD i ⟨"", ""⟩).pos ∈ allowPOS
    · rw [if_pos ((posFilt_isSome_iff allowPOS _).2 hal), if_pos hal, ← sum_indicator]
      apply foldl_getD_add
      intro m' j _
      exact cooccurrence_step allowPOS _ _ m' x y
    · have hi : ¬ ((analyse.posFilt allowPOS).get? (pairs.getD i ⟨"", ""⟩).pos).isSome = true :=
        fun h => hal ((posFilt_isSome_iff allowPOS _).1 h)
      rw [if_neg hi, if_neg hal, add_zero]

theorem countP_product {α β : Type} (l₁ : List α) (l₂ : List β) (p : α × β → Bool) :
    (List.product l₁ l₂).countP p = (l₁.map (fun a => l₂.countP (fun b => p (a, b)))).sum := by
  induction l₁ with
  | nil => simp
  | cons a rest ih =>
    have h : (a :: rest).product l₂ = l₂.map (Prod.mk a) ++ rest.product l₂ :=
      List.product_cons a rest l₂
    rw [h, List.countP_append, ih, List.map_cons, List.sum_cons, List.countP_map]
    rfl

theorem countP_or_of_disjoint {α : Type} (l : List α) (p q : α → Bool)
    (h : ∀ x, ¬ (p x = true ∧ q x = true)) :
    l.countP (fun x => p x || q x) = l.countP p + l.countP q := by
  induction l with
  | nil => simp
  | cons x rest ih =>
    simp only [List.countP_cons, ih]
    have := h x
    cases hp : p x <;> cases hq : q x <;> simp_all <;> omega

theorem window_countP (i n : ℕ) (q : ℕ → Bool) :
    (List.range n).countP (fun j => decide (i < j ∧ j < i + 5) && q j) =
      (List.range' (i + 1) (min (i + 5) n - (i + 1))).countP q := by
  rw [(window_perm i n).countP_eq, List.countP_filter]
  congr 1
  funext j
  rw [Bool.and_comm]

theorem orderedPairCount_eq (allowPOS : List String) (pairs : List summary.PosSegment)
    (x y : String) :
    orderedPairCount allowPOS pairs x y =
      ((List.range pairs.length).map (fun i =>
        if (pairs.getD i ⟨"", ""⟩).pos ∈ allowPOS then
          (List.range' (i + 1) (min (i + 5) pairs.length - (i + 1))).countP (fun j =>
            decide ((pairs.getD j ⟨"", ""⟩).pos ∈ allowPOS ∧
              2 ≤ (pairs.getD i ⟨"", ""⟩).text.length ∧
              (pairs.getD i ⟨"", ""⟩).text = x ∧ (pairs.getD j ⟨"", ""⟩).text = y))
        else 0)).sum := by
  unfold orderedPairCount
  rw [countP_product]
  congr 1
  apply List.map_congr_left
  intro i _
  dsimp only
  by_cases hal : (pairs.getD i ⟨"", ""⟩).pos ∈ allowPOS
  · rw [if_pos hal, ← window_countP]
    congr 1
    funext j
    by_cases h1 : i < j ∧ j < i + 5
    · have h1a := h1.1
      have h1b := h1.2
      simp only [h1a, h1b, hal, true_and, and_self, decide_True, Bool.true_and]
    · have : ¬ (i < j ∧ j < i + 5 ∧ (pairs.getD i ⟨"", ""⟩).pos ∈ allowPOS ∧
          (pairs.getD j ⟨"", ""⟩).pos ∈ allowPOS ∧ 2 ≤ (pairs.getD i ⟨"", ""⟩).text.length ∧
          (pairs.getD i ⟨"", ""⟩).text = x ∧ (pairs.getD j ⟨"", ""⟩).text = y) :=
        fun h => h1 ⟨h.1, h.2.1⟩
      rw [decide_eq_false this, decide_eq_false h1, Bool.false_and]
  · rw [if_neg hal]
    apply List.countP_eq_zero.2
    intro j _
    simp only [decide_eq_true_eq, not_and]
    intro _ _ h
    exact absurd h hal

theorem cooccurrence_getD_count (allowPOS : List String) (pairs : List summary.PosSegment)
    (x y : String) :
    (analyse.cooccurrence (analyse.posFilt allowPOS) pairs).getD (x, y) 0 =
      (orderedPairCount allowPOS pairs x y : ℚ) := by
  rw [cooccurrence_getD, orderedPairCount_eq, Nat.cast_list_sum, List.map_map]
  congr 1
  apply List.map_congr_left
  intro i _
  simp only [Function.comp_apply]
  split
  · rfl
  · simp

theorem pairCount_eq (allowPOS : List String) (pairs : List summary.PosSegment)
    (a b : String) (hab : a ≠ b) :
    pairCount allowPOS pairs a b =
      orderedPairCount allowPOS pairs a b + orderedPairCount allowPOS pairs b a := by
  unfold pairCount orderedPairCount
  rw [← countP_or_of_disjoint]
  · congr 1
    funext ij
    rw [Bool.eq_iff_iff]
    simp only [Bool.or_eq_true, decide_eq_true_eq]
    tauto
  · intro ij
    simp only [decide_eq_true_eq]
    rintro ⟨⟨-, -, -, -, -, h1, -⟩, ⟨-, -, -, -, -, h2, -⟩⟩
    exact hab (h1.symm.trans h2)

/-- C11: for every tagged token sequence and allowed-tag set, in whatever order the
accumulator `cm` is enumerated, and for every two distinct labels `a` and `b`, the
weights of the adjacency entries `a -> b` of the graph built by `TextRankWithPOS` add
up to the number of position pairs `(i, j)` with `i < j < i + 5`, `j` within the
sequence, both tags allowed, `token[i]` at least 2 code points long (`token[j]` is not
length-checked) and `{token[i], token[j]} = {a, b}`. -/
theorem C11_adjacency_weight_counts_position_pairs (t : analyse.TextRanker)
    (σc : GoMap (String × String) ℚ → GoMap (String × String) ℚ) (hc : IsEnum σc)
    (sentence : String) (allowPOS : List String) (a b : String) (hab : a ≠ b) :
    ((((summary.graphOf (σc (analyse.cooccurrence (analyse.posFilt allowPOS)
        (t.cut sentence)))).graph.getD a []).filter (fun e => e.«end» = b)).map
      edge.weight).sum = (pairCount allowPOS (t.cut sentence) a b : ℚ) := by
  rw [graphOf_weight _ (cooccurrence_nodup _ _) σc hc, cooccurrence_getD_count,
    cooccurrence_getD_count, pairCount_eq allowPOS _ a b hab]
  push_cast
  rfl

/-- C11 at the token sequence "AA"/n, "BB"/n, "AA"/n with allowed tags {n}: the position
pairs (0, 1) and (1, 2) join "AA" and "BB". -/
theorem C11_adjacency_weight_counts_position_pairs_witness :
    (IsEnum (List.reverse : GoMap (String × String) ℚ → GoMap (String × String) ℚ) ∧
      ("AA" : String) ≠ "BB") ∧
    ((((summary.graphOf (List.reverse (analyse.cooccurrence (analyse.posFilt ["n"])
        (threeNouns.cut "AABBAA")))).graph.getD "AA" []).filter (fun e => e.«end» = "BB")).map
      edge.weight).sum = (pairCount ["n"] (threeNouns.cut "AABBAA") "AA" "BB" : ℚ) ∧
    pairCount ["n"] (threeNouns.cut "AABBAA") "AA" "BB" = 2 :=
  ⟨⟨isEnum_reverse, by decide⟩,
    C11_adjacency_weight_counts_position_pairs threeNouns List.reverse isEnum_reverse
      "AABBAA" ["n"] "AA" "BB" (by decide),
    by decide⟩

/-! ## The raw scores as a function of the total weights -/

theorem fin_add_fin (a b : ℚ) : float64.add (float64.fin a) (float64.fin b) = float64.fin (a + b) :=
  rfl

theorem fin_mul_fin (a b : ℚ) : float64.mul (float64.fin a) (float64.fin b) = float64.fin (a * b) :=
  rfl

theorem fin_sub_fin (a b : ℚ) : float64.sub (float64.fin a) (float64.fin b) = float64.fin (a - b) := by
  simp [float64.sub, float64.neg, float64.add, sub_eq_add_neg]

theorem fin_div_fin (a b : ℚ) (hb : b ≠ 0) :
    float64.div (float64.fin a) (float64.fin b) = float64.fin (a / b) := by
  simp [float64.div, hb]

theorem zero_div_zero : float64.div (float64.fin 0) (float64.fin 0) = float64.nan := by
  simp [float64.div]

theorem nan_mul (x : float64) : float64.mul float64.nan x = float64.nan := by
  cases x <;> rfl

theorem mul_nan (x : float64) : float64.mul x float64.nan = float64.nan := by
  cases x <;> rfl

theorem nan_add (x : float64) : float64.add float64.nan x = float64.nan := by
  cases x <;> rfl

theorem add_nan (x : float64) : float64.add x float64.nan = float64.nan := by
  cases x <;> rfl

theorem nan_sub (x : float64) : float64.sub float64.nan x = float64.nan := by
  cases x <;> rfl

theorem nan_div (x : float64) : float64.div float64.nan x = float64.nan := by
  cases x <;> rfl

theorem lt_nan (x : float64) : float64.lt x float64.nan = false := by
  cases x <;> rfl

theorem nan_lt (x : float64) : float64.lt float64.nan x = false := by
  cases x <;> rfl

theorem eq_nan (x : float64) : float64.eq x float64.nan = false := by
  cases x <;> rfl

theorem nan_eq (x : float64) : float64.eq float64.nan x = false := by
  cases x <;> rfl

theorem fin_lt_fin (a b : ℚ) : float64.lt (float64.fin a) (float64.fin b) = decide (a < b) :=
  rfl

theorem fin_eq_fin (a b : ℚ) : float64.eq (float64.fin a) (float64.fin b) = decide (a = b) := by
  simp [float64.eq]

theorem fin_ge_fin (a b : ℚ) : float64.ge (float64.fin a) (float64.fin b) = decide (b ≤ a) := by
  simp only [float64.ge, fin_lt_fin, fin_eq_fin]
  rw [Bool.eq_iff_iff]
  simp only [Bool.or_eq_true, decide_eq_true_eq]
  constructor
  · rintro (h | h)
    · exact le_of_lt h
    · exact le_of_eq h.symm
  · intro h
    rcases lt_or_eq_of_le h with h | h
    · exact Or.inl h
    · exact Or.inr h.symm

/-! ## Agreement of the two score models when no divisor is zero -/

theorem embed_get? (ws : GoMap String ℚ) (m : String) :
    (ieee.embed ws).get? m = (ws.get? m).map float64.fin := by
  induction ws with
  | nil => rfl
  | cons p rest ih =>
    obtain ⟨k, v⟩ := p
    by_cases h : k = m
    · simp [ieee.embed, GoMap.get?, h]
    · have ih' : GoMap.get? (List.map (fun p => (p.1, float64.fin p.2)) rest) m =
          Option.map float64.fin (GoMap.get? rest m) := ih
      simp [ieee.embed, GoMap.get?, h, ih']

theorem embed_getD (ws : GoMap String ℚ) (m : String) :
    (ieee.embed ws).getD m (float64.fin 0) = float64.fin (ws.getD m 0) := by
  unfold GoMap.getD
  rw [embed_get?]
  cases ws.get? m <;> rfl

theorem embed_set (ws : GoMap String ℚ) (n : String) (v : ℚ) :
    (ieee.embed ws).set n (float64.fin v) = ieee.embed (ws.set n v) := by
  induction ws with
  | nil => rfl
  | cons p rest ih =>
    obtain ⟨k, w⟩ := p
    have ih' : GoMap.set (List.map (fun p => (p.1, float64.fin p.2)) rest) n (float64.fin v) =
        List.map (fun p => (p.1, float64.fin p.2)) (GoMap.set rest n v) := ih
    by_cases h : k = n
    · simp [ieee.embed, GoMap.set, h]
    · simp [ieee.embed, GoMap.set, h, ih']

theorem embed_keys (ws : GoMap String ℚ) : (ieee.embed ws).keys = ws.keys := by
  simp [ieee.embed, GoMap.keys, Function.comp_def]

theorem foldl_terms_embed (es : edges) (outSum ws : GoMap String ℚ)
    (h : ∀ e ∈ es, outSum.getD e.«end» 0 ≠ 0) (z : ℚ) :
    es.foldl
      (fun s e => float64.add s
        (float64.mul
          (float64.div (float64.fin e.weight) (float64.fin (outSum.getD e.«end» 0)))
          ((ieee.embed ws).getD e.«end» (float64.fin 0))))
      (float64.fin z) =
    float64.fin (es.foldl
      (fun s e => s + e.weight / outSum.getD e.«end» 0 * ws.getD e.«end» 0) z) := by
  induction es generalizing z with
  | nil => rfl
  | cons e rest ih =>
    rw [List.foldl_cons, List.foldl_cons, embed_getD,
      fin_div_fin _ _ (h e (List.mem_cons_self _ _)), fin_mul_fin, fin_add_fin]
    exact ih (fun e' he' => h e' (List.mem_cons_of_mem _ he')) _

theorem rankNode_embed (graph : GoMap String edges) (outSum ws : GoMap String ℚ) (n : String)
    (h : ∀ e ∈ graph.getD n [], outSum.getD e.«end» 0 ≠ 0) :
    ieee.rankNode graph outSum (ieee.embed ws) n = ieee.embed (rankNode graph outSum ws n) := by
  unfold ieee.rankNode rankNode
  simp only
  rw [foldl_terms_embed _ _ _ h, fin_mul_fin, fin_add_fin, embed_set]

theorem rankPass_embed (graph : GoMap String edges) (outSum : GoMap String ℚ)
    (keys : List String) (ws : GoMap String ℚ)
    (h : ∀ n ∈ keys, ∀ e ∈ graph.getD n [], outSum.getD e.«end» 0 ≠ 0) :
    ieee.rankPass graph outSum keys (ieee.embed ws) =
      ieee.embed (rankPass graph outSum keys ws) := by
  induction keys generalizing ws with
  | nil => rfl
  | cons k rest ih =>
    unfold ieee.rankPass rankPass
    rw [List.foldl_cons, List.foldl_cons, rankNode_embed _ _ _ _ (h k (List.mem_cons_self _ _))]
    exact ih _ (fun n hn => h n (List.mem_cons_of_mem _ hn))

theorem iterate_rankPass_embed (graph : GoMap String edges) (outSum : GoMap String ℚ)
    (keys : List String)
    (h : ∀ n ∈ keys, ∀ e ∈ graph.getD n [], outSum.getD e.«end» 0 ≠ 0) (k : ℕ)
    (ws : GoMap String ℚ) :
    (ieee.rankPass graph outSum keys)^[k] (ieee.embed ws) =
      ieee.embed ((rankPass graph outSum keys)^[k] ws) := by
  induction k generalizing ws with
  | zero => rfl
  | succ k ih =>
    rw [Function.iterate_succ_apply, Function.iterate_succ_apply, rankPass_embed _ _ _ _ h]
    exact ih _

theorem rawScores_embed (u : undirectWeightedGraph)
    (h : ∀ n, ∀ e ∈ u.graph.getD n [], (rankInit u.graph).2.getD e.«end» 0 ≠ 0) :
    ieee.rawScores u = ieee.embed (rawScores u) := by
  unfold ieee.rawScores rawScores
  exact iterate_rankPass_embed _ _ _ (fun n _ => h n) 10 _

theorem outSum_buildGraph (calls : List EdgeCall) (n : String) :
    (rankInit (buildGraph calls).graph).2.getD n 0 = outWeight calls n := by
  have hwf := buildGraph_wf calls
  rw [outSum_getD _ (hwf.1 ▸ hwf.2), buildGraph_getD]
  rfl

theorem adjacency_end_endpoint (calls : List EdgeCall) (n : String) (e : edge)
    (he : e ∈ adjacency calls n) : ∃ c ∈ calls, e.«end» = c.1 ∨ e.«end» = c.2.1 := by
  obtain ⟨c, hc, h | h⟩ := (mem_adjacency calls n e).1 he
  · exact ⟨c, hc, Or.inr (by rw [h.2])⟩
  · exact ⟨c, hc, Or.inl (by rw [h.2])⟩

theorem rawScores_buildGraph_embed (calls : List EdgeCall)
    (hout : ∀ n, (∃ c ∈ calls, n = c.1 ∨ n = c.2.1) → outWeight calls n ≠ 0) :
    ieee.rawScores (buildGraph calls) = ieee.embed (rawScores (buildGraph calls)) := by
  apply rawScores_embed
  intro n e he
  rw [buildGraph_getD] at he
  rw [outSum_buildGraph]
  exact hout _ (adjacency_end_endpoint calls n e he)

/-! ## Min/max loop and normalisation on finite scores -/

theorem foldl_minMax_fin (v : List ℚ) (a b : ℚ) :
    (v.map float64.fin).foldl
      (fun acc w =>
        if float64.lt w acc.1 then (w, acc.2)
        else if float64.lt acc.2 w then (acc.1, w)
        else acc)
      (float64.fin a, float64.fin b) =
    (float64.fin (v.foldl
        (fun acc w =>
          if w < acc.1 then (w, acc.2)
          else if w > acc.2 then (acc.1, w)
          else acc) (a, b)).1,
      float64.fin (v.foldl
        (fun acc w =>
          if w < acc.1 then (w, acc.2)
          else if w > acc.2 then (acc.1, w)
          else acc) (a, b)).2) := by
  induction v generalizing a b with
  | nil => rfl
  | cons w rest ih =>
    rw [List.map_cons, List.foldl_cons, List.foldl_cons]
    simp only [fin_lt_fin, decide_eq_true_eq, gt_iff_lt]
    by_cases h1 : w < a
    · rw [if_pos h1, if_pos h1]
      exact ih w b
    · rw [if_neg h1, if_neg h1]
      by_cases h2 : b < w
      · rw [if_pos h2, if_pos h2]
        exact ih a w
      · rw [if_neg h2, if_neg h2]
        exact ih a b

theorem minMaxRank_fin (v : List ℚ) :
    ieee.minMaxRank (v.map float64.fin) =
      (float64.fin (minMaxRank v).1, float64.fin (minMaxRank v).2) :=
  foldl_minMax_fin v _ _

theorem normalize_fin (a b w : ℚ) (h : b - a / 10 ≠ 0) :
    ieee.normalize (float64.fin a) (float64.fin b) (float64.fin w) =
      float64.fin (normalize a b w) := by
  unfold ieee.normalize normalize
  rw [fin_div_fin _ _ (by norm_num), fin_sub_fin, fin_sub_fin, fin_div_fin _ _ h]

theorem toRat_embed (ws : GoMap String ℚ) :
    (ieee.embed ws).map (fun p => (p.1, float64.toRat p.2)) = ws := by
  induction ws with
  | nil => rfl
  | cons p rest ih =>
    unfold ieee.embed at ih ⊢
    rw [List.map_cons, List.map_cons, ih]
    rfl

theorem embed_toRat (l : GoMap String float64) (h : ∀ p ∈ l, ∃ q, p.2 = float64.fin q) :
    ieee.embed (l.map (fun p => (p.1, float64.toRat p.2))) = l := by
  induction l with
  | nil => rfl
  | cons p rest ih =>
    obtain ⟨k, x⟩ := p
    obtain ⟨q, hq⟩ := h (k, x) (List.mem_cons_self _ _)
    have hq' : x = float64.fin q := hq
    subst hq'
    have ih' := ih (fun p hp => h p (List.mem_cons_of_mem _ hp))
    unfold ieee.embed at ih' ⊢
    rw [List.map_cons, List.map_cons, ih']
    rfl

theorem mem_embed (ws : GoMap String ℚ) (p : String × float64) (hp : p ∈ ieee.embed ws) :
    ∃ q, p.2 = float64.fin q := by
  obtain ⟨r, -, rfl⟩ := List.mem_map.1 hp
  exact ⟨r.2, rfl⟩

theorem enum_embed (σ : GoMap String float64 → GoMap String float64) (hσ : IsEnum σ)
    (ws : GoMap String ℚ) :
    ∃ l : GoMap String ℚ, σ (ieee.embed ws) = ieee.embed l ∧ l.Perm ws := by
  refine ⟨(σ (ieee.embed ws)).map (fun p => (p.1, float64.toRat p.2)), ?_, ?_⟩
  · exact (embed_toRat _ (fun p hp => mem_embed ws p ((hσ _).mem_iff.1 hp))).symm
  · have h := (hσ (ieee.embed ws)).map (fun p => (p.1, float64.toRat p.2))
    rwa [toRat_embed] at h

theorem rankScores_finite (calls : List EdgeCall) (hnn : ∀ c ∈ calls, 0 ≤ c.2.2)
    (hout : ∀ n, (∃ c ∈ calls, n = c.1 ∨ n = c.2.1) → outWeight calls n ≠ 0)
    (σ₁ σ₂ : GoMap String float64 → GoMap String float64) (h₁ : IsEnum σ₁) (h₂ : IsEnum σ₂) :
    ∃ L : List (String × ℚ),
      ieee.rankScores (buildGraph calls) σ₁ σ₂ = L.map (fun p => (p.1, float64.fin p.2)) ∧
      (L.map Prod.fst).Perm (buildGraph calls).keys := by
  obtain ⟨l₁, e₁, p₁⟩ := enum_embed σ₁ h₁ (rawScores (buildGraph calls))
  obtain ⟨l₂, e₂, p₂⟩ := enum_embed σ₂ h₂ (rawScores (buildGraph calls))
  have hge : ∀ w ∈ l₁.map Prod.snd, 3 / 20 ≤ w := by
    intro w hw
    obtain ⟨p, hp, rfl⟩ := List.mem_map.1 hw
    exact rawScores_ge calls hnn p (p₁.mem_iff.1 hp)
  have hden := minMaxRank_denominator _ hge
  have hsnd : (ieee.embed l₁).map Prod.snd = (l₁.map Prod.snd).map float64.fin := by
    simp [ieee.embed, Function.comp_def]
  refine ⟨l₂.map (fun p => (p.1, normalize (minMaxRank (l₁.map Prod.snd)).1
    (minMaxRank (l₁.map Prod.snd)).2 p.2)), ?_, ?_⟩
  · unfold ieee.rankScores
    simp only
    rw [rawScores_buildGraph_embed calls hout, e₁, e₂, hsnd, minMaxRank_fin]
    simp only [ieee.embed, List.map_map, Function.comp_def, normalize_fin _ _ _ hden]
  · rw [List.map_map]
    have hk := rawScores_keys _ (buildGraph_wf calls)
    have : (l₂.map Prod.fst).Perm (rawScores (buildGraph calls)).keys := p₂.map Prod.fst
    rw [hk] at this
    exact this

/-! ## Insertion sort -/

theorem insertLeft_perm {ρ : Type} (less : ρ → ρ → Bool) (x : ρ) (l : List ρ) :
    (ieee.insertLeft less x l).Perm (x :: l) := by
  induction l with
  | nil => exact List.Perm.refl _
  | cons y rest ih =>
    unfold ieee.insertLeft
    split
    · exact ((ih.cons y).trans (List.Perm.swap x y rest))
    · exact List.Perm.refl _

theorem foldl_insertLeft_perm {ρ : Type} (less : ρ → ρ → Bool) (l acc : List ρ) :
    (l.foldl (fun sorted x => ieee.insertLeft less x sorted) acc).Perm (l ++ acc) := by
  induction l generalizing acc with
  | nil => exact List.Perm.refl _
  | cons x rest ih =>
    rw [List.foldl_cons]
    refine (ih _).trans ?_
    refine (List.Perm.append_left rest (insertLeft_perm less x acc)).trans ?_
    exact (List.perm_middle).trans (List.Perm.refl _)

theorem insertionSort_perm {ρ : Type} (less : ρ → ρ → Bool) (l : List ρ) :
    (ieee.insertionSort less l).Perm l := by
  unfold ieee.insertionSort
  refine (List.reverse_perm _).trans ?_
  have h := foldl_insertLeft_perm less l []
  rwa [List.append_nil] at h

theorem insertLeft_map {ρ τ : Type} (f : ρ → τ) (less₁ : ρ → ρ → Bool) (less₂ : τ → τ → Bool)
    (h : ∀ a b, less₂ (f a) (f b) = less₁ a b) (x : ρ) (l : List ρ) :
    ieee.insertLeft less₂ (f x) (l.map f) = (ieee.insertLeft less₁ x l).map f := by
  induction l with
  | nil => rfl
  | cons y rest ih =>
    rw [List.map_cons]
    unfold ieee.insertLeft
    rw [h x y]
    split
    · rw [List.map_cons, ih]
    · rfl

theorem foldl_insertLeft_map {ρ τ : Type} (f : ρ → τ) (less₁ : ρ → ρ → Bool)
    (less₂ : τ → τ → Bool) (h : ∀ a b, less₂ (f a) (f b) = less₁ a b) (l acc : List ρ) :
    (l.map f).foldl (fun sorted x => ieee.insertLeft less₂ x sorted) (acc.map f) =
      (l.foldl (fun sorted x => ieee.insertLeft less₁ x sorted) acc).map f := by
  induction l generalizing acc with
  | nil => rfl
  | cons x rest ih =>
    rw [List.map_cons, List.foldl_cons, List.foldl_cons, insertLeft_map f less₁ less₂ h]
    exact ih _

theorem insertionSort_map {ρ τ : Type} (f : ρ → τ) (less₁ : ρ → ρ → Bool)
    (less₂ : τ → τ → Bool) (h : ∀ a b, less₂ (f a) (f b) = less₁ a b) (l : List ρ) :
    ieee.insertionSort less₂ (l.map f) = (ieee.insertionSort less₁ l).map f := by
  unfold ieee.insertionSort
  have := foldl_insertLeft_map f less₁ less₂ h l []
  rw [List.map_nil] at this
  rw [this, List.map_reverse]

theorem insertLeft_pairwise {ρ K : Type} [LinearOrder K] (less : ρ → ρ → Bool) (key : ρ → K)
    (h : ∀ a b, less a b = true ↔ key b < key a) (x : ρ) (l : List ρ)
    (hl : l.Pairwise (fun a b => key a ≤ key b)) :
    (ieee.insertLeft less x l).Pairwise (fun a b => key a ≤ key b) := by
  induction l with
  | nil => exact List.pairwise_singleton _ _
  | cons y rest ih =>
    obtain ⟨hy, hrest⟩ := List.pairwise_cons.1 hl
    unfold ieee.insertLeft
    split
    · rename_i hlt
      refine List.pairwise_cons.2 ⟨?_, ih hrest⟩
      intro z hz
      rcases List.mem_cons.1 ((insertLeft_perm less x rest).mem_iff.1 hz) with rfl | hz'
      · exact le_of_lt ((h _ _).1 hlt)
      · exact hy z hz'
    · rename_i hnlt
      have hxy : key x ≤ key y := not_lt.1 (fun hlt => hnlt ((h _ _).2 hlt))
      refine List.pairwise_cons.2 ⟨?_, hl⟩
      intro z hz
      rcases List.mem_cons.1 hz with rfl | hz'
      · exact hxy
      · exact le_trans hxy (hy z hz')

theorem foldl_insertLeft_pairwise {ρ K : Type} [LinearOrder K] (less : ρ → ρ → Bool)
    (key : ρ → K) (h : ∀ a b, less a b = true ↔ key b < key a) (l acc : List ρ)
    (hacc : acc.Pairwise (fun a b => key a ≤ key b)) :
    (l.foldl (fun sorted x => ieee.insertLeft less x sorted) acc).Pairwise
      (fun a b => key a ≤ key b) := by
  induction l generalizing acc with
  | nil => exact hacc
  | cons x rest ih =>
    rw [List.foldl_cons]
    exact ih _ (insertLeft_pairwise less key h x acc hacc)

theorem insertionSort_pairwise {ρ K : Type} [LinearOrder K] (less : ρ → ρ → Bool)
    (key : ρ → K) (h : ∀ a b, less a b = true ↔ key b < key a) (l : List ρ) :
    (ieee.insertionSort less l).Pairwise (fun a b => key b ≤ key a) := by
  unfold ieee.insertionSort
  rw [List.pairwise_reverse]
  exact foldl_insertLeft_pairwise less key h l [] List.Pairwise.nil

/-! ## `rank` on graphs without a zero out-weight -/

theorem less_fin_iff (a b : String × ℚ) :
    ieee.Less (b.1, float64.fin b.2) (a.1, float64.fin a.2) =
      decide (toLex (b.2, b.1) < toLex (a.2, a.1)) := by
  unfold ieee.Less
  rw [Bool.eq_iff_iff, decide_eq_true_eq, lex_lt_iff]
  simp only [fin_eq_fin, fin_lt_fin, decide_eq_true_eq]
  by_cases h : b.2 = a.2
  · simp [h]
  · simp [h]

theorem rank_finite (calls : List EdgeCall) (hnn : ∀ c ∈ calls, 0 ≤ c.2.2)
    (hout : ∀ n, (∃ c ∈ calls, n = c.1 ∨ n = c.2.1) → outWeight calls n ≠ 0)
    (σ₁ σ₂ : GoMap String float64 → GoMap String float64) (h₁ : IsEnum σ₁) (h₂ : IsEnum σ₂) :
    ∃ S : List (String × ℚ),
      ieee.rank (buildGraph calls) σ₁ σ₂ = S.map (fun p => (p.1, float64.fin p.2)) ∧
      (S.map Prod.fst).Perm (buildGraph calls).keys ∧
      S.Pairwise (fun a b => b.2 ≤ a.2) := by
  obtain ⟨L, hL, hperm⟩ := rankScores_finite calls hnn hout σ₁ σ₂ h₁ h₂
  refine ⟨ieee.insertionSort (fun a b => decide (toLex (b.2, b.1) < toLex (a.2, a.1))) L,
    ?_, ?_, ?_⟩
  · unfold ieee.rank
    rw [hL]
    exact insertionSort_map (fun (p : String × ℚ) => (p.1, float64.fin p.2))
      (fun a b => decide (toLex (b.2, b.1) < toLex (a.2, a.1)))
      (fun a b => ieee.Less b a) (fun a b => less_fin_iff a b) L
  · exact ((insertionSort_perm _ L).map Prod.fst).trans hperm
  · have h := insertionSort_pairwise
      (fun (a b : String × ℚ) => decide (toLex (b.2, b.1) < toLex (a.2, a.1)))
      (fun a => toLex (a.2, a.1)) (fun a b => decide_eq_true_iff) L
    exact List.Pairwise.imp (fun {a b} hab => lex_le_weight _ _ _ _ hab) h

/-- C1 (amended): for every graph built by a sequence of `addEdge` calls with
non-negative weights in which every node has a non-zero out-weight (the sum of the
weights of its adjacency entries), and every order in which the score table is
enumerated, `rank` returns exactly one entry per distinct node label: the labels of the
result have no repetition and are exactly the endpoints of the inserted edges (they are
a rearrangement of the key list); every returned score is a finite number, and the
returned scores are in non-increasing order from first to last. -/
theorem C1_rank_sorted_without_zero_out_weight (calls : List EdgeCall)
    (hnn : ∀ c ∈ calls, 0 ≤ c.2.2)
    (hout : ∀ n, (∃ c ∈ calls, n = c.1 ∨ n = c.2.1) → outWeight calls n ≠ 0)
    (σ₁ σ₂ : GoMap String float64 → GoMap String float64) (h₁ : IsEnum σ₁) (h₂ : IsEnum σ₂) :
    ((ieee.rank (buildGraph calls) σ₁ σ₂).map Prod.fst).Nodup ∧
    (∀ n, n ∈ (ieee.rank (buildGraph calls) σ₁ σ₂).map Prod.fst ↔
      ∃ c ∈ calls, n = c.1 ∨ n = c.2.1) ∧
    ((ieee.rank (buildGraph calls) σ₁ σ₂).map Prod.fst).Perm (buildGraph calls).keys ∧
    (∀ p ∈ ieee.rank (buildGraph calls) σ₁ σ₂, ∃ q, p.2 = float64.fin q) ∧
    ((ieee.rank (buildGraph calls) σ₁ σ₂).map Prod.snd).Pairwise
      (fun x y => float64.ge x y = true) := by
  obtain ⟨S, hS, hperm, hsorted⟩ := rank_finite calls hnn hout σ₁ σ₂ h₁ h₂
  have hlabels : (ieee.rank (buildGraph calls) σ₁ σ₂).map Prod.fst = S.map Prod.fst := by
    rw [hS, List.map_map]
    rfl
  rw [hlabels]
  refine ⟨hperm.nodup_iff.2 (buildGraph_wf calls).2, fun n => ?_, hperm, ?_, ?_⟩
  · rw [hperm.mem_iff, mem_buildGraph_keys]
  · intro p hp
    rw [hS] at hp
    obtain ⟨r, -, rfl⟩ := List.mem_map.1 hp
    exact ⟨r.2, rfl⟩
  · rw [hS, List.map_map, List.pairwise_map]
    refine List.Pairwise.imp (fun {a b} hab => ?_) hsorted
    show float64.ge (float64.fin a.2) (float64.fin b.2) = true
    rw [fin_ge_fin]
    exact decide_eq_true hab

/-- C1 (amended) at the calls `addEdge("A", "B", 1)`, `addEdge("B", "C", 0)` and
`addEdge("A", "C", 2)`, the score table enumerated forwards in the min/max loop and
backwards in the last loop: the zero-weight edge joins two nodes whose out-weights are
1 and 2. -/
theorem C1_rank_sorted_without_zero_out_weight_witness :
    ((∀ c ∈ [(("A", "B", 1) : EdgeCall), ("B", "C", 0), ("A", "C", 2)], 0 ≤ c.2.2) ∧
      (∀ n, (∃ c ∈ [(("A", "B", 1) : EdgeCall), ("B", "C", 0), ("A", "C", 2)],
          n = c.1 ∨ n = c.2.1) →
        outWeight [("A", "B", 1), ("B", "C", 0), ("A", "C", 2)] n ≠ 0) ∧
      IsEnum (id : GoMap String float64 → GoMap String float64) ∧
      IsEnum (List.reverse : GoMap String float64 → GoMap String float64)) ∧
    (((ieee.rank (buildGraph [("A", "B", 1), ("B", "C", 0), ("A", "C", 2)]) id
        List.reverse).map Prod.fst).Nodup ∧
      (∀ n, n ∈ (ieee.rank (buildGraph [("A", "B", 1), ("B", "C", 0), ("A", "C", 2)]) id
          List.reverse).map Prod.fst ↔
        ∃ c ∈ [(("A", "B", 1) : EdgeCall), ("B", "C", 0), ("A", "C", 2)], n = c.1 ∨ n = c.2.1) ∧
      ((ieee.rank (buildGraph [("A", "B", 1), ("B", "C", 0), ("A", "C", 2)]) id
        List.reverse).map Prod.fst).Perm
        (buildGraph [("A", "B", 1), ("B", "C", 0), ("A", "C", 2)]).keys ∧
      (∀ p ∈ ieee.rank (buildGraph [("A", "B", 1), ("B", "C", 0), ("A", "C", 2)]) id
        List.reverse, ∃ q, p.2 = float64.fin q) ∧
      ((ieee.rank (buildGraph [("A", "B", 1), ("B", "C", 0), ("A", "C", 2)]) id
        List.reverse).map Prod.snd).Pairwise (fun x y => float64.ge x y = true)) :=
  have hnn : ∀ c ∈ [(("A", "B", 1) : EdgeCall), ("B", "C", 0), ("A", "C", 2)], 0 ≤ c.2.2 := by
    intro c hc
    simp only [List.mem_cons, List.mem_singleton, List.mem_nil_iff, or_false] at hc
    rcases hc with rfl | rfl | rfl <;> norm_num
  have hout : ∀ n, (∃ c ∈ [(("A", "B", 1) : EdgeCall), ("B", "C", 0), ("A", "C", 2)],
      n = c.1 ∨ n = c.2.1) →
      outWeight [("A", "B", 1), ("B", "C", 0), ("A", "C", 2)] n ≠ 0 := by
    rintro n ⟨c, hc, hn⟩
    simp only [List.mem_cons, List.mem_singleton, List.mem_nil_iff, or_false] at hc
    rcases hc with rfl | rfl | rfl <;> rcases hn with rfl | rfl <;>
      simp [outWeight, adjacency] <;> norm_num
  ⟨⟨hnn, hout, fun l => List.Perm.refl l, fun l => List.reverse_perm l⟩,
    C1_rank_sorted_without_zero_out_weight [("A", "B", 1), ("B", "C", 0), ("A", "C", 2)]
      hnn hout id List.reverse (fun l => List.Perm.refl l) (fun l => List.reverse_perm l)⟩

/-! ## A graph with a zero-weight edge between two nodes of out-weight zero -/

theorem buildGraph_zeroEdge :
    buildGraph zeroEdgeCalls =
      { graph := [("A", [⟨"A", "B", 1⟩]), ("B", [⟨"B", "A", 1⟩]), ("C", [⟨"C", "D", 0⟩]),
          ("D", [⟨"D", "C", 0⟩]), ("E", [⟨"E", "F", 1⟩]), ("F", [⟨"F", "E", 1⟩])],
        keys := ["A", "B", "C", "D", "E", "F"] } := by
  simp [buildGraph, zeroEdgeCalls, undirectWeightedGraph.addEdge, undirectWeightedGraph.addHalf,
    newUndirectWeightedGraph, GoMap.get?, GoMap.set]

theorem sortKeys_zeroEdge :
    sortKeys ["A", "B", "C", "D", "E", "F"] = ["A", "B", "C", "D", "E", "F"] := by
  have hs : List.Sorted (· ≤ ·) ["A", "B", "C", "D", "E", "F"] := by
    simp [List.Sorted]
    decide
  unfold sortKeys
  rw [if_pos hs]

theorem rankInit_zeroEdge :
    rankInit [("A", [⟨"A", "B", 1⟩]), ("B", [⟨"B", "A", 1⟩]), ("C", [⟨"C", "D", 0⟩]),
        ("D", [⟨"D", "C", 0⟩]), ("E", [⟨"E", "F", 1⟩]), ("F", [⟨"F", "E", 1⟩])] =
      ([("A", 1 / 6), ("B", 1 / 6), ("C", 1 / 6), ("D", 1 / 6), ("E", 1 / 6), ("F", 1 / 6)],
        [("A", 1), ("B", 1), ("C", 0), ("D", 0), ("E", 1), ("F", 1)]) := by
  simp [rankInit, GoMap.set]

theorem rankPass_zeroEdge (a b e f : ℚ) (c d : float64) :
    ieee.rankPass
        [("A", [⟨"A", "B", 1⟩]), ("B", [⟨"B", "A", 1⟩]), ("C", [⟨"C", "D", 0⟩]),
          ("D", [⟨"D", "C", 0⟩]), ("E", [⟨"E", "F", 1⟩]), ("F", [⟨"F", "E", 1⟩])]
        [("A", 1), ("B", 1), ("C", 0), ("D", 0), ("E", 1), ("F", 1)]
        ["A", "B", "C", "D", "E", "F"]
        [("A", float64.fin a), ("B", float64.fin b), ("C", c), ("D", d),
          ("E", float64.fin e), ("F", float64.fin f)] =
      [("A", float64.fin (3 / 20 + 17 / 20 * b)),
        ("B", float64.fin (3 / 20 + 17 / 20 * (3 / 20 + 17 / 20 * b))),
        ("C", float64.nan), ("D", float64.nan),
        ("E", float64.fin (3 / 20 + 17 / 20 * f)),
        ("F", float64.fin (3 / 20 + 17 / 20 * (3 / 20 + 17 / 20 * f)))] := by
  simp [ieee.rankPass, ieee.rankNode, GoMap.getD, GoMap.get?, GoMap.set, dampingFactor,
    fin_div_fin, zero_div_zero, nan_mul, mul_nan, add_nan, fin_add_fin, fin_mul_fin]
  norm_num

theorem iterate_zeroEdge (k : ℕ) :
    (ieee.rankPass
        [("A", [⟨"A", "B", 1⟩]), ("B", [⟨"B", "A", 1⟩]), ("C", [⟨"C", "D", 0⟩]),
          ("D", [⟨"D", "C", 0⟩]), ("E", [⟨"E", "F", 1⟩]), ("F", [⟨"F", "E", 1⟩])]
        [("A", 1), ("B", 1), ("C", 0), ("D", 0), ("E", 1), ("F", 1)]
        ["A", "B", "C", "D", "E", "F"])^[k + 1]
        (ieee.embed
          [("A", 1 / 6), ("B", 1 / 6), ("C", 1 / 6), ("D", 1 / 6), ("E", 1 / 6), ("F", 1 / 6)]) =
      [("A", float64.fin (1 - 5 / 6 * (17 / 20) ^ (2 * k + 1))),
        ("B", float64.fin (1 - 5 / 6 * (17 / 20) ^ (2 * k + 2))),
        ("C", float64.nan), ("D", float64.nan),
        ("E", float64.fin (1 - 5 / 6 * (17 / 20) ^ (2 * k + 1))),
        ("F", float64.fin (1 - 5 / 6 * (17 / 20) ^ (2 * k + 2)))] := by
  induction k with
  | zero =>
    rw [Function.iterate_one]
    show ieee.rankPass _ _ _ [("A", float64.fin (1 / 6)), ("B", float64.fin (1 / 6)),
      ("C", float64.fin (1 / 6)), ("D", float64.fin (1 / 6)), ("E", float64.fin (1 / 6)),
      ("F", float64.fin (1 / 6))] = _
    rw [rankPass_zeroEdge]
    norm_num
  | succ k ih =>
    rw [Function.iterate_succ_apply', ih, rankPass_zeroEdge]
    have e1 : (3 : ℚ) / 20 + 17 / 20 * (1 - 5 / 6 * (17 / 20) ^ (2 * k + 2)) =
        1 - 5 / 6 * (17 / 20) ^ (2 * (k + 1) + 1) := by ring
    have e2 : (3 : ℚ) / 20 + 17 / 20 * (1 - 5 / 6 * (17 / 20) ^ (2 * (k + 1) + 1)) =
        1 - 5 / 6 * (17 / 20) ^ (2 * (k + 1) + 2) := by ring
    rw [e1, e2]

theorem rawScores_zeroEdge :
    ieee.rawScores (buildGraph zeroEdgeCalls) =
      [("A", float64.fin lowRaw), ("B", float64.fin highRaw), ("C", float64.nan),
        ("D", float64.nan), ("E", float64.fin lowRaw), ("F", float64.fin highRaw)] := by
  rw [buildGraph_zeroEdge]
  unfold ieee.rawScores
  simp only [sortKeys_zeroEdge, rankInit_zeroEdge]
  exact iterate_zeroEdge 9

theorem lowRaw_lt_highRaw : lowRaw < highRaw := by
  unfold lowRaw highRaw; norm_num

theorem lowRaw_lt_max : lowRaw < MaxFloat64 := by
  unfold lowRaw MaxFloat64; norm_num

theorem small_lt_highRaw : SmallestNonzeroFloat64 < highRaw := by
  unfold highRaw SmallestNonzeroFloat64; norm_num

theorem minMaxRank_zeroEdge :
    ieee.minMaxRank [float64.fin lowRaw, float64.fin highRaw, float64.nan, float64.nan,
        float64.fin lowRaw, float64.fin highRaw] =
      (float64.fin lowRaw, float64.fin highRaw) := by
  simp [ieee.minMaxRank, fin_lt_fin, lt_nan, nan_lt, lowRaw_lt_max, lowRaw_lt_highRaw,
    small_lt_highRaw, not_lt.2 (le_of_lt lowRaw_lt_highRaw)]

theorem divisor_zeroEdge : highRaw - lowRaw / 10 ≠ 0 := by
  unfold lowRaw highRaw; norm_num

theorem normalize_high : normalize lowRaw highRaw highRaw = 1 := by
  unfold normalize
  exact div_self divisor_zeroEdge

theorem normalize_low_lt_one : normalize lowRaw highRaw lowRaw < 1 := by
  unfold normalize lowRaw highRaw; norm_num

theorem normalize_nan (a b : float64) : ieee.normalize a b float64.nan = float64.nan := by
  unfold ieee.normalize
  rw [nan_sub, nan_div]

theorem rankScores_zeroEdge :
    ieee.rankScores (buildGraph zeroEdgeCalls) id id =
      [("A", float64.fin (normalize lowRaw highRaw lowRaw)), ("B", float64.fin 1),
        ("C", float64.nan), ("D", float64.nan),
        ("E", float64.fin (normalize lowRaw highRaw lowRaw)), ("F", float64.fin 1)] := by
  unfold ieee.rankScores
  simp only [rawScores_zeroEdge, id, List.map_cons, List.map_nil, minMaxRank_zeroEdge,
    normalize_fin _ _ _ divisor_zeroEdge, normalize_nan, normalize_high]

theorem rank_zeroEdge :
    ieee.rank (buildGraph zeroEdgeCalls) id id =
      [("B", float64.fin 1), ("A", float64.fin (normalize lowRaw highRaw lowRaw)),
        ("C", float64.nan), ("D", float64.nan),
        ("F", float64.fin 1), ("E", float64.fin (normalize lowRaw highRaw lowRaw))] := by
  have hne : normalize lowRaw highRaw lowRaw ≠ 1 := ne_of_lt normalize_low_lt_one
  have hne' : (1 : ℚ) ≠ normalize lowRaw highRaw lowRaw := fun h => hne h.symm
  have hlt := normalize_low_lt_one
  rw [ieee.rank, rankScores_zeroEdge]
  simp [ieee.insertionSort, ieee.insertLeft, ieee.Less, fin_eq_fin, fin_lt_fin, eq_nan, nan_eq,
    lt_nan, nan_lt, hne, hne', hlt, not_lt.2 (le_of_lt hlt)]

/-- C1 fails as stated.  After `addEdge("A", "B", 1)`, `addEdge("C", "D", 0)` and
`addEdge("E", "F", 1)` the nodes "C" and "D" have out-weight 0, so their score is the
NaN `0 / 0 * score`.  With the score table enumerated in the order A, B, C, D, E, F,
`rank` returns the labels B, A, C, D, F, E with the scores 1, u, NaN, NaN, 1, u, where
`u < 1`: every comparison with a NaN is false, the insertion sort moves no entry past
"C" and "D", and the entry of "A" (score `u`) precedes the entry of "F" (score 1).  The
returned scores are not in non-increasing order. -/
theorem C1_zero_weight_edge_breaks_order :
    ieee.rank (buildGraph [("A", "B", 1), ("C", "D", 0), ("E", "F", 1)]) id id =
      [("B", float64.fin 1), ("A", float64.fin (normalize lowRaw highRaw lowRaw)),
        ("C", float64.nan), ("D", float64.nan),
        ("F", float64.fin 1), ("E", float64.fin (normalize lowRaw highRaw lowRaw))] ∧
    normalize lowRaw highRaw lowRaw < 1 ∧
    ¬ ((ieee.rank (buildGraph [("A", "B", 1), ("C", "D", 0), ("E", "F", 1)]) id id).map
        Prod.snd).Pairwise (fun x y => float64.ge x y = true) ∧
    ¬ ((ieee.rank (buildGraph [("A", "B", 1), ("C", "D", 0), ("E", "F", 1)]) id id).map
        Prod.snd).Pairwise (fun x y => float64.lt x y = false) := by
  have hrank : ieee.rank (buildGraph [("A", "B", 1), ("C", "D", 0), ("E", "F", 1)]) id id =
      [("B", float64.fin 1), ("A", float64.fin (normalize lowRaw highRaw lowRaw)),
        ("C", float64.nan), ("D", float64.nan),
        ("F", float64.fin 1), ("E", float64.fin (normalize lowRaw highRaw lowRaw))] :=
    rank_zeroEdge
  refine ⟨hrank, normalize_low_lt_one, ?_, ?_⟩
  · rw [hrank]
    intro h
    simp only [List.map_cons, List.map_nil] at h
    have h1 := (List.pairwise_cons.1 (List.pairwise_cons.1 h).2).1 float64.nan (by simp)
    simp [float64.ge, lt_nan, eq_nan, nan_lt] at h1
  · rw [hrank]
    intro h
    simp only [List.map_cons, List.map_nil] at h
    have h1 := (List.pairwise_cons.1 (List.pairwise_cons.1 h).2).1 (float64.fin 1) (by simp)
    rw [fin_lt_fin] at h1
    exact absurd (decide_eq_true normalize_low_lt_one) (by rw [h1]; simp)

end Jiebago
